import Mathlib

/-!
# Verification of the path-hunter grid search core (`src/script.js`)

Shallow embedding of the algorithmic core of the repository:
the grid model (`getNeighbors`), the three searches (`bfs`, `dfs`, `astar`
with `heuristic`), path reconstruction and the success test from `animate`,
the wall editor (`addWall`, drag handlers, resize clamping) and the three
maze generators (`generateDFSMaze`, `generateSpiralPattern`,
`recursiveDivision`).

Conventions of the embedding:
* a cell is a `Pos = (row, column)` pair of naturals, row-major, 0-indexed;
* the per-cell fields `isVisited`, `previousNode`, `gCost`, `fCost` of the
  JavaScript cells become the functional state `SState`; the JavaScript
  value `Infinity` (the reset value of `gCost`/`fCost`) is `Option.none`;
* the JavaScript `while` loops become fuel-indexed recursions returning
  `Option`; `none` means the fuel ran out, and termination theorems show
  the standard fuel is always enough;
* `Math.random()` draws are modelled by an oracle `Nat → Nat` consulted at
  successive indices; `Math.floor(Math.random() * k)` is `oracle i % k`;
* the DFS stack keeps its top at the head of the list (JavaScript pushes
  and pops at the array end), so `push` is `cons`; the BFS queue keeps the
  JavaScript order literally (dequeue at the head, enqueue at the tail).
-/

namespace PathHunter

/-- A cell position: (row, column). -/
abbrev Pos := Nat × Nat

/-- The grid configuration: dimensions and wall predicate
(`ROWS`, `COLS`, `isWall` of the JavaScript grid). -/
structure Grid where
  R : Nat
  C : Nat
  wall : Pos → Bool

/-- In-bounds predicate for a position on grid `g`. -/
def inB (g : Grid) (p : Pos) : Prop := p.1 < g.R ∧ p.2 < g.C

instance (g : Grid) (p : Pos) : Decidable (inB g p) := by
  unfold inB; infer_instance

/-- The transient per-cell search state: the `isVisited`, `previousNode`,
`gCost` and `fCost` fields of the JavaScript cells (`none` = `Infinity`).
The `distance` field of the JavaScript cells is written only by the reset
code and read by nothing, so it is not modelled. -/
structure SState where
  visited : Pos → Bool
  prev : Pos → Option Pos
  gCost : Pos → Option Nat
  fCost : Pos → Option Nat

/-- The state produced by `resetVisuals`: nothing visited, no backpointers,
all costs `Infinity`. -/
def initState : SState :=
  { visited := fun _ => false
    prev := fun _ => none
    gCost := fun _ => none
    fCost := fun _ => none }

/-- `getNeighbors` of `script.js`: up, right, down, left, each guarded by
the bounds check, in this fixed order. -/
def getNeighbors (g : Grid) (p : Pos) : List Pos :=
  (if p.1 > 0 then [(p.1 - 1, p.2)] else []) ++
  (if p.2 < g.C - 1 then [(p.1, p.2 + 1)] else []) ++
  (if p.1 < g.R - 1 then [(p.1 + 1, p.2)] else []) ++
  (if p.2 > 0 then [(p.1, p.2 - 1)] else [])

/-- Mark a cell visited (`n.isVisited = true`). -/
def markVisited (s : SState) (p : Pos) : SState :=
  { s with visited := fun q => if q = p then true else s.visited q }

/-- Record the discovering predecessor (`n.previousNode = current`). -/
def setPrev (s : SState) (p : Pos) (pre : Pos) : SState :=
  { s with prev := fun q => if q = p then some pre else s.prev q }

/-- JavaScript `<` between numbers where `none` stands for `Infinity`. -/
def infLt : Option Nat → Option Nat → Bool
  | some a, some b => a < b
  | some _, none => true
  | none, _ => false

/-- JavaScript `<=` between numbers where `none` stands for `Infinity`
(the ordering used by `openSet.sort((a, b) => a.fCost - b.fCost)`). -/
def infLe : Option Nat → Option Nat → Bool
  | some a, some b => a ≤ b
  | _, none => true
  | none, some _ => false

/-- `x + 1` with `Infinity + 1 = Infinity` (`current.gCost + 1`). -/
def infSucc : Option Nat → Option Nat
  | some a => some (a + 1)
  | none => none

/-- `heuristic` of `script.js`: Manhattan distance
`|a.r - b.r| + |a.c - b.c|`. -/
def heuristic (a b : Pos) : Nat := Nat.dist a.1 b.1 + Nat.dist a.2 b.2

/-! ## BFS (`bfs` of `script.js`) -/

/-- The neighbor loop of one BFS dequeue: for each neighbor in order, if it
is neither visited nor a wall, mark it visited, link `previousNode`, and
enqueue it at the tail. -/
def bfsExpand (g : Grid) (current : Pos) :
    List Pos → SState → List Pos → SState × List Pos
  | [], s, queue => (s, queue)
  | n :: ns, s, queue =>
    if !s.visited n && !g.wall n then
      bfsExpand g current ns (setPrev (markVisited s n) n current) (queue ++ [n])
    else
      bfsExpand g current ns s queue

/-- The BFS `while (queue.length)` loop. Returns the visitation trace, the
final state, and whether the loop ended because the queue emptied
(`false` = early exit at the end cell). -/
def bfsLoop (g : Grid) (endP : Pos) :
    Nat → List Pos → SState → List Pos → Option (List Pos × SState × Bool)
  | 0, _, _, _ => none
  | _ + 1, [], s, trace => some (trace, s, true)
  | fuel + 1, current :: rest, s, trace =>
    if current = endP then some (trace ++ [current], s, false)
    else
      let sq := bfsExpand g current (getNeighbors g current) s rest
      bfsLoop g endP fuel sq.2 sq.1 (trace ++ [current])

/-- Fuel sufficient for every BFS run on grid `g`. -/
def stdFuel (g : Grid) : Nat := 2 + 6 * (g.R * g.C)

/-- `bfs(start, end)` of `script.js`, run from the reset state: the queue
starts as `[start]` with `start.isVisited = true`. -/
def bfs (g : Grid) (start endP : Pos) : Option (List Pos × SState × Bool) :=
  bfsLoop g endP (stdFuel g) [start] (markVisited initState start) []

/-! ## DFS (`dfs` of `script.js`) -/

/-- The neighbor loop of one DFS pop; pushing at the array end is `cons`
with the stack top at the head. -/
def dfsExpand (g : Grid) (current : Pos) :
    List Pos → SState → List Pos → SState × List Pos
  | [], s, stack => (s, stack)
  | n :: ns, s, stack =>
    if !s.visited n && !g.wall n then
      dfsExpand g current ns (setPrev (markVisited s n) n current) (n :: stack)
    else
      dfsExpand g current ns s stack

/-- The DFS `while (stack.length)` loop (stack top at the head). -/
def dfsLoop (g : Grid) (endP : Pos) :
    Nat → List Pos → SState → List Pos → Option (List Pos × SState × Bool)
  | 0, _, _, _ => none
  | _ + 1, [], s, trace => some (trace, s, true)
  | fuel + 1, current :: rest, s, trace =>
    if current = endP then some (trace ++ [current], s, false)
    else
      let sq := dfsExpand g current (getNeighbors g current) s rest
      dfsLoop g endP fuel sq.2 sq.1 (trace ++ [current])

/-- `dfs(start, end)` of `script.js`, run from the reset state. -/
def dfs (g : Grid) (start endP : Pos) : Option (List Pos × SState × Bool) :=
  dfsLoop g endP (stdFuel g) [start] (markVisited initState start) []

/-! ## A* (`astar` of `script.js`) -/

/-- The neighbor loop of one A* expansion: skip walls and visited cells;
on a strict `gCost` improvement update `previousNode`, `gCost`,
`fCost = tentativeG + heuristic`, and append to the open set if absent. -/
def astarUpdate (g : Grid) (endP current : Pos) :
    List Pos → SState → List Pos → SState × List Pos
  | [], s, open_ => (s, open_)
  | n :: ns, s, open_ =>
    if g.wall n || s.visited n then
      astarUpdate g endP current ns s open_
    else
      let tg := infSucc (s.gCost current)
      if infLt tg (s.gCost n) then
        let s' : SState :=
          { s with
            prev := fun q => if q = n then some current else s.prev q
            gCost := fun q => if q = n then tg else s.gCost q
            fCost := fun q =>
              if q = n then
                (tg.map fun v => v + heuristic n endP)
              else s.fCost q }
        astarUpdate g endP current ns s'
          (if n ∈ open_ then open_ else open_ ++ [n])
      else
        astarUpdate g endP current ns s open_

/-- Insert `x` after every element `y` with `le y x` (the insertion step of
a stable ascending insertion sort). -/
def insertBy (le : α → α → Bool) (x : α) : List α → List α
  | [] => [x]
  | y :: ys => if le y x then y :: insertBy le x ys else x :: y :: ys

/-- Stable ascending sort. A stable sort is determined uniquely by the
(total pre)order, so this is the same function as JavaScript's stable
`Array.prototype.sort` used on the A* open set. Defined by structural
recursion so that concrete runs reduce in the kernel. -/
def sortBy (le : α → α → Bool) (l : List α) : List α :=
  l.foldl (fun acc x => insertBy le x acc) []

/-- The A* `while (openSet.length)` loop: stable-sort the open set by
`fCost` (`openSet.sort((a, b) => a.fCost - b.fCost)`), shift the head,
skip it if already visited, otherwise finalize it and expand. -/
def astarLoop (g : Grid) (endP : Pos) :
    Nat → List Pos → SState → List Pos → Option (List Pos × SState × Bool)
  | 0, _, _, _ => none
  | fuel + 1, open_, s, trace =>
    match sortBy (fun a b => infLe (s.fCost a) (s.fCost b)) open_ with
    | [] => some (trace, s, true)
    | current :: rest =>
      if s.visited current then astarLoop g endP fuel rest s trace
      else
        let s' := markVisited s current
        if current = endP then some (trace ++ [current], s', false)
        else
          let so := astarUpdate g endP current (getNeighbors g current) s' rest
          astarLoop g endP fuel so.2 so.1 (trace ++ [current])

/-- `astar(start, end)` of `script.js`, run from the reset state:
`start.gCost = 0`, `start.fCost = heuristic(start, end)`, open set
`[start]`, start not yet visited. -/
def astar (g : Grid) (start endP : Pos) : Option (List Pos × SState × Bool) :=
  astarLoop g endP (stdFuel g)
    [start]
    { initState with
      gCost := fun q => if q = start then some 0 else none
      fCost := fun q => if q = start then some (heuristic start endP) else none }
    []

/-! ## Path reconstruction and the success test (`animate` of `script.js`) -/

/-- The `while (curr) { path.unshift(curr); curr = curr.previousNode }`
loop of `animate`, with fuel (the JavaScript loop would diverge on a cyclic
backpointer chain; after a search the chains are acyclic and shorter than
the fuel used below). -/
def reconstructPath (prev : Pos → Option Pos) : Nat → Pos → List Pos
  | 0, p => [p]
  | fuel + 1, p =>
    match prev p with
    | none => [p]
    | some q => reconstructPath prev fuel q ++ [p]

/-- Outcome handed by `animate` to `showResults`: the success flag, the
visited count (trace length) and the reported path length
(`success ? path.length : 0`). -/
structure RunOutcome where
  success : Bool
  visitedCount : Nat
  pathLength : Nat
deriving DecidableEq, Repr

/-- The result computation of `animate`: reconstruct the path from the end
cell, test `path.length >= 1 && path[0] === startNode && !endNode.isWall
&& endNode.isVisited`, and report the metrics passed to `showResults`. -/
def animateCore (g : Grid) (startP endP : Pos) (trace : List Pos)
    (s : SState) : RunOutcome :=
  let path := reconstructPath s.prev (g.R * g.C) endP
  let ok := decide (1 ≤ path.length) && decide (path.head? = some startP) &&
    !g.wall endP && s.visited endP
  { success := ok
    visitedCount := trace.length
    pathLength := if ok then path.length else 0 }

/-! ## Sanity checks on concrete grids -/

/-- The open 2×2 grid. -/
def g22 : Grid := ⟨2, 2, fun _ => false⟩

example : (bfs g22 (0, 0) (1, 1)).map (fun o => (o.1, o.2.2)) =
    some ([(0, 0), (0, 1), (1, 0), (1, 1)], false) := by decide

example : (dfs g22 (0, 0) (1, 1)).map (fun o => (o.1, o.2.2)) =
    some ([(0, 0), (1, 0), (1, 1)], false) := by decide

example : (astar g22 (0, 0) (1, 1)).map (fun o => (o.1, o.2.2)) =
    some ([(0, 0), (0, 1), (1, 0), (1, 1)], false) := by decide

/-- A 3×3 grid with a wall column through the middle: end unreachable. -/
def g33blocked : Grid :=
  ⟨3, 3, fun p => decide (p.2 = 1)⟩

example : (bfs g33blocked (0, 0) (0, 2)).map (fun o => (o.1, o.2.2)) =
    some ([(0, 0), (1, 0), (2, 0)], true) := by decide

example :
    (bfs g33blocked (0, 0) (0, 2)).map
      (fun o => animateCore g33blocked (0, 0) (0, 2) o.1 o.2.1) =
    some ⟨false, 3, 0⟩ := by decide

/-! ## The neighbor contract (claim C4) -/

/-- 4-directional (orthogonal) adjacency of two cells. -/
def adjacent (p q : Pos) : Prop :=
  Nat.dist p.1 q.1 + Nat.dist p.2 q.2 = 1

instance (p q : Pos) : Decidable (adjacent p q) := by
  unfold adjacent; infer_instance

theorem adjacent_comm {p q : Pos} : adjacent p q ↔ adjacent q p := by
  unfold adjacent; rw [Nat.dist_comm p.1, Nat.dist_comm p.2]

/-- The four orthogonal candidate positions of a cell, as integers, in the
priority order up, right, down, left. -/
def neighborCandidates (p : Pos) : List (Int × Int) :=
  [((p.1 : Int) - 1, (p.2 : Int)), ((p.1 : Int), (p.2 : Int) + 1),
   ((p.1 : Int) + 1, (p.2 : Int)), ((p.1 : Int), (p.2 : Int) - 1)]

/-- Integer bounds check against grid `g`. -/
def inBZ (g : Grid) (q : Int × Int) : Bool :=
  decide (0 ≤ q.1 ∧ q.1 < (g.R : Int) ∧ 0 ≤ q.2 ∧ q.2 < (g.C : Int))

/-- Membership characterization of `getNeighbors`: for an in-bounds cell,
the neighbors are exactly the in-bounds orthogonally adjacent cells. -/
theorem mem_getNeighbors {g : Grid} {p : Pos} (hp : inB g p) (q : Pos) :
    q ∈ getNeighbors g p ↔ inB g q ∧ adjacent p q := by
  obtain ⟨r, c⟩ := p
  obtain ⟨a, b⟩ := q
  obtain ⟨hr, hc⟩ := hp
  simp only [inB] at hr hc ⊢
  unfold getNeighbors adjacent Nat.dist
  simp only [List.mem_append]
  constructor
  · intro h
    rcases h with ((h | h) | h) | h <;>
      [skip; skip; skip; skip] <;>
      (first
        | (rw [List.mem_ite_nil_right] at h
           obtain ⟨hcond, hmem⟩ := h
           simp only [List.mem_singleton, Prod.mk.injEq] at hmem
           obtain ⟨rfl, rfl⟩ := hmem
           refine ⟨⟨by omega, by omega⟩, by omega⟩))
  · rintro ⟨⟨ha, hb⟩, hadj⟩
    simp only [List.mem_ite_nil_right, List.mem_singleton, Prod.mk.injEq]
    omega

/-- Every returned neighbor of an in-bounds cell is in bounds. -/
theorem getNeighbors_inB {g : Grid} {p : Pos} (hp : inB g p) :
    ∀ q ∈ getNeighbors g p, inB g q :=
  fun q hq => ((mem_getNeighbors hp q).1 hq).1

/-- Neighborhood is symmetric between in-bounds cells. -/
theorem getNeighbors_symm {g : Grid} {p q : Pos} (hp : inB g p)
    (hq : inB g q) : q ∈ getNeighbors g p ↔ p ∈ getNeighbors g q := by
  rw [mem_getNeighbors hp, mem_getNeighbors hq, adjacent_comm]
  tauto

/-- C4: for every cell (r, c) of the grid, `getNeighbors` returns exactly
the orthogonal neighbors that lie within bounds (never an out-of-bounds
cell), in the fixed priority order up, right, down, left. -/
theorem C4_getNeighbors_exact (g : Grid) (r c : Nat)
    (hr : r < g.R) (hc : c < g.C) :
    getNeighbors g (r, c) =
      ((neighborCandidates (r, c)).filter (inBZ g)).map
        (fun q => (q.1.toNat, q.2.toNat)) ∧
    (∀ q ∈ getNeighbors g (r, c), inB g q) ∧
    (∀ q, q ∈ getNeighbors g (r, c) ↔ inB g q ∧ adjacent (r, c) q) := by
  refine ⟨?_, getNeighbors_inB ⟨hr, hc⟩, mem_getNeighbors ⟨hr, hc⟩⟩
  have h1 : (0 ≤ (r : Int) - 1 ∧ (r : Int) - 1 < (g.R : Int) ∧
      0 ≤ (c : Int) ∧ (c : Int) < (g.C : Int)) ↔ 0 < r := by omega
  have h2 : (0 ≤ (r : Int) ∧ (r : Int) < (g.R : Int) ∧
      0 ≤ (c : Int) + 1 ∧ (c : Int) + 1 < (g.C : Int)) ↔ c < g.C - 1 := by
    omega
  have h3 : (0 ≤ (r : Int) + 1 ∧ (r : Int) + 1 < (g.R : Int) ∧
      0 ≤ (c : Int) ∧ (c : Int) < (g.C : Int)) ↔ r < g.R - 1 := by omega
  have h4 : (0 ≤ (r : Int) ∧ (r : Int) < (g.R : Int) ∧
      0 ≤ (c : Int) - 1 ∧ (c : Int) - 1 < (g.C : Int)) ↔ 0 < c := by omega
  have t1 : ((r : Int) - 1).toNat = r - 1 := by omega
  have t2 : ((r : Int)).toNat = r := by omega
  have t3 : ((c : Int) + 1).toNat = c + 1 := by omega
  have t4 : ((r : Int) + 1).toNat = r + 1 := by omega
  have t5 : ((c : Int) - 1).toNat = c - 1 := by omega
  have t6 : ((c : Int)).toNat = c := by omega
  unfold getNeighbors neighborCandidates inBZ
  simp only [List.filter_cons, List.filter_nil, decide_eq_true_eq,
    gt_iff_lt, h1, h2, h3, h4]
  split_ifs <;>
    simp only [List.map_cons, List.map_nil, List.nil_append,
      List.append_nil, List.cons_append, List.singleton_append, t1, t2,
      t3, t4, t5, t6]

/-- Witness for C4 on the wall-free 3×4 grid at cell (0, 2). -/
theorem C4_getNeighbors_exact_witness :
    (0 : Nat) < 3 ∧ (2 : Nat) < 4 ∧
    (getNeighbors ⟨3, 4, fun _ => false⟩ (0, 2) =
      ((neighborCandidates (0, 2)).filter (inBZ ⟨3, 4, fun _ => false⟩)).map
        (fun q => (q.1.toNat, q.2.toNat)) ∧
     (∀ q ∈ getNeighbors ⟨3, 4, fun _ => false⟩ (0, 2),
        inB ⟨3, 4, fun _ => false⟩ q) ∧
     (∀ q, q ∈ getNeighbors ⟨3, 4, fun _ => false⟩ (0, 2) ↔
        inB ⟨3, 4, fun _ => false⟩ q ∧ adjacent (0, 2) q)) :=
  ⟨by decide, by decide,
    C4_getNeighbors_exact ⟨3, 4, fun _ => false⟩ 0 2 (by decide) (by decide)⟩

/-! ## Wall editing and maze generation

`Math.random()` draws are an oracle `o : Nat → Nat` consulted at
successive indices `i`; `Math.floor(Math.random() * k)` becomes `o i % k`.
Grid accesses carry an explicit bounds check: `none` models the exception
a JavaScript out-of-bounds `gridArray` access would raise. The globals
`startPos`/`endPos` are read-only during maze generation, so the
generators take them as parameters and return the mutated `Grid`. -/

/-- A position as a pair of integers (loop counters in the generators are
integers that may leave `Nat` range). -/
abbrev PosZ := Int × Int

/-- Cast a cell position to integer coordinates. -/
def posZ (p : Pos) : PosZ := ((p.1 : Int), (p.2 : Int))

/-- `isStartOrEnd(r, c)` of `script.js`. -/
def isStartOrEnd (s e : Pos) (r c : Int) : Prop :=
  (r, c) = posZ s ∨ (r, c) = posZ e

instance (s e : Pos) (r c : Int) : Decidable (isStartOrEnd s e r c) := by
  unfold isStartOrEnd; infer_instance

/-- `addWall(r, c, state)` of `script.js`: a silent no-op at the start or
end position; otherwise mutate `isWall` — `none` when the cell access is
out of bounds (JavaScript would throw). -/
def addWall (g : Grid) (s e : Pos) (r c : Int) (state : Bool) :
    Option Grid :=
  if isStartOrEnd s e r c then some g
  else if 0 ≤ r ∧ r < (g.R : Int) ∧ 0 ≤ c ∧ c < (g.C : Int) then
    some { g with
      wall := fun q => if q = (r.toNat, c.toNat) then state else g.wall q }
  else none

/-- Ascending `for` loop over grid mutations: `k` iterations starting at
index `lo`. -/
def forAsc (g : Grid) (f : Grid → Int → Option Grid) (lo : Int) :
    Nat → Option Grid
  | 0 => some g
  | k + 1 => (f g lo).bind fun g' => forAsc g' f (lo + 1) k

/-- Descending `for` loop over grid mutations: `k` iterations starting at
index `hi`. -/
def forDesc (g : Grid) (f : Grid → Int → Option Grid) (hi : Int) :
    Nat → Option Grid
  | 0 => some g
  | k + 1 => (f g hi).bind fun g' => forDesc g' f (hi - 1) k

/-- `recursiveDivision(rStart, rEnd, cStart, cEnd)` of `script.js`.
`i` is the index of the next oracle draw; the pair returned carries the
index after the call (two draws per division step). -/
def recursiveDivision (s e : Pos) (o : Nat → Nat) (g : Grid) (i : Nat)
    (rStart rEnd cStart cEnd : Int) : Option (Grid × Nat) :=
  if rEnd - rStart < 2 ∨ cEnd - cStart < 2 then some (g, i)
  else if rEnd - rStart > cEnd - cStart then
    -- horizontal wall
    let wallR : Int := (o i % (rEnd - rStart - 1).toNat : Nat) + rStart + 1
    let gapC : Int := (o (i + 1) % (cEnd - cStart + 1).toNat : Nat) + cStart
    (forAsc g
        (fun gg c =>
          if c ≠ gapC ∧ ¬ isStartOrEnd s e wallR c then
            addWall gg s e wallR c true
          else some gg)
        cStart (cEnd - cStart + 1).toNat).bind fun g1 =>
      (recursiveDivision s e o g1 (i + 2) rStart (wallR - 1) cStart
          cEnd).bind fun gi =>
        recursiveDivision s e o gi.1 gi.2 (wallR + 1) rEnd cStart cEnd
  else
    -- vertical wall
    let wallC : Int := (o i % (cEnd - cStart - 1).toNat : Nat) + cStart + 1
    let gapR : Int := (o (i + 1) % (rEnd - rStart + 1).toNat : Nat) + rStart
    (forAsc g
        (fun gg r =>
          if r ≠ gapR ∧ ¬ isStartOrEnd s e r wallC then
            addWall gg s e r wallC true
          else some gg)
        rStart (rEnd - rStart + 1).toNat).bind fun g1 =>
      (recursiveDivision s e o g1 (i + 2) rStart rEnd cStart
          (wallC - 1)).bind fun gi =>
        recursiveDivision s e o gi.1 gi.2 rStart rEnd (wallC + 1) cEnd
termination_by ((rEnd - rStart) + (cEnd - cStart)).toNat
decreasing_by
  · have : (o i % (rEnd - rStart - 1).toNat) < (rEnd - rStart - 1).toNat :=
      Nat.mod_lt _ (by omega)
    omega
  · have : (o i % (rEnd - rStart - 1).toNat) < (rEnd - rStart - 1).toNat :=
      Nat.mod_lt _ (by omega)
    omega
  · have : (o i % (cEnd - cStart - 1).toNat) < (cEnd - cStart - 1).toNat :=
      Nat.mod_lt _ (by omega)
    omega
  · have : (o i % (cEnd - cStart - 1).toNat) < (cEnd - cStart - 1).toNat :=
      Nat.mod_lt _ (by omega)
    omega

/-- One ring plus the shrinking recursion of
`generateSpiralPattern`'s `while (rStart <= rEnd && cStart <= cEnd)`. -/
def spiralLoop (s e : Pos) (g : Grid) (rStart rEnd cStart cEnd : Int) :
    Option Grid :=
  if rStart ≤ rEnd ∧ cStart ≤ cEnd then
    let rStart' := rStart + 2
    let cEnd' := cEnd - 2
    let rEnd' := if rStart' ≤ rEnd then rEnd - 2 else rEnd
    let cStart' := if cStart ≤ cEnd' then cStart + 2 else cStart
    let step : Option Grid := do
      -- top edge
      let g1 ← forAsc g
        (fun gg c =>
          if ¬ isStartOrEnd s e rStart c then addWall gg s e rStart c true
          else some gg)
        cStart (cEnd - cStart + 1).toNat
      -- right edge (the JavaScript loop starts at the incremented
      -- `rStart - 2`, i.e. at the original `rStart`)
      let g2 ← forAsc g1
        (fun gg r =>
          if ¬ isStartOrEnd s e r cEnd then addWall gg s e r cEnd true
          else some gg)
        (rStart' - 2) (rEnd - (rStart' - 2) + 1).toNat
      -- bottom edge, only when rows remain
      let g3 ←
        if rStart' ≤ rEnd then
          forDesc g2
            (fun gg c =>
              if ¬ isStartOrEnd s e rEnd c then addWall gg s e rEnd c true
              else some gg)
            (cEnd' + 2) ((cEnd' + 2) - cStart + 1).toNat
        else some g2
      -- left edge, only when columns remain
      let g4 ←
        if cStart ≤ cEnd' then
          forDesc g3
            (fun gg r =>
              if ¬ isStartOrEnd s e r cStart then
                addWall gg s e r cStart true
              else some gg)
            (rEnd' + 2) ((rEnd' + 2) - rStart' + 1).toNat
        else some g3
      pure g4
    step.bind fun g4 => spiralLoop s e g4 rStart' rEnd' cStart' cEnd'
  else some g
termination_by ((rEnd + 1 - rStart).toNat + (cEnd + 1 - cStart).toNat)
decreasing_by split_ifs <;> omega

/-- `clearNeighbors(pos)` of `script.js`: clear the wall on the four
orthogonal neighbors of `pos` that are in bounds. -/
def clearNeighbors (s e : Pos) (g : Grid) (pos : Pos) : Option Grid :=
  ([((0 : Int), (1 : Int)), (0, -1), (1, 0), (-1, 0)] : List PosZ).foldlM
    (fun gg d =>
      let r := (pos.1 : Int) + d.1
      let c := (pos.2 : Int) + d.2
      if 0 ≤ r ∧ r < (gg.R : Int) ∧ 0 ≤ c ∧ c < (gg.C : Int) then
        addWall gg s e r c false
      else some gg)
    g

/-- `generateSpiralPattern()` of `script.js`. -/
def generateSpiralPattern (s e : Pos) (g : Grid) : Option Grid :=
  (spiralLoop s e g 1 ((g.R : Int) - 2) 1 ((g.C : Int) - 2)).bind
    fun g' => (clearNeighbors s e g' s).bind
      fun g'' => clearNeighbors s e g'' e

/-- `getMazeNeighbors(r, c, visited)` of `script.js`: the 2-step lattice
neighbors that are in bounds and unvisited, in the order left, right, up,
down (distance two). -/
def getMazeNeighbors (g : Grid) (visited : PosZ → Bool) (p : PosZ) :
    List PosZ :=
  ([((0 : Int), (-2 : Int)), (0, 2), (-2, 0), (2, 0)] : List PosZ).filterMap
    (fun d =>
      let n : PosZ := (p.1 + d.1, p.2 + d.2)
      if (0 ≤ n.1 ∧ n.1 < (g.R : Int) ∧ 0 ≤ n.2 ∧ n.2 < (g.C : Int)) ∧
          ¬ visited n = true then
        some n
      else none)

/-- The carving loop of `generateDFSMaze` (stack top at the head; one
oracle draw per carve step). -/
def dfsMazeLoop (s e : Pos) (o : Nat → Nat) :
    Nat → Grid → (PosZ → Bool) → List PosZ → Nat → Option Grid
  | 0, _, _, _, _ => none
  | _ + 1, g, _, [], _ => some g
  | fuel + 1, g, visited, curr :: rest, i =>
    let ns := getMazeNeighbors g visited curr
    if h : ns.length > 0 then
      let next := ns.get ⟨o i % ns.length, Nat.mod_lt _ h⟩
      let wallR := (curr.1 + next.1) / 2
      let wallC := (curr.2 + next.2) / 2
      (addWall g s e wallR wallC false).bind fun g1 =>
        (addWall g1 s e next.1 next.2 false).bind fun g2 =>
          dfsMazeLoop s e o fuel g2
            (fun q => if q = next then true else visited q)
            (next :: curr :: rest) (i + 1)
    else
      dfsMazeLoop s e o fuel g visited rest i

/-- `generateDFSMaze()` of `script.js`: wall every non-start/end cell,
carve with the randomized 2-step lattice DFS, then force-clear start and
end. -/
def generateDFSMaze (s e : Pos) (o : Nat → Nat) (g : Grid) : Option Grid :=
  (forAsc g
      (fun gg r =>
        forAsc gg
          (fun gg' c =>
            if ¬ isStartOrEnd s e r c then addWall gg' s e r c true
            else some gg')
          0 gg.C)
      0 g.R).bind fun gWalled =>
    (dfsMazeLoop s e o (2 * gWalled.R * gWalled.C + 2) gWalled
        (fun q => if q = posZ s then true else false) [posZ s] 0).bind
      fun gCarved =>
        (addWall gCarved s e (s.1 : Int) (s.2 : Int) false).bind fun gA =>
          addWall gA s e (e.1 : Int) (e.2 : Int) false

/-- `handleMazeGen` dispatch for `recursive`: the initial call is
`recursiveDivision(1, ROWS - 2, 1, COLS - 2)` on the reset board. -/
def handleMazeGenRecursive (s e : Pos) (o : Nat → Nat) (g : Grid) :
    Option (Grid × Nat) :=
  recursiveDivision s e o g 0 1 ((g.R : Int) - 2) 1 ((g.C : Int) - 2)

/-! ## Basic lemmas about `addWall` and the loop combinators -/

/-- Properties preserved by every wall mutation: grid dimensions and the
wall state of the start and end cells. -/
def WallsOpInv (s e : Pos) (g₀ g : Grid) : Prop :=
  g.R = g₀.R ∧ g.C = g₀.C ∧ g.wall s = g₀.wall s ∧ g.wall e = g₀.wall e

theorem WallsOpInv.refl (s e : Pos) (g : Grid) : WallsOpInv s e g g :=
  ⟨rfl, rfl, rfl, rfl⟩

theorem WallsOpInv.trans {s e : Pos} {g₀ g₁ g₂ : Grid}
    (h₁ : WallsOpInv s e g₀ g₁) (h₂ : WallsOpInv s e g₁ g₂) :
    WallsOpInv s e g₀ g₂ :=
  ⟨h₂.1.trans h₁.1, h₂.2.1.trans h₁.2.1, h₂.2.2.1.trans h₁.2.2.1,
    h₂.2.2.2.trans h₁.2.2.2⟩

theorem addWall_inv {g g' : Grid} {s e : Pos} {r c : Int} {st : Bool}
    (h : addWall g s e r c st = some g') : WallsOpInv s e g g' := by
  unfold addWall at h
  split_ifs at h with h1 h2
  · cases h; exact WallsOpInv.refl s e g
  · cases h
    refine ⟨rfl, rfl, ?_, ?_⟩ <;>
      · show (if _ = ((r.toNat, c.toNat) : Pos) then st else _) = _
        rw [if_neg]
        intro hq
        apply h1
        unfold isStartOrEnd posZ
        rw [Prod.ext_iff] at hq
        simp only [Prod.mk.injEq]
        omega

theorem addWall_isSome {g : Grid} {s e : Pos} {r c : Int} (st : Bool)
    (h : isStartOrEnd s e r c ∨
      (0 ≤ r ∧ r < (g.R : Int) ∧ 0 ≤ c ∧ c < (g.C : Int))) :
    ∃ g', addWall g s e r c st = some g' ∧ WallsOpInv s e g g' := by
  unfold addWall
  split_ifs with h1 h2
  · exact ⟨g, rfl, WallsOpInv.refl s e g⟩
  · refine ⟨_, rfl, @addWall_inv g _ s e r c st ?_⟩
    unfold addWall
    rw [if_neg h1, if_pos h2]
  · exact absurd (h.resolve_left h1) h2

/-- `addWall` targeted at the start or the end cell is a silent no-op. -/
theorem addWall_start_noop (g : Grid) (s e : Pos) (st : Bool) :
    addWall g s e (s.1 : Int) (s.2 : Int) st = some g := by
  unfold addWall
  have h : isStartOrEnd s e (s.1 : Int) (s.2 : Int) := Or.inl rfl
  rw [if_pos h]

theorem addWall_end_noop (g : Grid) (s e : Pos) (st : Bool) :
    addWall g s e (e.1 : Int) (e.2 : Int) st = some g := by
  unfold addWall
  have h : isStartOrEnd s e (e.1 : Int) (e.2 : Int) := Or.inr rfl
  rw [if_pos h]

theorem forAsc_inv {s e : Pos} {f : Grid → Int → Option Grid}
    (hf : ∀ gg x gg', f gg x = some gg' → WallsOpInv s e gg gg') :
    ∀ (k : Nat) (lo : Int) (g g' : Grid),
      forAsc g f lo k = some g' → WallsOpInv s e g g' := by
  intro k
  induction k with
  | zero => intro lo g g' h; cases h; exact WallsOpInv.refl s e g
  | succ k ih =>
    intro lo g g' h
    rw [forAsc, Option.bind_eq_some] at h
    obtain ⟨g1, h1, h2⟩ := h
    exact (hf g lo g1 h1).trans (ih (lo + 1) g1 g' h2)

theorem forDesc_inv {s e : Pos} {f : Grid → Int → Option Grid}
    (hf : ∀ gg x gg', f gg x = some gg' → WallsOpInv s e gg gg') :
    ∀ (k : Nat) (hi : Int) (g g' : Grid),
      forDesc g f hi k = some g' → WallsOpInv s e g g' := by
  intro k
  induction k with
  | zero => intro hi g g' h; cases h; exact WallsOpInv.refl s e g
  | succ k ih =>
    intro hi g g' h
    rw [forDesc, Option.bind_eq_some] at h
    obtain ⟨g1, h1, h2⟩ := h
    exact (hf g hi g1 h1).trans (ih (hi - 1) g1 g' h2)

theorem forAsc_some {s e : Pos} {f : Grid → Int → Option Grid} :
    ∀ (k : Nat) (lo : Int) (g : Grid),
      (∀ gg x, WallsOpInv s e g gg → lo ≤ x → x < lo + k →
        ∃ gg', f gg x = some gg' ∧ WallsOpInv s e gg gg') →
      ∃ g', forAsc g f lo k = some g' ∧ WallsOpInv s e g g' := by
  intro k
  induction k with
  | zero => exact fun lo g _ => ⟨g, rfl, WallsOpInv.refl s e g⟩
  | succ k ih =>
    intro lo g hf
    obtain ⟨g1, h1, hinv1⟩ :=
      hf g lo (WallsOpInv.refl s e g) le_rfl (by omega)
    obtain ⟨g', h', hinv'⟩ := ih (lo + 1) g1 (fun gg x hgg hx1 hx2 =>
      hf gg x (hinv1.trans hgg) (by omega) (by omega))
    exact ⟨g', by rw [forAsc, h1]; exact h', hinv1.trans hinv'⟩

theorem forDesc_some {s e : Pos} {f : Grid → Int → Option Grid} :
    ∀ (k : Nat) (hi : Int) (g : Grid),
      (∀ gg x, WallsOpInv s e g gg → hi - k < x → x ≤ hi →
        ∃ gg', f gg x = some gg' ∧ WallsOpInv s e gg gg') →
      ∃ g', forDesc g f hi k = some g' ∧ WallsOpInv s e g g' := by
  intro k
  induction k with
  | zero => exact fun hi g _ => ⟨g, rfl, WallsOpInv.refl s e g⟩
  | succ k ih =>
    intro hi g hf
    obtain ⟨g1, h1, hinv1⟩ :=
      hf g hi (WallsOpInv.refl s e g) (by omega) le_rfl
    obtain ⟨g', h', hinv'⟩ := ih (hi - 1) g1 (fun gg x hgg hx1 hx2 =>
      hf gg x (hinv1.trans hgg) (by omega) (by omega))
    exact ⟨g', by rw [forDesc, h1]; exact h', hinv1.trans hinv'⟩

/-! ## Counting unvisited cells (termination measures) -/

/-- The row-major list of all cells of an `R × C` grid. -/
def allCells (R C : Nat) : List Pos :=
  (List.range R).flatMap fun r => (List.range C).map fun c => (r, c)

theorem mem_allCells {R C : Nat} {p : Pos} :
    p ∈ allCells R C ↔ p.1 < R ∧ p.2 < C := by
  obtain ⟨a, b⟩ := p
  simp [allCells]

/-- Marking one key true never increases the count of unvisited keys. -/
theorem countP_mark_le {α β : Type} [DecidableEq β] (key : α → β)
    (v : β → Bool) (n : β) (l : List α) :
    l.countP (fun a => !(if key a = n then true else v (key a))) ≤
      l.countP (fun a => !v (key a)) := by
  apply List.countP_mono_left
  intro a _ h
  by_cases hk : key a = n
  · simp [hk] at h
  · simpa [hk] using h

/-- Marking a present, not-yet-visited key true strictly decreases the
count of unvisited keys. -/
theorem countP_mark_lt {α β : Type} [DecidableEq β] (key : α → β)
    (v : β → Bool) (n : β) :
    ∀ (l : List α), (∃ a₀ ∈ l, key a₀ = n) → v n = false →
      l.countP (fun a => !(if key a = n then true else v (key a))) <
        l.countP (fun a => !v (key a)) := by
  intro l
  induction l with
  | nil => rintro ⟨a₀, h, -⟩; cases h
  | cons a l ih =>
    rintro ⟨a₀, hmem, hkey⟩ hv
    rw [List.countP_cons, List.countP_cons]
    by_cases hk : key a = n
    · have h1 : (!(if key a = n then true else v (key a))) = false := by
        simp [hk]
      have h2 : (!v (key a)) = true := by rw [hk, hv]; rfl
      rw [h1, h2]
      simp only [Bool.false_eq_true, if_false, if_true, Nat.add_zero]
      exact Nat.lt_succ_of_le (countP_mark_le key v n l)
    · have hmem' : a₀ ∈ l := by
        rcases List.mem_cons.1 hmem with rfl | h
        · exact absurd hkey hk
        · exact h
      have := ih ⟨a₀, hmem', hkey⟩ hv
      have h1 : (!(if key a = n then true else v (key a))) = !v (key a) := by
        simp [hk]
      rw [h1]
      split_ifs <;> omega

/-! ## The maze generators never touch the start/end walls (claim C7) -/

theorem guardedAddWall_inv {s e : Pos} (cond : Prop) [Decidable cond]
    (gg : Grid) (r c : Int) (st : Bool) (gg' : Grid)
    (h : (if cond then addWall gg s e r c st else some gg) = some gg') :
    WallsOpInv s e gg gg' := by
  split_ifs at h
  · exact addWall_inv h
  · cases h; exact WallsOpInv.refl s e gg

theorem recursiveDivision_inv (s e : Pos) (o : Nat → Nat) :
    ∀ g i rS rE cS cE g' i',
      recursiveDivision s e o g i rS rE cS cE = some (g', i') →
      WallsOpInv s e g g' := by
  intro g i rS rE cS cE
  induction g, i, rS, rE, cS, cE using recursiveDivision.induct
      (s := s) (e := e) (o := o) with
  | case1 g i rS rE cS cE hdim =>
    intro g' i' h
    rw [recursiveDivision, if_pos hdim] at h
    cases h
    exact WallsOpInv.refl s e g
  | case2 g i rS rE cS cE hdim hor wallR ih2 ih1 =>
    intro g' i' h
    rw [recursiveDivision, if_neg hdim, if_pos hor] at h
    rw [Option.bind_eq_some] at h
    obtain ⟨g1, hAsc, h⟩ := h
    rw [Option.bind_eq_some] at h
    obtain ⟨gi, hRec1, hRec2⟩ := h
    exact ((forAsc_inv (fun gg x gg' hx =>
        guardedAddWall_inv _ gg _ _ _ gg' hx) _ _ _ _ hAsc).trans
      (ih2 g1 gi.1 gi.2 hRec1)).trans (ih1 gi g' i' hRec2)
  | case3 g i rS rE cS cE hdim hor wallC ih2 ih1 =>
    intro g' i' h
    rw [recursiveDivision, if_neg hdim, if_neg hor] at h
    rw [Option.bind_eq_some] at h
    obtain ⟨g1, hAsc, h⟩ := h
    rw [Option.bind_eq_some] at h
    obtain ⟨gi, hRec1, hRec2⟩ := h
    exact ((forAsc_inv (fun gg x gg' hx =>
        guardedAddWall_inv _ gg _ _ _ gg' hx) _ _ _ _ hAsc).trans
      (ih2 g1 gi.1 gi.2 hRec1)).trans (ih1 gi g' i' hRec2)

/-- `x >>= f` on `Option` succeeds exactly through an intermediate value. -/
theorem bindM_eq_some {α β : Type} {x : Option α} {f : α → Option β}
    {b : β} : x >>= f = some b ↔ ∃ a, x = some a ∧ f a = some b :=
  Option.bind_eq_some

theorem clearNeighbors_inv {s e : Pos} {g : Grid} {pos : Pos} {g' : Grid}
    (h : clearNeighbors s e g pos = some g') : WallsOpInv s e g g' := by
  have step : ∀ (gg : Grid) (dr dc : Int) (gg' : Grid),
      (if 0 ≤ (pos.1 : Int) + dr ∧ (pos.1 : Int) + dr < (gg.R : Int) ∧
          0 ≤ (pos.2 : Int) + dc ∧ (pos.2 : Int) + dc < (gg.C : Int) then
        addWall gg s e ((pos.1 : Int) + dr) ((pos.2 : Int) + dc) false
      else some gg) = some gg' → WallsOpInv s e gg gg' := by
    intro gg dr dc gg' hstep
    split_ifs at hstep
    · exact addWall_inv hstep
    · cases hstep; exact WallsOpInv.refl s e gg
  unfold clearNeighbors at h
  simp only [List.foldlM, bindM_eq_some] at h
  obtain ⟨g1, h1, g2, h2, g3, h3, g4, h4, hp⟩ := h
  rw [Option.pure_def, Option.some.injEq] at hp
  subst hp
  exact (((step g 0 1 g1 h1).trans (step g1 0 (-1) g2 h2)).trans
    (step g2 1 0 g3 h3)).trans (step g3 (-1) 0 _ h4)

theorem spiralLoop_inv (s e : Pos) :
    ∀ g rS rE cS cE g',
      spiralLoop s e g rS rE cS cE = some g' → WallsOpInv s e g g' := by
  intro g rS rE cS cE
  induction g, rS, rE, cS, cE using spiralLoop.induct (s := s) (e := e) with
  | case1 g rS rE cS cE hcond rStart' cEnd' rEnd' cStart' ih =>
    intro g' h
    rw [spiralLoop, if_pos hcond] at h
    rw [Option.bind_eq_some] at h
    obtain ⟨g4, hstep, hrec⟩ := h
    rw [bindM_eq_some] at hstep
    obtain ⟨g1, h1, hstep⟩ := hstep
    rw [bindM_eq_some] at hstep
    obtain ⟨g2, h2, hstep⟩ := hstep
    have i1 := forAsc_inv (s := s) (e := e) (fun gg x gg' hx =>
      guardedAddWall_inv _ gg _ _ _ gg' hx) _ _ _ _ h1
    have i2 := forAsc_inv (s := s) (e := e) (fun gg x gg' hx =>
      guardedAddWall_inv _ gg _ _ _ gg' hx) _ _ _ _ h2
    have descInv : ∀ (gg : Grid) (hi : Int) (k : Nat) (x : Int)
        (gg' : Grid),
        forDesc gg
          (fun g2 r =>
            if ¬ isStartOrEnd s e r x then addWall g2 s e r x true
            else some g2) hi k = some gg' → WallsOpInv s e gg gg' :=
      fun gg hi k x gg' hx => forDesc_inv (fun g3 y g3' hy =>
        guardedAddWall_inv _ g3 _ _ _ g3' hy) _ _ _ _ hx
    have descInv2 : ∀ (gg : Grid) (hi : Int) (k : Nat) (x : Int)
        (gg' : Grid),
        forDesc gg
          (fun g2 c =>
            if ¬ isStartOrEnd s e x c then addWall g2 s e x c true
            else some g2) hi k = some gg' → WallsOpInv s e gg gg' :=
      fun gg hi k x gg' hx => forDesc_inv (fun g3 y g3' hy =>
        guardedAddWall_inv _ g3 _ _ _ g3' hy) _ _ _ _ hx
    have itail : WallsOpInv s e g2 g4 := by
      by_cases hb : rS + 2 ≤ rE <;> by_cases hc : cS ≤ cE - 2
      · simp only [if_pos hb, if_pos hc, Option.pure_def, Option.some_bind,
          bindM_eq_some, Option.some.injEq] at hstep
        obtain ⟨g3, h3, g4', h4, hq⟩ := hstep
        subst hq
        exact (descInv2 _ _ _ _ _ h3).trans (descInv _ _ _ _ _ h4)
      · simp only [if_pos hb, if_neg hc, Option.pure_def, Option.some_bind,
          bindM_eq_some, Option.some.injEq] at hstep
        obtain ⟨g3, h3, a, hq1, hq2⟩ := hstep
        subst hq2
        subst hq1
        exact descInv2 _ _ _ _ _ h3
      · simp only [if_neg hb, if_pos hc, Option.pure_def, Option.some_bind,
          bindM_eq_some, Option.some.injEq] at hstep
        obtain ⟨g3, hq0, g4', h4, hq⟩ := hstep
        subst hq0
        subst hq
        exact descInv _ _ _ _ _ h4
      · simp only [if_neg hb, if_neg hc, Option.pure_def, Option.some_bind,
          bindM_eq_some, Option.some.injEq] at hstep
        obtain ⟨g3, hq0, a, hq1, hq2⟩ := hstep
        subst hq0
        subst hq1
        subst hq2
        exact WallsOpInv.refl s e g2
    exact (((i1.trans i2).trans itail).trans (ih g4 g' hrec))
  | case2 g rS rE cS cE hcond =>
    intro g' h
    rw [spiralLoop, if_neg hcond] at h
    cases h
    exact WallsOpInv.refl s e g

theorem generateSpiralPattern_inv {s e : Pos} {g g' : Grid}
    (h : generateSpiralPattern s e g = some g') : WallsOpInv s e g g' := by
  unfold generateSpiralPattern at h
  rw [Option.bind_eq_some] at h
  obtain ⟨g1, h1, h⟩ := h
  rw [Option.bind_eq_some] at h
  obtain ⟨g2, h2, h3⟩ := h
  exact ((spiralLoop_inv s e g _ _ _ _ g1 h1).trans
    (clearNeighbors_inv h2)).trans (clearNeighbors_inv h3)

theorem dfsMazeLoop_inv (s e : Pos) (o : Nat → Nat) :
    ∀ fuel g visited stack i g',
      dfsMazeLoop s e o fuel g visited stack i = some g' →
      WallsOpInv s e g g' := by
  intro fuel
  induction fuel with
  | zero => intro g visited stack i g' h; cases h
  | succ fuel ih =>
    intro g visited stack i g' h
    match stack with
    | [] =>
      rw [dfsMazeLoop] at h
      cases h
      exact WallsOpInv.refl s e g
    | curr :: rest =>
      rw [dfsMazeLoop] at h
      split_ifs at h with hns
      · simp only [Option.bind_eq_some] at h
        obtain ⟨g1, h1, g2, h2, h3⟩ := h
        exact ((addWall_inv h1).trans (addWall_inv h2)).trans
          (ih g2 _ _ _ g' h3)
      · exact ih g _ rest i g' h

theorem generateDFSMaze_inv {s e : Pos} {o : Nat → Nat} {g g' : Grid}
    (h : generateDFSMaze s e o g = some g') : WallsOpInv s e g g' := by
  unfold generateDFSMaze at h
  rw [Option.bind_eq_some] at h
  obtain ⟨g1, h1, h⟩ := h
  rw [Option.bind_eq_some] at h
  obtain ⟨g2, h2, h⟩ := h
  rw [Option.bind_eq_some] at h
  obtain ⟨g3, h3, h4⟩ := h
  have i1 : WallsOpInv s e g g1 := by
    refine forAsc_inv ?_ _ _ _ _ h1
    intro gg x gg' hx
    exact forAsc_inv (fun gg2 y gg2' hy =>
      guardedAddWall_inv _ gg2 _ _ _ gg2' hy) _ _ _ _ hx
  exact ((i1.trans (dfsMazeLoop_inv s e o _ _ _ _ _ _ h2)).trans
    (addWall_inv h3)).trans (addWall_inv h4)

/-- C7: on a grid at least 5×5 whose start and end cells are not walls
(as after the board reset that precedes generation), none of the three
maze generators — randomized DFS, spiral, recursive division — leaves the
start or the end cell marked as a wall, for every random oracle. -/
theorem C7_generators_never_wall_start_end (g : Grid) (s e : Pos)
    (o : Nat → Nat) (hR : 5 ≤ g.R) (hC : 5 ≤ g.C)
    (hs : g.wall s = false) (he : g.wall e = false) :
    (∀ g', generateDFSMaze s e o g = some g' →
      g'.wall s = false ∧ g'.wall e = false) ∧
    (∀ g', generateSpiralPattern s e g = some g' →
      g'.wall s = false ∧ g'.wall e = false) ∧
    (∀ gi, handleMazeGenRecursive s e o g = some gi →
      gi.1.wall s = false ∧ gi.1.wall e = false) := by
  refine ⟨?_, ?_, ?_⟩
  · intro g' h'
    have hi := generateDFSMaze_inv h'
    exact ⟨hi.2.2.1.trans hs, hi.2.2.2.trans he⟩
  · intro g' h'
    have hi := generateSpiralPattern_inv h'
    exact ⟨hi.2.2.1.trans hs, hi.2.2.2.trans he⟩
  · intro gi h'
    have hi := recursiveDivision_inv s e o _ _ _ _ _ _ _ _ h'
    exact ⟨hi.2.2.1.trans hs, hi.2.2.2.trans he⟩

/-- Witness for C7 on the empty 5×5 grid, corners as start/end, zero
oracle. -/
theorem C7_generators_never_wall_start_end_witness :
    5 ≤ (Grid.mk 5 5 (fun _ => false)).R ∧
    5 ≤ (Grid.mk 5 5 (fun _ => false)).C ∧
    (Grid.mk 5 5 (fun _ => false)).wall (0, 0) = false ∧
    (Grid.mk 5 5 (fun _ => false)).wall (4, 4) = false ∧
    ((∀ g', generateDFSMaze (0, 0) (4, 4) (fun _ => 0)
        (Grid.mk 5 5 (fun _ => false)) = some g' →
      g'.wall (0, 0) = false ∧ g'.wall (4, 4) = false) ∧
    (∀ g', generateSpiralPattern (0, 0) (4, 4)
        (Grid.mk 5 5 (fun _ => false)) = some g' →
      g'.wall (0, 0) = false ∧ g'.wall (4, 4) = false) ∧
    (∀ gi, handleMazeGenRecursive (0, 0) (4, 4) (fun _ => 0)
        (Grid.mk 5 5 (fun _ => false)) = some gi →
      gi.1.wall (0, 0) = false ∧ gi.1.wall (4, 4) = false)) :=
  ⟨by decide, by decide, rfl, rfl,
    C7_generators_never_wall_start_end (Grid.mk 5 5 (fun _ => false))
      (0, 0) (4, 4) (fun _ => 0) (by decide) (by decide) rfl rfl⟩

/-! ## The maze generators stay in bounds (claim C8) -/

/-- `some a >>= f` runs `f` on `a`. -/
theorem someBindM {α β : Type} (a : α) (f : α → Option β) :
    (some a >>= f) = f a := rfl

theorem clearNeighbors_some (s e : Pos) (g : Grid) (pos : Pos) :
    ∃ g', clearNeighbors s e g pos = some g' := by
  have step : ∀ (gg : Grid) (dr dc : Int),
      ∃ gg', (if 0 ≤ (pos.1 : Int) + dr ∧ (pos.1 : Int) + dr < (gg.R : Int) ∧
          0 ≤ (pos.2 : Int) + dc ∧ (pos.2 : Int) + dc < (gg.C : Int) then
        addWall gg s e ((pos.1 : Int) + dr) ((pos.2 : Int) + dc) false
      else some gg) = some gg' := by
    intro gg dr dc
    split_ifs with hcond
    · obtain ⟨gg', hgg', -⟩ := addWall_isSome (g := gg) (s := s) (e := e)
        false (Or.inr hcond)
      exact ⟨gg', hgg'⟩
    · exact ⟨gg, rfl⟩
  obtain ⟨g1, h1⟩ := step g 0 1
  obtain ⟨g2, h2⟩ := step g1 0 (-1)
  obtain ⟨g3, h3⟩ := step g2 1 0
  obtain ⟨g4, h4⟩ := step g3 (-1) 0
  refine ⟨g4, ?_⟩
  unfold clearNeighbors
  simp only [List.foldlM, h1, someBindM, h2, h3, h4]
  rfl

/-- Membership in `getMazeNeighbors`: a 2-step lattice neighbor, in
bounds, not yet visited. -/
theorem getMazeNeighbors_mem {g : Grid} {visited : PosZ → Bool}
    {p n : PosZ} (h : n ∈ getMazeNeighbors g visited p) :
    (0 ≤ n.1 ∧ n.1 < (g.R : Int) ∧ 0 ≤ n.2 ∧ n.2 < (g.C : Int)) ∧
    visited n = false ∧
    ((n.1 = p.1 ∧ (n.2 = p.2 - 2 ∨ n.2 = p.2 + 2)) ∨
      (n.2 = p.2 ∧ (n.1 = p.1 - 2 ∨ n.1 = p.1 + 2))) := by
  unfold getMazeNeighbors at h
  rw [List.mem_filterMap] at h
  obtain ⟨d, hd, hfd⟩ := h
  simp only [List.mem_cons, List.not_mem_nil, or_false] at hd
  rcases hd with rfl | rfl | rfl | rfl <;>
    · dsimp only at hfd
      split_ifs at hfd with hcond
      · obtain ⟨hb, hv⟩ := hcond
        cases hfd
        refine ⟨hb, by simpa using hv, by omega⟩

theorem dfsMazeLoop_some (s e : Pos) (o : Nat → Nat) (R C : Nat) :
    ∀ (fuel : Nat) (g : Grid) (visited : PosZ → Bool) (stack : List PosZ)
      (i : Nat),
      g.R = R → g.C = C →
      (∀ p ∈ stack, 0 ≤ p.1 ∧ p.1 < (R : Int) ∧ 0 ≤ p.2 ∧ p.2 < (C : Int)) →
      2 * (allCells R C).countP (fun p => !visited (posZ p)) +
        stack.length < fuel →
      ∃ g', dfsMazeLoop s e o fuel g visited stack i = some g' := by
  intro fuel
  induction fuel with
  | zero => intro g visited stack i _ _ _ hm; omega
  | succ fuel ih =>
    intro g visited stack i hgR hgC hstack hm
    match stack with
    | [] => exact ⟨g, by rw [dfsMazeLoop]⟩
    | curr :: rest =>
      rw [dfsMazeLoop]
      by_cases hns : (getMazeNeighbors g visited curr).length > 0
      · rw [dif_pos hns]
        have hcurr := hstack curr (List.mem_cons_self curr rest)
        set ns := getMazeNeighbors g visited curr with hnsdef
        set next := ns.get ⟨o i % ns.length, Nat.mod_lt _ hns⟩ with hnext
        have hnmem : next ∈ ns := List.get_mem ns _ _
        have hn := getMazeNeighbors_mem (hnsdef ▸ hnmem)
        obtain ⟨hnb, hnv, hnoff⟩ := hn
        rw [hgR, hgC] at hnb
        have hmid : 0 ≤ (curr.1 + next.1) / 2 ∧
            (curr.1 + next.1) / 2 < (R : Int) ∧
            0 ≤ (curr.2 + next.2) / 2 ∧
            (curr.2 + next.2) / 2 < (C : Int) := by omega
        obtain ⟨g1, hg1, hi1⟩ := addWall_isSome (g := g) (s := s) (e := e)
          false (Or.inr (by rw [hgR, hgC]; exact hmid))
        obtain ⟨g2, hg2, hi2⟩ := addWall_isSome (g := g1) (s := s) (e := e)
          false (Or.inr (by rw [hi1.1, hi1.2.1, hgR, hgC]; exact hnb))
        have hcnt : (allCells R C).countP
            (fun p => !(if posZ p = next then true else visited (posZ p))) <
            (allCells R C).countP (fun p => !visited (posZ p)) := by
          refine countP_mark_lt posZ visited next (allCells R C)
            ⟨(next.1.toNat, next.2.toNat), ?_, ?_⟩ hnv
          · rw [mem_allCells]
            constructor <;> simp only [] <;> omega
          · unfold posZ
            rw [Prod.ext_iff]
            refine ⟨?_, ?_⟩ <;> dsimp only <;> omega
        obtain ⟨g', hrec⟩ := ih g2
          (fun q => if q = next then true else visited q)
          (next :: curr :: rest) (i + 1)
          (hi2.1.trans (hi1.1.trans hgR)) (hi2.2.1.trans (hi1.2.1.trans hgC))
          (by
            intro p hp
            rcases List.mem_cons.1 hp with rfl | hp
            · exact hnb
            · exact hstack p hp)
          (by
            simp only [List.length_cons] at hm ⊢
            omega)
        refine ⟨g', ?_⟩
        simp only [hg1, Option.some_bind, hg2, hrec]
      · rw [dif_neg hns]
        refine ih g visited rest i hgR hgC
          (fun p hp => hstack p (List.mem_cons_of_mem curr hp)) ?_
        simp only [List.length_cons] at hm
        omega

theorem length_allCells (R C : Nat) : (allCells R C).length = R * C := by
  unfold allCells
  rw [List.length_flatMap]
  simp [List.map_map, Function.comp_def, List.map_const', List.sum_replicate]

theorem generateDFSMaze_some (s e : Pos) (o : Nat → Nat) (g : Grid)
    (hs : inB g s) : ∃ g', generateDFSMaze s e o g = some g' := by
  obtain ⟨g1, h1, hinv1⟩ := forAsc_some (s := s) (e := e)
    (f := fun gg r =>
      forAsc gg
        (fun gg' c =>
          if ¬ isStartOrEnd s e r c then addWall gg' s e r c true
          else some gg')
        0 gg.C)
    g.R 0 g
    (by
      intro gg x hgg hx1 hx2
      obtain ⟨gg', hgg', hinv⟩ := forAsc_some (s := s) (e := e)
        (f := fun gg' c =>
          if ¬ isStartOrEnd s e x c then addWall gg' s e x c true
          else some gg')
        gg.C 0 gg
        (by
          intro gg2 y hgg2 hy1 hy2
          have e1 : gg2.R = g.R := hgg2.1.trans hgg.1
          have e2 : gg2.C = gg.C := hgg2.2.1
          dsimp only
          split_ifs with hcond
          all_goals
            first
            | exact ⟨gg2, rfl, WallsOpInv.refl s e gg2⟩
            | (refine addWall_isSome true (Or.inr ?_)
               refine ⟨hx1, ?_, hy1, ?_⟩
               · rw [e1]; omega
               · rw [e2]; omega))
      exact ⟨gg', hgg', hinv⟩)
  obtain ⟨g2, h2⟩ := dfsMazeLoop_some s e o g.R g.C
    (2 * g1.R * g1.C + 2) g1
    (fun q => if q = posZ s then true else false) [posZ s] 0
    hinv1.1 hinv1.2.1
    (by
      intro p hp
      rcases List.mem_cons.1 hp with rfl | hp
      · unfold inB at hs
        unfold posZ
        refine ⟨?_, ?_, ?_, ?_⟩ <;> dsimp only <;> omega
      · cases hp)
    (by
      have hle := List.countP_le_length
        (p := fun p => !(if posZ p = posZ s then true else false))
        (l := allCells g.R g.C)
      rw [length_allCells] at hle
      rw [hinv1.1, hinv1.2.1, Nat.mul_assoc]
      simp only [List.length_singleton]
      omega)
  refine ⟨g2, ?_⟩
  unfold generateDFSMaze
  simp only [h1, Option.some_bind, h2, addWall_start_noop,
    addWall_end_noop]

theorem recursiveDivision_some (s e : Pos) (o : Nat → Nat) :
    ∀ g i rS rE cS cE,
      0 ≤ rS → rE ≤ (g.R : Int) - 1 → 0 ≤ cS → cE ≤ (g.C : Int) - 1 →
      ∃ gi, recursiveDivision s e o g i rS rE cS cE = some gi := by
  intro g i rS rE cS cE
  induction g, i, rS, rE, cS, cE using recursiveDivision.induct
      (s := s) (e := e) (o := o) with
  | case1 g i rS rE cS cE hdim =>
    intro _ _ _ _
    exact ⟨(g, i), by rw [recursiveDivision, if_pos hdim]⟩
  | case2 g i rS rE cS cE hdim hor wallR ih2 ih1 =>
    intro h1 h2 h3 h4
    have hwrdef : wallR = ((o i % (rE - rS - 1).toNat : Nat) : Int) +
        rS + 1 := rfl
    rw [hwrdef] at ih2 ih1
    have hmod : (o i % (rE - rS - 1).toNat) < (rE - rS - 1).toNat :=
      Nat.mod_lt _ (by omega)
    obtain ⟨g1, hAsc, hinv1⟩ := forAsc_some (s := s) (e := e)
      (f := fun gg c =>
        if c ≠ ((o (i + 1) % (cE - cS + 1).toNat : Nat) : Int) + cS ∧
            ¬ isStartOrEnd s e
              (((o i % (rE - rS - 1).toNat : Nat) : Int) + rS + 1) c then
          addWall gg s e
            (((o i % (rE - rS - 1).toNat : Nat) : Int) + rS + 1) c true
        else some gg)
      (cE - cS + 1).toNat cS g
      (by
        intro gg x hgg hx1 hx2
        dsimp only
        split_ifs with hcond
        all_goals
          first
          | exact ⟨gg, rfl, WallsOpInv.refl s e gg⟩
          | (refine addWall_isSome true (Or.inr ?_)
             refine ⟨by omega, ?_, by omega, ?_⟩
             · rw [hgg.1]; omega
             · rw [hgg.2.1]; omega))
    obtain ⟨gi1, hRec1⟩ := ih2 g1 (by omega) (by rw [hinv1.1]; omega) h3
      (by rw [hinv1.2.1]; omega)
    have hinv2 := recursiveDivision_inv s e o g1 (i + 2) rS
      (((o i % (rE - rS - 1).toNat : Nat) : Int) + rS + 1 - 1) cS cE
      gi1.1 gi1.2 hRec1
    obtain ⟨gi2, hRec2⟩ := ih1 gi1 (by omega)
      (by rw [hinv2.1, hinv1.1]; omega) h3
      (by rw [hinv2.2.1, hinv1.2.1]; omega)
    refine ⟨gi2, ?_⟩
    rw [recursiveDivision, if_neg hdim, if_pos hor]
    simp only [hAsc, Option.some_bind, hRec1, hRec2]
  | case3 g i rS rE cS cE hdim hor wallC ih2 ih1 =>
    intro h1 h2 h3 h4
    have hwcdef : wallC = ((o i % (cE - cS - 1).toNat : Nat) : Int) +
        cS + 1 := rfl
    rw [hwcdef] at ih2 ih1
    have hmod : (o i % (cE - cS - 1).toNat) < (cE - cS - 1).toNat :=
      Nat.mod_lt _ (by omega)
    obtain ⟨g1, hAsc, hinv1⟩ := forAsc_some (s := s) (e := e)
      (f := fun gg r =>
        if r ≠ ((o (i + 1) % (rE - rS + 1).toNat : Nat) : Int) + rS ∧
            ¬ isStartOrEnd s e r
              (((o i % (cE - cS - 1).toNat : Nat) : Int) + cS + 1) then
          addWall gg s e r
            (((o i % (cE - cS - 1).toNat : Nat) : Int) + cS + 1) true
        else some gg)
      (rE - rS + 1).toNat rS g
      (by
        intro gg x hgg hx1 hx2
        dsimp only
        split_ifs with hcond
        all_goals
          first
          | exact ⟨gg, rfl, WallsOpInv.refl s e gg⟩
          | (refine addWall_isSome true (Or.inr ?_)
             refine ⟨by omega, ?_, by omega, ?_⟩
             · rw [hgg.1]; omega
             · rw [hgg.2.1]; omega))
    obtain ⟨gi1, hRec1⟩ := ih2 g1 h1 (by rw [hinv1.1]; omega) (by omega)
      (by rw [hinv1.2.1]; omega)
    have hinv2 := recursiveDivision_inv s e o g1 (i + 2) rS rE cS
      (((o i % (cE - cS - 1).toNat : Nat) : Int) + cS + 1 - 1)
      gi1.1 gi1.2 hRec1
    obtain ⟨gi2, hRec2⟩ := ih1 gi1 h1
      (by rw [hinv2.1, hinv1.1]; omega) (by omega)
      (by rw [hinv2.2.1, hinv1.2.1]; omega)
    refine ⟨gi2, ?_⟩
    rw [recursiveDivision, if_neg hdim, if_neg hor]
    simp only [hAsc, Option.some_bind, hRec1, hRec2]

theorem spiralLoop_some (s e : Pos) :
    ∀ g rS rE cS cE,
      1 ≤ rS → 1 ≤ cS → rE ≤ (g.R : Int) - 2 → cE ≤ (g.C : Int) - 2 →
      (rE ≤ (g.R : Int) - 4 ∨
        (rS = 1 ∧ rE = (g.R : Int) - 2 ∧ 5 ≤ g.R)) →
      ∃ g', spiralLoop s e g rS rE cS cE = some g' := by
  intro g rS rE cS cE
  induction g, rS, rE, cS, cE using spiralLoop.induct (s := s) (e := e) with
  | case2 g rS rE cS cE hcond =>
    intro _ _ _ _ _
    exact ⟨g, by rw [spiralLoop, if_neg hcond]⟩
  | case1 g rS rE cS cE hcond rStart' cEnd' rEnd' cStart' ih =>
    intro hrS hcS hrE hcE hdisj
    obtain ⟨hre, hce⟩ := hcond
    have e1 : rStart' = rS + 2 := rfl
    have e2 : cEnd' = cE - 2 := rfl
    have e3 : rEnd' = if rS + 2 ≤ rE then rE - 2 else rE := rfl
    have e4 : cStart' = if cS ≤ cE - 2 then cS + 2 else cS := rfl
    rw [e1, e2, e3, e4] at ih
    have hrE4 : ¬ (rS + 2 ≤ rE) → rE ≤ (g.R : Int) - 4 := by
      intro hnb
      rcases hdisj with h | ⟨hh1, hh2, hh3⟩
      · exact h
      · omega
    obtain ⟨g1, h1, i1⟩ := forAsc_some (s := s) (e := e)
      (f := fun gg c =>
        if ¬ isStartOrEnd s e rS c then addWall gg s e rS c true
        else some gg)
      (cE - cS + 1).toNat cS g
      (by
        intro gg x hgg hx1 hx2
        dsimp only
        split_ifs with hcond2
        all_goals
          first
          | exact ⟨gg, rfl, WallsOpInv.refl s e gg⟩
          | (refine addWall_isSome true (Or.inr ?_)
             refine ⟨by omega, ?_, by omega, ?_⟩
             · rw [hgg.1]; omega
             · rw [hgg.2.1]; omega))
    obtain ⟨g2, h2, i2⟩ := forAsc_some (s := s) (e := e)
      (f := fun gg r =>
        if ¬ isStartOrEnd s e r cE then addWall gg s e r cE true
        else some gg)
      (rE - (rS + 2 - 2) + 1).toNat (rS + 2 - 2) g1
      (by
        intro gg x hgg hx1 hx2
        dsimp only
        split_ifs with hcond2
        all_goals
          first
          | exact ⟨gg, rfl, WallsOpInv.refl s e gg⟩
          | (refine addWall_isSome true (Or.inr ?_)
             refine ⟨by omega, ?_, by omega, ?_⟩
             · rw [hgg.1, i1.1]; omega
             · rw [hgg.2.1, i1.2.1]; omega))
    have hg3 : ∃ g3,
        (if rS + 2 ≤ rE then
          forDesc g2
            (fun gg c =>
              if ¬ isStartOrEnd s e rE c then addWall gg s e rE c true
              else some gg)
            (cE - 2 + 2) (cE - 2 + 2 - cS + 1).toNat
        else some g2) = some g3 ∧ WallsOpInv s e g2 g3 := by
      by_cases hb : rS + 2 ≤ rE
      case neg => exact ⟨g2, by rw [if_neg hb], WallsOpInv.refl s e g2⟩
      case pos =>
        rw [if_pos hb]
        refine forDesc_some (s := s) (e := e) _ _ g2 ?_
        intro gg x hgg hx1 hx2
        dsimp only
        split_ifs with hcond2
        all_goals
          first
          | exact ⟨gg, rfl, WallsOpInv.refl s e gg⟩
          | (refine addWall_isSome true (Or.inr ?_)
             refine ⟨by omega, ?_, by omega, ?_⟩
             · rw [hgg.1, i2.1, i1.1]; omega
             · rw [hgg.2.1, i2.2.1, i1.2.1]; omega)
    obtain ⟨g3, h3, i3⟩ := hg3
    have hg4 : ∃ g4,
        (if cS ≤ cE - 2 then
          forDesc g3
            (fun gg r =>
              if ¬ isStartOrEnd s e r cS then addWall gg s e r cS true
              else some gg)
            ((if rS + 2 ≤ rE then rE - 2 else rE) + 2)
            ((if rS + 2 ≤ rE then rE - 2 else rE) + 2 - (rS + 2) + 1).toNat
        else some g3) = some g4 ∧ WallsOpInv s e g3 g4 := by
      by_cases hc : cS ≤ cE - 2
      case neg => exact ⟨g3, by rw [if_neg hc], WallsOpInv.refl s e g3⟩
      case pos =>
        rw [if_pos hc]
        refine forDesc_some (s := s) (e := e) _ _ g3 ?_
        intro gg x hgg hx1 hx2
        dsimp only
        have hup : x ≤ (g.R : Int) - 2 := by
          by_cases hb : rS + 2 ≤ rE
          · rw [if_pos hb] at hx2; omega
          · rw [if_neg hb] at hx2
            have := hrE4 hb
            omega
        have hlow : rS + 2 - 1 < x := by
          by_cases hb : rS + 2 ≤ rE
          · rw [if_pos hb] at hx1; omega
          · rw [if_neg hb] at hx1; omega
        split_ifs with hcond2
        all_goals
          first
          | exact ⟨gg, rfl, WallsOpInv.refl s e gg⟩
          | (refine addWall_isSome true (Or.inr ?_)
             refine ⟨by omega, ?_, by omega, ?_⟩
             · rw [hgg.1, i3.1, i2.1, i1.1]; omega
             · rw [hgg.2.1, i3.2.1, i2.2.1, i1.2.1]; omega)
    obtain ⟨g4, h4, i4⟩ := hg4
    have icomp : WallsOpInv s e g g4 :=
      ((i1.trans i2).trans i3).trans i4
    obtain ⟨gf, hf⟩ := ih g4 (by omega)
      (by split_ifs <;> omega)
      (by
        rw [icomp.1]
        by_cases hb : rS + 2 ≤ rE
        · rw [if_pos hb]; omega
        · rw [if_neg hb]
          have := hrE4 hb
          omega)
      (by rw [icomp.2.1]; omega)
      (by
        left
        rw [icomp.1]
        by_cases hb : rS + 2 ≤ rE
        · rw [if_pos hb]; omega
        · rw [if_neg hb]
          exact hrE4 hb)
    refine ⟨gf, ?_⟩
    rw [spiralLoop, if_pos ⟨hre, hce⟩, Option.bind_eq_some]
    refine ⟨g4, ?_, hf⟩
    by_cases hb : rS + 2 ≤ rE <;> by_cases hc : cS ≤ cE - 2
    · simp only [if_pos hb] at h3
      simp only [if_pos hb, if_pos hc] at h4
      simp only [if_pos hb, if_pos hc, h1, someBindM, h2, h3, h4,
        Option.some_bind]
      rfl
    · simp only [if_pos hb] at h3
      simp only [if_pos hb, if_neg hc] at h4
      simp only [if_pos hb, if_neg hc, h1, someBindM, h2, h3,
        Option.some_bind]
      exact h4
    · simp only [if_neg hb] at h3
      simp only [if_neg hb, if_pos hc] at h4
      cases h3
      simp only [if_neg hb, if_pos hc, h1, someBindM, h2, h4,
        Option.some_bind]
      rfl
    · simp only [if_neg hb] at h3
      simp only [if_neg hb, if_neg hc] at h4
      simp only [if_neg hb, if_neg hc, h1, someBindM, h2,
        Option.some_bind]
      exact h3.trans h4

theorem generateSpiralPattern_some (s e : Pos) (g : Grid) (hR : 5 ≤ g.R)
    (hC : 5 ≤ g.C) : ∃ g', generateSpiralPattern s e g = some g' := by
  obtain ⟨g1, h1⟩ := spiralLoop_some s e g 1 ((g.R : Int) - 2) 1
    ((g.C : Int) - 2) le_rfl le_rfl le_rfl le_rfl
    (Or.inr ⟨rfl, rfl, hR⟩)
  obtain ⟨g2, h2⟩ := clearNeighbors_some s e g1 s
  obtain ⟨g3, h3⟩ := clearNeighbors_some s e g2 e
  refine ⟨g3, ?_⟩
  unfold generateSpiralPattern
  simp only [h1, Option.some_bind, h2, h3]

/-- C8: recursive division returns immediately, placing no wall, as soon
as either span of the sub-rectangle drops below 2 (so in particular for
every degenerate sub-rectangle), and on a grid at least 5×5 with an
in-bounds start none of the three generator entry points ever accesses a
cell outside the grid bounds (no run returns the out-of-bounds marker
`none`). -/
theorem C8_degenerate_early_return_and_bounds (g : Grid) (s e : Pos)
    (o : Nat → Nat) (hR : 5 ≤ g.R) (hC : 5 ≤ g.C) (hs : inB g s) :
    (∀ (g₂ : Grid) (i : Nat) (rS rE cS cE : Int),
      rE - rS < 2 ∨ cE - cS < 2 →
      recursiveDivision s e o g₂ i rS rE cS cE = some (g₂, i)) ∧
    (handleMazeGenRecursive s e o g).isSome ∧
    (generateSpiralPattern s e g).isSome ∧
    (generateDFSMaze s e o g).isSome := by
  refine ⟨?_, ?_, ?_, ?_⟩
  · intro g₂ i rS rE cS cE hdim
    rw [recursiveDivision, if_pos hdim]
  · obtain ⟨gi, hgi⟩ := recursiveDivision_some s e o g 0 1
      ((g.R : Int) - 2) 1 ((g.C : Int) - 2) (by omega) (by omega)
      (by omega) (by omega)
    unfold handleMazeGenRecursive
    rw [hgi]
    rfl
  · obtain ⟨g', hg'⟩ := generateSpiralPattern_some s e g hR hC
    rw [hg']
    rfl
  · obtain ⟨g', hg'⟩ := generateDFSMaze_some s e o g hs
    rw [hg']
    rfl

/-- Witness for C8 on the empty 5×5 grid. -/
theorem C8_degenerate_early_return_and_bounds_witness :
    5 ≤ (Grid.mk 5 5 (fun _ => false)).R ∧
    5 ≤ (Grid.mk 5 5 (fun _ => false)).C ∧
    inB (Grid.mk 5 5 (fun _ => false)) (0, 0) ∧
    ((∀ (g₂ : Grid) (i : Nat) (rS rE cS cE : Int),
      rE - rS < 2 ∨ cE - cS < 2 →
      recursiveDivision (0, 0) (4, 4) (fun _ => 0) g₂ i rS rE cS cE =
        some (g₂, i)) ∧
    (handleMazeGenRecursive (0, 0) (4, 4) (fun _ => 0)
      (Grid.mk 5 5 (fun _ => false))).isSome ∧
    (generateSpiralPattern (0, 0) (4, 4)
      (Grid.mk 5 5 (fun _ => false))).isSome ∧
    (generateDFSMaze (0, 0) (4, 4) (fun _ => 0)
      (Grid.mk 5 5 (fun _ => false))).isSome) :=
  ⟨by decide, by decide, by decide,
    C8_degenerate_early_return_and_bounds (Grid.mk 5 5 (fun _ => false))
      (0, 0) (4, 4) (fun _ => 0) (by decide) (by decide) (by decide)⟩

/-! ## The interactive board (claim C6)

The mutable globals `gridArray`/`startPos`/`endPos` of `script.js`,
together with the mouse handlers that mutate them. -/

/-- The board state: the grid plus the two designated positions. -/
structure Board where
  g : Grid
  startPos : Pos
  endPos : Pos

/-- `handleMouseEnter`/`handleMouseDown` while dragging the start node:
move it unless the target is the end node or a wall (then silently
ignore). -/
def dragStart (b : Board) (r c : Nat) : Board :=
  if (r ≠ b.endPos.1 ∨ c ≠ b.endPos.2) ∧ b.g.wall (r, c) = false then
    { b with startPos := (r, c) }
  else b

/-- `handleMouseEnter`/`handleMouseDown` while dragging the end node. -/
def dragEnd (b : Board) (r c : Nat) : Board :=
  if (r ≠ b.startPos.1 ∨ c ≠ b.startPos.2) ∧ b.g.wall (r, c) = false then
    { b with endPos := (r, c) }
  else b

/-- `calculateGridSize` + `createGrid`: take the viewport-derived raw
dimensions, clamp them to at least 5, rebuild a wall-free grid and clamp
the start/end positions into the new bounds. -/
def calculateGridSize (b : Board) (rawR rawC : Nat) : Board :=
  let R := if rawR < 5 then 5 else rawR
  let C := if rawC < 5 then 5 else rawC
  { g := ⟨R, C, fun _ => false⟩
    startPos := (min b.startPos.1 (R - 1), min b.startPos.2 (C - 1))
    endPos := (min b.endPos.1 (R - 1), min b.endPos.2 (C - 1)) }

/-- The board invariant: the single start and the single end position are
in bounds and neither cell is a wall. -/
def BoardInv (b : Board) : Prop :=
  inB b.g b.startPos ∧ inB b.g b.endPos ∧
  b.g.wall b.startPos = false ∧ b.g.wall b.endPos = false

instance (b : Board) : Decidable (BoardInv b) := by
  unfold BoardInv; infer_instance

/-- C6: the board designates exactly one start and one end cell (one
`startPos` and one `endPos` field), and neither is ever a wall: walling
the start or end cell is a silent no-op, dragging the start or end onto a
wall cell is silently ignored, and the no-wall invariant is preserved by
wall edits, drags, grid resize with position clamping, and all three maze
generators. -/
theorem C6_start_end_invariant (b : Board) (hInv : BoardInv b) :
    (∀ st : Bool,
      addWall b.g b.startPos b.endPos (b.startPos.1 : Int)
        (b.startPos.2 : Int) st = some b.g ∧
      addWall b.g b.startPos b.endPos (b.endPos.1 : Int)
        (b.endPos.2 : Int) st = some b.g) ∧
    (∀ r c, b.g.wall (r, c) = true →
      dragStart b r c = b ∧ dragEnd b r c = b) ∧
    (∀ (r c : Int) (st : Bool) (g' : Grid),
      addWall b.g b.startPos b.endPos r c st = some g' →
      BoardInv { b with g := g' }) ∧
    (∀ r c, inB b.g (r, c) →
      BoardInv (dragStart b r c) ∧ BoardInv (dragEnd b r c)) ∧
    (∀ rawR rawC, BoardInv (calculateGridSize b rawR rawC)) ∧
    (∀ (o : Nat → Nat) (g' : Grid),
      generateDFSMaze b.startPos b.endPos o b.g = some g' →
      BoardInv { b with g := g' }) ∧
    (∀ g', generateSpiralPattern b.startPos b.endPos b.g = some g' →
      BoardInv { b with g := g' }) ∧
    (∀ (o : Nat → Nat) (gi : Grid × Nat),
      handleMazeGenRecursive b.startPos b.endPos o b.g = some gi →
      BoardInv { b with g := gi.1 }) := by
  obtain ⟨hbs, hbe, hws, hwe⟩ := hInv
  have invOf : ∀ g' : Grid, WallsOpInv b.startPos b.endPos b.g g' →
      BoardInv { b with g := g' } := by
    intro g' hi
    refine ⟨?_, ?_, hi.2.2.1.trans hws, hi.2.2.2.trans hwe⟩
    · exact ⟨hi.1 ▸ hbs.1, hi.2.1 ▸ hbs.2⟩
    · exact ⟨hi.1 ▸ hbe.1, hi.2.1 ▸ hbe.2⟩
  refine ⟨?_, ?_, ?_, ?_, ?_, ?_, ?_, ?_⟩
  · exact fun st => ⟨addWall_start_noop b.g b.startPos b.endPos st,
      addWall_end_noop b.g b.startPos b.endPos st⟩
  · intro r c hwall
    refine ⟨?_, ?_⟩
    · unfold dragStart
      rw [if_neg]
      rintro ⟨-, hw⟩
      rw [hwall] at hw
      cases hw
    · unfold dragEnd
      rw [if_neg]
      rintro ⟨-, hw⟩
      rw [hwall] at hw
      cases hw
  · exact fun r c st g' h => invOf g' (addWall_inv h)
  · intro r c hrc
    constructor
    · unfold dragStart
      split_ifs with hcond
      · exact ⟨hrc, hbe, hcond.2, hwe⟩
      · exact ⟨hbs, hbe, hws, hwe⟩
    · unfold dragEnd
      split_ifs with hcond
      · exact ⟨hbs, hrc, hws, hcond.2⟩
      · exact ⟨hbs, hbe, hws, hwe⟩
  · intro rawR rawC
    unfold calculateGridSize BoardInv inB
    refine ⟨⟨?_, ?_⟩, ⟨?_, ?_⟩, rfl, rfl⟩ <;>
      · dsimp only
        split_ifs <;> omega
  · exact fun o g' h => invOf g' (generateDFSMaze_inv h)
  · exact fun g' h => invOf g' (generateSpiralPattern_inv h)
  · exact fun o gi h => invOf gi.1
      (recursiveDivision_inv b.startPos b.endPos o _ _ _ _ _ _ _ _ h)

/-- A concrete 5×5 board with corner start/end, used by witnesses. -/
def b55 : Board := ⟨⟨5, 5, fun _ => false⟩, (0, 0), (4, 4)⟩

/-- Witness for C6 on the empty 5×5 board. -/
theorem C6_start_end_invariant_witness :
    BoardInv b55 ∧
    ((∀ st : Bool,
      addWall b55.g b55.startPos b55.endPos (b55.startPos.1 : Int)
        (b55.startPos.2 : Int) st = some b55.g ∧
      addWall b55.g b55.startPos b55.endPos (b55.endPos.1 : Int)
        (b55.endPos.2 : Int) st = some b55.g) ∧
    (∀ r c, b55.g.wall (r, c) = true →
      dragStart b55 r c = b55 ∧ dragEnd b55 r c = b55) ∧
    (∀ (r c : Int) (st : Bool) (g' : Grid),
      addWall b55.g b55.startPos b55.endPos r c st = some g' →
      BoardInv { b55 with g := g' }) ∧
    (∀ r c, inB b55.g (r, c) →
      BoardInv (dragStart b55 r c) ∧ BoardInv (dragEnd b55 r c)) ∧
    (∀ rawR rawC, BoardInv (calculateGridSize b55 rawR rawC)) ∧
    (∀ (o : Nat → Nat) (g' : Grid),
      generateDFSMaze b55.startPos b55.endPos o b55.g = some g' →
      BoardInv { b55 with g := g' }) ∧
    (∀ g', generateSpiralPattern b55.startPos b55.endPos b55.g =
        some g' → BoardInv { b55 with g := g' }) ∧
    (∀ (o : Nat → Nat) (gi : Grid × Nat),
      handleMazeGenRecursive b55.startPos b55.endPos o b55.g = some gi →
      BoardInv { b55 with g := gi.1 })) :=
  ⟨by decide, C6_start_end_invariant b55 (by decide)⟩

/-! ## Start equal to end (claim C10) -/

theorem bfsLoop_cons (g : Grid) (endP : Pos) (fuel : Nat)
    (current : Pos) (rest : List Pos) (s : SState) (trace : List Pos) :
    bfsLoop g endP (fuel + 1) (current :: rest) s trace =
      if current = endP then some (trace ++ [current], s, false)
      else
        let sq := bfsExpand g current (getNeighbors g current) s rest
        bfsLoop g endP fuel sq.2 sq.1 (trace ++ [current]) := rfl

theorem dfsLoop_cons (g : Grid) (endP : Pos) (fuel : Nat)
    (current : Pos) (rest : List Pos) (s : SState) (trace : List Pos) :
    dfsLoop g endP (fuel + 1) (current :: rest) s trace =
      if current = endP then some (trace ++ [current], s, false)
      else
        let sq := dfsExpand g current (getNeighbors g current) s rest
        dfsLoop g endP fuel sq.2 sq.1 (trace ++ [current]) := rfl

theorem stdFuel_succ (g : Grid) :
    stdFuel g = (1 + 6 * (g.R * g.C)) + 1 := by
  unfold stdFuel
  omega

/-- Reconstruction from a cell with no backpointer is that single cell,
whatever the fuel. -/
theorem reconstructPath_none {prev : Pos → Option Pos} {p : Pos}
    (h : prev p = none) : ∀ fuel, reconstructPath prev fuel p = [p] := by
  intro fuel
  cases fuel with
  | zero => rfl
  | succ fuel => rw [reconstructPath, h]

/-- C10: when the start cell and the end cell coincide (which resize
clamping can produce) and that cell is not a wall, each of the three
searches returns the one-element visitation trace `[p]` with an early
(non-emptied) exit, and `animate` reports success with visited count 1
and path length 1. -/
theorem C10_start_eq_end (g : Grid) (p : Pos) (hw : g.wall p = false) :
    (∃ s1, bfs g p p = some ([p], s1, false) ∧
      animateCore g p p [p] s1 = ⟨true, 1, 1⟩) ∧
    (∃ s1, dfs g p p = some ([p], s1, false) ∧
      animateCore g p p [p] s1 = ⟨true, 1, 1⟩) ∧
    (∃ s1, astar g p p = some ([p], s1, false) ∧
      animateCore g p p [p] s1 = ⟨true, 1, 1⟩) := by
  have hanim : ∀ s1 : SState, s1.prev p = none → s1.visited p = true →
      animateCore g p p [p] s1 = ⟨true, 1, 1⟩ := by
    intro s1 hprev hvis
    unfold animateCore
    rw [reconstructPath_none hprev]
    simp [hvis, hw]
  refine ⟨⟨markVisited initState p, ?_, ?_⟩,
    ⟨markVisited initState p, ?_, ?_⟩, ?_⟩
  · rw [bfs, stdFuel_succ, bfsLoop_cons, if_pos rfl]
    rfl
  · exact hanim _ rfl (by unfold markVisited; simp)
  · rw [dfs, stdFuel_succ, dfsLoop_cons, if_pos rfl]
    rfl
  · exact hanim _ rfl (by unfold markVisited; simp)
  · refine ⟨markVisited
      { initState with
        gCost := fun q => if q = p then some 0 else none
        fCost := fun q => if q = p then some (heuristic p p) else none }
      p, ?_, ?_⟩
    · rw [astar, stdFuel_succ]
      rw [show ∀ (s : SState) (tr : List Pos),
          astarLoop g p ((1 + 6 * (g.R * g.C)) + 1) [p] s tr =
          (match sortBy (fun a b => infLe (s.fCost a) (s.fCost b)) [p] with
          | [] => some (tr, s, true)
          | current :: rest =>
            if s.visited current then
              astarLoop g p (1 + 6 * (g.R * g.C)) rest s tr
            else
              let s' := markVisited s current
              if current = p then some (tr ++ [current], s', false)
              else
                let so := astarUpdate g p current (getNeighbors g current)
                  s' rest
                astarLoop g p (1 + 6 * (g.R * g.C)) so.2 so.1
                  (tr ++ [current]) : Option (List Pos × SState × Bool))
        from fun s tr => rfl]
      show (if _ = true then _ else _) = _
      rw [if_neg (by simp [initState]), if_pos rfl]
      rfl
    · exact hanim _ rfl (by unfold markVisited; simp)

/-- Witness for C10 on the empty 4×4 grid with the coinciding cell
(2, 2). -/
theorem C10_start_eq_end_witness :
    (Grid.mk 4 4 (fun _ => false)).wall (2, 2) = false ∧
    ((∃ s1, bfs (Grid.mk 4 4 (fun _ => false)) (2, 2) (2, 2) =
        some ([(2, 2)], s1, false) ∧
      animateCore (Grid.mk 4 4 (fun _ => false)) (2, 2) (2, 2)
        [(2, 2)] s1 = ⟨true, 1, 1⟩) ∧
    (∃ s1, dfs (Grid.mk 4 4 (fun _ => false)) (2, 2) (2, 2) =
        some ([(2, 2)], s1, false) ∧
      animateCore (Grid.mk 4 4 (fun _ => false)) (2, 2) (2, 2)
        [(2, 2)] s1 = ⟨true, 1, 1⟩) ∧
    (∃ s1, astar (Grid.mk 4 4 (fun _ => false)) (2, 2) (2, 2) =
        some ([(2, 2)], s1, false) ∧
      animateCore (Grid.mk 4 4 (fun _ => false)) (2, 2) (2, 2)
        [(2, 2)] s1 = ⟨true, 1, 1⟩)) :=
  ⟨rfl, C10_start_eq_end (Grid.mk 4 4 (fun _ => false)) (2, 2) rfl⟩

/-! ## Sorting lemmas for the A* open set -/

theorem insertBy_perm (le : α → α → Bool) (x : α) :
    ∀ l : List α, (insertBy le x l).Perm (x :: l) := by
  intro l
  induction l with
  | nil => rfl
  | cons y ys ih =>
    rw [insertBy]
    split_ifs
    · exact (ih.cons y).trans (List.Perm.swap x y ys)
    · rfl

theorem sortBy_perm (le : α → α → Bool) (l : List α) :
    (sortBy le l).Perm l := by
  suffices h : ∀ (l acc : List α),
      (l.foldl (fun acc x => insertBy le x acc) acc).Perm (acc ++ l) by
    simpa using h l []
  intro l
  induction l with
  | nil => intro acc; simp
  | cons x xs ih =>
    intro acc
    rw [List.foldl_cons]
    refine (ih (insertBy le x acc)).trans ?_
    refine (((insertBy_perm le x acc).append_right xs).trans ?_)
    exact List.perm_middle.symm

theorem insertBy_pairwise {le : α → α → Bool}
    (htrans : ∀ a b c, le a b = true → le b c = true → le a c = true)
    (htotal : ∀ a b, le a b = true ∨ le b a = true) (x : α) :
    ∀ l : List α, l.Pairwise (fun a b => le a b = true) →
      (insertBy le x l).Pairwise (fun a b => le a b = true) := by
  intro l
  induction l with
  | nil => intro _; simp [insertBy]
  | cons y ys ih =>
    intro hp
    rw [List.pairwise_cons] at hp
    obtain ⟨hy, hys⟩ := hp
    rw [insertBy]
    split_ifs with hle
    · rw [List.pairwise_cons]
      refine ⟨?_, ih hys⟩
      intro z hz
      have := (insertBy_perm le x ys).mem_iff.1 hz
      rcases List.mem_cons.1 this with rfl | hz'
      · exact hle
      · exact hy z hz'
    · rw [List.pairwise_cons]
      refine ⟨?_, List.pairwise_cons.2 ⟨hy, hys⟩⟩
      intro z hz
      have hxy : le x y = true := (htotal x y).resolve_right
        (fun h => hle h)
      rcases List.mem_cons.1 hz with rfl | hz'
      · exact hxy
      · exact htrans x y z hxy (hy z hz')

theorem sortBy_pairwise {le : α → α → Bool}
    (htrans : ∀ a b c, le a b = true → le b c = true → le a c = true)
    (htotal : ∀ a b, le a b = true ∨ le b a = true) (l : List α) :
    (sortBy le l).Pairwise (fun a b => le a b = true) := by
  suffices h : ∀ (l acc : List α),
      acc.Pairwise (fun a b => le a b = true) →
      (l.foldl (fun acc x => insertBy le x acc) acc).Pairwise
        (fun a b => le a b = true) by
    exact h l [] (by simp)
  intro l
  induction l with
  | nil => intro acc h; simpa using h
  | cons x xs ih =>
    intro acc h
    rw [List.foldl_cons]
    exact ih _ (insertBy_pairwise htrans htotal x acc h)

theorem infLe_trans : ∀ a b c : Option Nat,
    infLe a b = true → infLe b c = true → infLe a c = true := by
  intro a b c hab hbc
  cases a <;> cases b <;> cases c <;>
    simp_all [infLe] <;> omega

theorem infLe_total : ∀ a b : Option Nat,
    infLe a b = true ∨ infLe b a = true := by
  intro a b
  cases a <;> cases b <;> simp [infLe] <;> omega

/-- The head of the sorted open set has minimal `fCost` among the open
set. -/
theorem sortBy_head_min {s : SState} {open_ : List Pos} {c : Pos}
    {rest : List Pos}
    (h : sortBy (fun a b => infLe (s.fCost a) (s.fCost b)) open_ =
      c :: rest) :
    ∀ p ∈ open_, infLe (s.fCost c) (s.fCost p) = true := by
  intro p hp
  have hperm := sortBy_perm (fun a b => infLe (s.fCost a) (s.fCost b))
    open_
  rw [h] at hperm
  rcases List.mem_cons.1 (hperm.mem_iff.2 hp) with rfl | hp'
  · cases hfc : s.fCost p <;> simp [infLe]
  · have hpw := @sortBy_pairwise _
      (fun a b => infLe (s.fCost a) (s.fCost b))
      (fun a b c => infLe_trans _ _ _) (fun a b => infLe_total _ _) open_
    rw [h, List.pairwise_cons] at hpw
    exact hpw.1 p hp'

theorem getNeighbors_length_le (g : Grid) (p : Pos) :
    (getNeighbors g p).length ≤ 4 := by
  unfold getNeighbors
  split_ifs <;> simp

/-! ## Counting unvisited cells -/

/-- The number of unvisited cells of the grid. -/
def countUnvis (g : Grid) (v : Pos → Bool) : Nat :=
  (allCells g.R g.C).countP (fun p => !v p)

theorem countUnvis_le (g : Grid) (v : Pos → Bool) :
    countUnvis g v ≤ g.R * g.C := by
  have h := List.countP_le_length (p := fun p => !v p)
    (l := allCells g.R g.C)
  rwa [length_allCells] at h

theorem countUnvis_mark_lt {g : Grid} {v : Pos → Bool} {n : Pos}
    (hb : inB g n) (hv : v n = false) :
    countUnvis g (fun q => if q = n then true else v q) <
      countUnvis g v := by
  refine countP_mark_lt (fun p : Pos => p) v n (allCells g.R g.C)
    ⟨n, ?_, rfl⟩ hv
  rw [mem_allCells]
  exact hb

theorem countUnvis_mark_le (g : Grid) (v : Pos → Bool) (n : Pos) :
    countUnvis g (fun q => if q = n then true else v q) ≤
      countUnvis g v :=
  countP_mark_le (fun p : Pos => p) v n (allCells g.R g.C)

theorem allCells_nodup (R C : Nat) : (allCells R C).Nodup := by
  induction R with
  | zero => simp [allCells]
  | succ R ih =>
    unfold allCells at *
    rw [List.range_succ, List.flatMap_append]
    rw [List.nodup_append]
    refine ⟨ih, ?_, ?_⟩
    · simp only [List.flatMap_cons, List.flatMap_nil, List.append_nil]
      exact List.Nodup.map (fun a b h => by
        simpa using congrArg Prod.snd h) (List.nodup_range C)
    · intro p hp hp'
      simp only [List.flatMap_cons, List.flatMap_nil, List.append_nil,
        List.mem_map, List.mem_range] at hp'
      obtain ⟨c, -, rfl⟩ := hp'
      have hlt := ((mem_allCells (R := R) (C := C)).1 hp).1
      dsimp only at hlt
      omega

/-! ## The BFS/DFS expansion step -/

theorem bfsExpand_visited (g : Grid) (c : Pos) :
    ∀ (ns : List Pos) (s : SState) (q : List Pos) (z : Pos),
      ((bfsExpand g c ns s q).1.visited z = true ↔
        (s.visited z = true ∨ (z ∈ ns ∧ g.wall z = false))) := by
  intro ns
  induction ns with
  | nil => intro s q z; simp [bfsExpand]
  | cons n ns ih =>
    intro s q z
    rw [bfsExpand]
    by_cases hz : z = n
    · subst hz
      split_ifs with hg
      · simp only [Bool.and_eq_true, Bool.not_eq_true'] at hg
        rw [ih]
        have hv : (setPrev (markVisited s z) z c).visited z = true := by
          unfold setPrev markVisited
          simp
        simp [hv, hg.2]
      · simp only [Bool.and_eq_true, Bool.not_eq_true', not_and_or,
          not_not, Bool.not_eq_false] at hg
        rw [ih]
        rcases hg with hg | hg <;> simp [hg]
    · have hv : (setPrev (markVisited s n) n c).visited z =
          s.visited z := by
        unfold setPrev markVisited
        simp [hz]
      split_ifs with hg
      · rw [ih, hv]
        simp [hz]
      · rw [ih]
        simp [hz]

theorem bfsExpand_visited_mono (g : Grid) (c : Pos) (ns : List Pos)
    (s : SState) (q : List Pos) {z : Pos} (h : s.visited z = true) :
    (bfsExpand g c ns s q).1.visited z = true :=
  (bfsExpand_visited g c ns s q z).2 (Or.inl h)

theorem bfsExpand_prev (g : Grid) (c : Pos) :
    ∀ (ns : List Pos) (s : SState) (q : List Pos) (z : Pos),
      (s.visited z = true → (bfsExpand g c ns s q).1.prev z = s.prev z) ∧
      ((bfsExpand g c ns s q).1.prev z = s.prev z ∨
        ((bfsExpand g c ns s q).1.prev z = some c ∧ z ∈ ns ∧
          g.wall z = false ∧ s.visited z = false ∧
          (bfsExpand g c ns s q).1.visited z = true)) := by
  intro ns
  induction ns with
  | nil => intro s q z; exact ⟨fun _ => rfl, Or.inl rfl⟩
  | cons n ns ih =>
    intro s q z
    rw [bfsExpand]
    split_ifs with hg
    · simp only [Bool.and_eq_true, Bool.not_eq_true'] at hg
      by_cases hz : z = n
      · subst hz
        constructor
        · intro hv
          rw [hv] at hg
          cases hg.1
        · right
          refine ⟨?_, List.mem_cons_self z ns, hg.2, hg.1, ?_⟩
          · rw [(ih _ _ z).1 (by unfold setPrev markVisited; simp)]
            unfold setPrev markVisited
            simp
          · exact bfsExpand_visited_mono g c ns _ _
              (by unfold setPrev markVisited; simp)
      · have hprevEq : (setPrev (markVisited s n) n c).prev z =
            s.prev z := by
          unfold setPrev markVisited
          simp [hz]
        have hvisEq : (setPrev (markVisited s n) n c).visited z =
            s.visited z := by
          unfold setPrev markVisited
          simp [hz]
        constructor
        · intro hv
          rw [(ih _ _ z).1 (by rw [hvisEq]; exact hv), hprevEq]
        · rcases (ih (setPrev (markVisited s n) n c) (q ++ [n]) z).2 with
            h | ⟨h1, h2, h3, h4, h5⟩
          · rw [hprevEq] at h
            exact Or.inl h
          · rw [hvisEq] at h4
            exact Or.inr ⟨h1, List.mem_cons_of_mem n h2, h3, h4, h5⟩
    · constructor
      · exact fun hv => (ih s q z).1 hv
      · rcases (ih s q z).2 with h | ⟨h1, h2, h3, h4, h5⟩
        · exact Or.inl h
        · exact Or.inr ⟨h1, List.mem_cons_of_mem n h2, h3, h4, h5⟩

theorem bfsExpand_queue_mem (g : Grid) (c : Pos) :
    ∀ (ns : List Pos) (s : SState) (q : List Pos) (z : Pos),
      (z ∈ (bfsExpand g c ns s q).2 ↔
        z ∈ q ∨ (z ∈ ns ∧ g.wall z = false ∧ s.visited z = false)) := by
  intro ns
  induction ns with
  | nil => intro s q z; simp [bfsExpand]
  | cons n ns ih =>
    intro s q z
    rw [bfsExpand]
    by_cases hz : z = n
    · subst hz
      split_ifs with hg
      · simp only [Bool.and_eq_true, Bool.not_eq_true'] at hg
        rw [ih]
        have hv : (setPrev (markVisited s z) z c).visited z = true := by
          unfold setPrev markVisited
          simp
        simp [hv, hg.1, hg.2]
      · simp only [Bool.and_eq_true, Bool.not_eq_true', not_and_or,
          not_not, Bool.not_eq_false] at hg
        rw [ih]
        rcases hg with hg | hg <;> simp [hg]
    · have hv : (setPrev (markVisited s n) n c).visited z =
          s.visited z := by
        unfold setPrev markVisited
        simp [hz]
      split_ifs with hg
      · rw [ih, hv]
        simp [hz]
      · rw [ih]
        simp [hz]

/-! ## True shortest-path distance (the brute-force level-order oracle)

`reachB g start n p` decides whether `p` is reachable from `start` by a
walk of exactly `n` unit steps whose every cell after the start is
in-bounds and not a wall — the 4-directional unit-cost movement of the
spec. The true shortest-path distance of `p` is the least such `n`. -/

def reachB (g : Grid) (start : Pos) : Nat → Pos → Bool
  | 0, p => decide (p = start)
  | n + 1, p =>
    decide (inB g p) && !g.wall p &&
      (getNeighbors g p).any (fun q => reachB g start n q)

/-- `d` is the true shortest-path distance from `start` to `p`. -/
def hasDist (g : Grid) (start : Pos) (d : Nat) (p : Pos) : Prop :=
  reachB g start d p = true ∧ ∀ m < d, reachB g start m p = false

theorem hasDist_unique {g : Grid} {start : Pos} {d d' : Nat} {p : Pos}
    (h : hasDist g start d p) (h' : hasDist g start d' p) : d = d' := by
  rcases Nat.lt_trichotomy d d' with hlt | heq | hgt
  · have h1 := h.1
    rw [h'.2 d hlt] at h1
    cases h1
  · exact heq
  · have h1 := h'.1
    rw [h.2 d' hgt] at h1
    cases h1

theorem hasDist_of_reachB {g : Grid} {start : Pos} {n : Nat} {p : Pos}
    (h : reachB g start n p = true) : ∃ d ≤ n, hasDist g start d p := by
  have hex : ∃ m, reachB g start m p = true := ⟨n, h⟩
  refine ⟨Nat.find hex, Nat.find_min' hex h, Nat.find_spec hex, ?_⟩
  intro m hm
  have := Nat.find_min hex hm
  rwa [Bool.not_eq_true] at this

theorem reachB_inB {g : Grid} {start : Pos} (hs : inB g start) :
    ∀ {n : Nat} {p : Pos}, reachB g start n p = true → inB g p := by
  intro n p h
  cases n with
  | zero =>
    rw [reachB, decide_eq_true_eq] at h
    subst h
    exact hs
  | succ n =>
    rw [reachB] at h
    simp only [Bool.and_eq_true, decide_eq_true_eq] at h
    exact h.1.1

theorem reachB_not_wall {g : Grid} {start : Pos}
    (hw : g.wall start = false) :
    ∀ {n : Nat} {p : Pos}, reachB g start n p = true →
      g.wall p = false := by
  intro n p h
  cases n with
  | zero =>
    rw [reachB, decide_eq_true_eq] at h
    subst h
    exact hw
  | succ n =>
    rw [reachB] at h
    simp only [Bool.and_eq_true, Bool.not_eq_true',
      decide_eq_true_eq] at h
    exact h.1.2

/-- One forward step of reachability along a neighbor edge. -/
theorem reachB_step {g : Grid} {start : Pos} (hs : inB g start)
    {n : Nat} {p q : Pos} (h : reachB g start n p = true)
    (hq : q ∈ getNeighbors g p) (hw : g.wall q = false) :
    reachB g start (n + 1) q = true := by
  have hpB : inB g p := reachB_inB hs h
  have hqB : inB g q := getNeighbors_inB hpB q hq
  rw [reachB]
  simp only [Bool.and_eq_true, decide_eq_true_eq, Bool.not_eq_true',
    List.any_eq_true]
  exact ⟨⟨hqB, hw⟩, p, (getNeighbors_symm hpB hqB).1 hq, h⟩

/-- Shortest distance grows by at most one along an edge. -/
theorem hasDist_adj_le {g : Grid} {start : Pos} (hs : inB g start)
    {d : Nat} {p q : Pos} (h : hasDist g start d p)
    (hq : q ∈ getNeighbors g p) (hw : g.wall q = false) :
    ∃ dq ≤ d + 1, hasDist g start dq q := by
  exact hasDist_of_reachB (reachB_step hs h.1 hq hw)

/-- Every cell at distance `d + 1` has a predecessor neighbor at exact
distance `d`. -/
theorem hasDist_pred {g : Grid} {start : Pos} (hs : inB g start)
    {d : Nat} {q : Pos} (h : hasDist g start (d + 1) q) :
    ∃ p, hasDist g start d p ∧ q ∈ getNeighbors g p ∧
      g.wall q = false ∧ inB g q := by
  have h1 := h.1
  rw [reachB] at h1
  simp only [Bool.and_eq_true, decide_eq_true_eq, Bool.not_eq_true',
    List.any_eq_true] at h1
  obtain ⟨⟨hqB, hqW⟩, p, hpmem, hpre⟩ := h1
  have hpB : inB g p := getNeighbors_inB hqB p hpmem
  obtain ⟨d', hd'le, hd'⟩ := hasDist_of_reachB hpre
  have hqmem : q ∈ getNeighbors g p := (getNeighbors_symm hqB hpB).1 hpmem
  rcases Nat.lt_or_ge d' d with hlt | hge
  · exfalso
    have := reachB_step hs hd'.1 hqmem hqW
    have hcontra := h.2 (d' + 1) (by omega)
    rw [hcontra] at this
    cases this
  · have hde : d' = d := le_antisymm hd'le hge
    subst hde
    exact ⟨p, hd', hqmem, hqW, hqB⟩

theorem hasDist_zero {g : Grid} {start p : Pos}
    (h : hasDist g start 0 p) : p = start := by
  have := h.1
  rwa [reachB, decide_eq_true_eq] at this

theorem hasDist_start {g : Grid} (start : Pos) :
    hasDist g start 0 start :=
  ⟨by rw [reachB]; simp, fun m hm => absurd hm (Nat.not_lt_zero m)⟩

theorem hasDist_start_eq_zero {g : Grid} {start : Pos} {d : Nat}
    (h : hasDist g start d start) : d = 0 :=
  hasDist_unique h (hasDist_start start)

theorem hasDist_inB {g : Grid} {start : Pos} (hs : inB g start)
    {d : Nat} {p : Pos} (h : hasDist g start d p) : inB g p :=
  reachB_inB hs h.1

/-- Every level up to an attpy distance is inhabited. -/
theorem hasDist_levels {g : Grid} {start : Pos} (hs : inB g start) :
    ∀ (d : Nat) (p : Pos), hasDist g start d p →
      ∀ k ≤ d, ∃ x, hasDist g start k x := by
  intro d
  induction d with
  | zero =>
    intro p h k hk
    exact ⟨p, by rwa [Nat.le_zero.1 hk]⟩
  | succ d ih =>
    intro p h k hk
    rcases Nat.lt_or_ge k (d + 1) with hlt | hge
    · obtain ⟨p', hp', -, -, -⟩ := hasDist_pred hs h
      exact ih p' hp' k (by omega)
    · exact ⟨p, by rwa [le_antisymm hk hge]⟩

/-- A shortest distance is always smaller than the number of grid
cells. -/
theorem hasDist_lt_cells {g : Grid} {start : Pos} (hs : inB g start)
    {d : Nat} {p : Pos} (h : hasDist g start d p) : d < g.R * g.C := by
  have hlev := hasDist_levels hs d p h
  classical
  let f : Nat → Pos := fun k =>
    if hk : ∃ x, hasDist g start k x then hk.choose else start
  have hf : ∀ k ≤ d, hasDist g start k (f k) := by
    intro k hk
    have hx := hlev k hk
    show hasDist g start k (if hk : _ then _ else _)
    rw [dif_pos hx]
    exact hx.choose_spec
  have hnodup : ((List.range (d + 1)).map f).Nodup := by
    refine List.Nodup.map_on ?_ (List.nodup_range (d + 1))
    intro a ha b hb hab
    rw [List.mem_range] at ha hb
    exact hasDist_unique (hab ▸ hf a (by omega)) (hf b (by omega))
  have hsub : ∀ z ∈ (List.range (d + 1)).map f, z ∈ allCells g.R g.C := by
    intro z hz
    rw [List.mem_map] at hz
    obtain ⟨k, hk, rfl⟩ := hz
    rw [List.mem_range] at hk
    rw [mem_allCells]
    exact hasDist_inB hs (hf k (by omega))
  have hlen := List.Subperm.length_le
    (List.Nodup.subperm hnodup hsub)
  rw [List.length_map, List.length_range, length_allCells] at hlen
  omega

/-! ## Heuristic lemmas -/

theorem heuristic_self (p : Pos) : heuristic p p = 0 := by
  unfold heuristic
  rw [Nat.dist_self, Nat.dist_self]

theorem heuristic_eq_zero {p e : Pos} (h : heuristic p e = 0) : p = e := by
  unfold heuristic at h
  have h1 : Nat.dist p.1 e.1 = 0 := by omega
  have h2 : Nat.dist p.2 e.2 = 0 := by omega
  exact Prod.ext (Nat.eq_of_dist_eq_zero h1) (Nat.eq_of_dist_eq_zero h2)

/-- Consistency of the Manhattan heuristic along grid edges. -/
theorem heuristic_consistent {g : Grid} {p q : Pos} {e : Pos}
    (hadj : adjacent p q) : heuristic p e ≤ heuristic q e + 1 := by
  unfold adjacent at hadj
  unfold heuristic
  have h1 := Nat.dist.triangle_inequality p.1 q.1 e.1
  have h2 := Nat.dist.triangle_inequality p.2 q.2 e.2
  omega

theorem bfsExpand_prev_fresh (g : Grid) (c : Pos) :
    ∀ (ns : List Pos) (s : SState) (q : List Pos) (z : Pos),
      s.visited z = false →
      (bfsExpand g c ns s q).1.visited z = true →
      (bfsExpand g c ns s q).1.prev z = some c := by
  intro ns
  induction ns with
  | nil =>
    intro s q z hv hv'
    rw [bfsExpand] at hv'
    rw [hv] at hv'
    cases hv'
  | cons n ns ih =>
    intro s q z hv hv'
    rw [bfsExpand] at hv' ⊢
    by_cases hz : z = n
    · subst hz
      split_ifs at hv' ⊢ with hg
      · have hvz : (setPrev (markVisited s z) z c).visited z = true := by
          unfold setPrev markVisited
          simp
        rw [(bfsExpand_prev g c ns _ _ z).1 hvz]
        unfold setPrev markVisited
        simp
      · simp only [Bool.and_eq_true, Bool.not_eq_true', not_and_or,
          not_not, Bool.not_eq_false] at hg
        rcases hg with hg | hg
        · rw [hg] at hv
          cases hv
        · rw [bfsExpand_visited] at hv'
          rcases hv' with h | h
          · rw [h] at hv
            cases hv
          · rw [hg] at h
            cases h.2
    · have hvz : (setPrev (markVisited s n) n c).visited z =
          s.visited z := by
        unfold setPrev markVisited
        simp [hz]
      split_ifs at hv' ⊢ with hg
      · exact ih _ _ z (hvz.trans hv) hv'
      · exact ih s q z hv hv'

theorem bfsExpand_queue_nodup (g : Grid) (c : Pos) :
    ∀ (ns : List Pos) (s : SState) (q : List Pos),
      q.Nodup → (∀ z ∈ q, s.visited z = true) →
      (bfsExpand g c ns s q).2.Nodup ∧
        (∀ z ∈ (bfsExpand g c ns s q).2,
          (bfsExpand g c ns s q).1.visited z = true) := by
  intro ns
  induction ns with
  | nil =>
    intro s q hq hqv
    exact ⟨hq, hqv⟩
  | cons n ns ih =>
    intro s q hq hqv
    rw [bfsExpand]
    split_ifs with hg
    · simp only [Bool.and_eq_true, Bool.not_eq_true'] at hg
      refine ih _ _ ?_ ?_
      · rw [List.nodup_append]
        refine ⟨hq, List.nodup_singleton n, ?_⟩
        intro z hz
        simp only [List.mem_singleton]
        intro hzn
        subst hzn
        rw [hqv z hz] at hg
        cases hg.1
      · intro z hz
        rcases List.mem_append.1 hz with hz | hz
        · unfold setPrev markVisited
          simp only []
          split_ifs with he
          · rfl
          · exact hqv z hz
        · rw [List.mem_singleton] at hz
          subst hz
          unfold setPrev markVisited
          simp
    · exact ih s q hq hqv

theorem bfsExpand_measure (g : Grid) (c : Pos) :
    ∀ (ns : List Pos) (s : SState) (q : List Pos),
      (∀ n ∈ ns, inB g n) →
      (bfsExpand g c ns s q).2.length +
        2 * countUnvis g (bfsExpand g c ns s q).1.visited ≤
      q.length + 2 * countUnvis g s.visited := by
  intro ns
  induction ns with
  | nil => intro s q _; exact le_rfl
  | cons n ns ih =>
    intro s q hns
    rw [bfsExpand]
    split_ifs with hg
    · simp only [Bool.and_eq_true, Bool.not_eq_true'] at hg
      have hmark : countUnvis g (setPrev (markVisited s n) n c).visited <
          countUnvis g s.visited := by
        have : (setPrev (markVisited s n) n c).visited =
            fun q => if q = n then true else s.visited q := rfl
        rw [this]
        exact countUnvis_mark_lt (hns n (List.mem_cons_self n ns)) hg.1
      have := ih (setPrev (markVisited s n) n c) (q ++ [n])
        (fun m hm => hns m (List.mem_cons_of_mem n hm))
      rw [List.length_append, List.length_singleton] at this
      omega
    · exact ih s q (fun m hm => hns m (List.mem_cons_of_mem n hm))

/-! ## The BFS loop invariant -/

/-- The backpointer of every visited non-start cell points to a visited
neighbor one true distance level down. -/
def ChainInv (g : Grid) (start : Pos) (s : SState) : Prop :=
  ∀ p, s.visited p = true → p ≠ start →
    ∃ q d, s.prev p = some q ∧ s.visited q = true ∧
      p ∈ getNeighbors g q ∧ g.wall p = false ∧
      hasDist g start d q ∧ hasDist g start (d + 1) p

/-- The invariant of the BFS `while` loop, relating the queue, the
per-cell state and the visitation trace so far. -/
structure BfsInv (g : Grid) (start : Pos) (Q : List Pos) (s : SState)
    (trace : List Pos) : Prop where
  start_vis : s.visited start = true
  vis_iff : ∀ p, s.visited p = true ↔ (p ∈ trace ∨ p ∈ Q)
  nodup : (trace ++ Q).Nodup
  closed : ∀ p ∈ trace, ∀ n ∈ getNeighbors g p, g.wall n = false →
    s.visited n = true
  prev_start : s.prev start = none
  chain : ChainInv g start s
  layer : ∃ d A B, Q = A ++ B ∧
    (∀ p ∈ A, hasDist g start d p) ∧
    (∀ p ∈ B, hasDist g start (d + 1) p) ∧
    (∀ x k, hasDist g start k x → k ≤ d → s.visited x = true)

/-- The invariant holds at the start of the run. -/
theorem bfsInv_init (g : Grid) (start : Pos) :
    BfsInv g start [start] (markVisited initState start) [] := by
  have hv : ∀ p, (markVisited initState start).visited p = true ↔
      p = start := by
    intro p
    unfold markVisited initState
    simp only []
    split_ifs with h
    · simp [h]
    · simp [h]
  refine ⟨(hv start).2 rfl, ?_, by simp, by simp, rfl, ?_, ?_⟩
  · intro p
    rw [hv]
    simp
  · intro p hp hps
    exact absurd ((hv p).1 hp) hps
  · refine ⟨0, [start], [], rfl, ?_, by simp, ?_⟩
    · intro p hp
      rw [List.mem_singleton] at hp
      rw [hp]
      exact hasDist_start _
    · intro x k hk hk0
      rw [Nat.le_zero] at hk0
      subst hk0
      rw [hv]
      exact hasDist_zero hk

theorem bfsExpand_queue_append (g : Grid) (c : Pos) :
    ∀ (ns : List Pos) (s : SState) (q : List Pos),
      ∃ news, (bfsExpand g c ns s q).2 = q ++ news ∧
        ∀ z ∈ news, z ∈ ns ∧ g.wall z = false ∧ s.visited z = false := by
  intro ns
  induction ns with
  | nil => intro s q; exact ⟨[], (List.append_nil q).symm, by simp⟩
  | cons n ns ih =>
    intro s q
    rw [bfsExpand]
    split_ifs with hg
    · simp only [Bool.and_eq_true, Bool.not_eq_true'] at hg
      obtain ⟨news, hq, hmem⟩ := ih (setPrev (markVisited s n) n c) (q ++ [n])
      refine ⟨n :: news, by rw [hq]; simp, ?_⟩
      intro z hz
      rcases List.mem_cons.1 hz with hz | hz
      · exact ⟨by rw [hz]; exact List.mem_cons_self n ns,
          by rw [hz]; exact hg.2, by rw [hz]; exact hg.1⟩
      · obtain ⟨h1, h2, h3⟩ := hmem z hz
        refine ⟨List.mem_cons_of_mem n h1, h2, ?_⟩
        by_cases hzn : z = n
        · subst hzn; exact hg.1
        · have : (setPrev (markVisited s n) n c).visited z =
              s.visited z := by
            unfold setPrev markVisited
            simp [hzn]
          rw [← this]
          exact h3
    · obtain ⟨news, hq, hmem⟩ := ih s q
      refine ⟨news, hq, ?_⟩
      intro z hz
      obtain ⟨h1, h2, h3⟩ := hmem z hz
      exact ⟨List.mem_cons_of_mem n h1, h2, h3⟩

/-- Normalization of the layered-queue data at a dequeue: the dequeued
head has a true distance, the state is complete below that level, and the
remaining queue splits into that level and the next. -/
theorem BfsInv.dequeue {g : Grid} {start current : Pos}
    {rest : List Pos} {s : SState} {trace : List Pos}
    (hs : inB g start)
    (inv : BfsInv g start (current :: rest) s trace) :
    ∃ (dc : Nat) (Arem Brem : List Pos), rest = Arem ++ Brem ∧
      (∀ p ∈ Arem, hasDist g start dc p) ∧
      (∀ p ∈ Brem, hasDist g start (dc + 1) p) ∧
      (∀ x k, hasDist g start k x → k ≤ dc → s.visited x = true) ∧
      hasDist g start dc current := by
  obtain ⟨d, A, B, hQ, hA, hB, hcomp⟩ := inv.layer
  cases A with
    | nil =>
      rw [List.nil_append] at hQ
      have hBc : ∀ p ∈ current :: rest, hasDist g start (d + 1) p := by
        rw [hQ]; exact hB
      have hdcur : hasDist g start (d + 1) current :=
        hBc current (List.mem_cons_self current rest)
      have hup : ∀ x k, hasDist g start k x → k ≤ d + 1 →
          s.visited x = true := by
        intro x k hk hkle
        rcases Nat.lt_or_ge k (d + 1) with hlt | hge
        · exact hcomp x k hk (by omega)
        · have hkd : k = d + 1 := by omega
          subst hkd
          obtain ⟨y, hy, hxy, hxw, -⟩ := hasDist_pred hs hk
          have hyv : s.visited y = true := hcomp y d hy le_rfl
          rcases (inv.vis_iff y).1 hyv with hyt | hyQ
          · exact inv.closed y hyt x hxy hxw
          · exfalso
            have := hBc y (hQ ▸ hyQ)
            have : d = d + 1 := hasDist_unique hy this
            omega
      refine ⟨d + 1, rest, [], (List.append_nil rest).symm, ?_, by simp,
        hup, hdcur⟩
      intro p hp
      exact hBc p (List.mem_cons_of_mem current hp)
    | cons a A' =>
      have ha : a = current ∧ rest = A' ++ B := by
        rw [List.cons_append] at hQ
        have h := List.cons.inj hQ
        exact ⟨h.1.symm, h.2⟩
      refine ⟨d, A', B, ha.2, ?_, hB, hcomp, ?_⟩
      · intro p hp
        exact hA p (List.mem_cons_of_mem a hp)
      · rw [← ha.1]
        exact hA a (List.mem_cons_self a A')

/-- One BFS dequeue-and-expand iteration preserves the invariant. -/
theorem bfsInv_step {g : Grid} {start current : Pos}
    {rest : List Pos} {s : SState} {trace : List Pos}
    (hs : inB g start)
    (inv : BfsInv g start (current :: rest) s trace) :
    BfsInv g start
      (bfsExpand g current (getNeighbors g current) s rest).2
      (bfsExpand g current (getNeighbors g current) s rest).1
      (trace ++ [current]) := by
  obtain ⟨dc, Arem, Brem, hrest, hArem, hBrem, hcomp', hdc⟩ :=
    inv.dequeue hs
  have hvc : s.visited current = true :=
    (inv.vis_iff current).2 (Or.inr (List.mem_cons_self current rest))
  -- Every fresh (unvisited, non-wall) neighbor sits one level up.
  have hfresh : ∀ n, n ∈ getNeighbors g current → g.wall n = false →
      s.visited n = false → hasDist g start (dc + 1) n := by
    intro n hn hnw hnv
    obtain ⟨dn, hdnle, hdn⟩ := hasDist_adj_le hs hdc hn hnw
    rcases Nat.lt_or_ge dn (dc + 1) with hlt | hge
    · exfalso
      have := hcomp' n dn hdn (by omega)
      rw [hnv] at this
      cases this
    · have : dn = dc + 1 := by omega
      subst this
      exact hdn
  have hrestv : ∀ z ∈ rest, s.visited z = true := by
    intro z hz
    exact (inv.vis_iff z).2 (Or.inr (List.mem_cons_of_mem current hz))
  have hrestnd : rest.Nodup := by
    have := (List.nodup_append.1 inv.nodup).2.1
    exact (List.nodup_cons.1 this).2
  have hcurnt : current ∉ trace := by
    intro h
    exact (List.nodup_append.1 inv.nodup).2.2 h
      (List.mem_cons_self current rest)
  have hcurnr : current ∉ rest := by
    have := (List.nodup_append.1 inv.nodup).2.1
    exact (List.nodup_cons.1 this).1
  obtain ⟨hqnd, hqvis⟩ := bfsExpand_queue_nodup g current
    (getNeighbors g current) s rest hrestnd hrestv
  refine ⟨bfsExpand_visited_mono g current _ s rest inv.start_vis,
    ?_, ?_, ?_, ?_, ?_, ?_⟩
  · -- vis_iff
    intro z
    rw [bfsExpand_visited, bfsExpand_queue_mem]
    have hv := inv.vis_iff z
    rw [List.mem_cons] at hv
    simp only [List.mem_append, List.mem_singleton]
    constructor
    · rintro (h | ⟨h1, h2⟩)
      · rcases hv.1 h with h | h | h
        · exact Or.inl (Or.inl h)
        · exact Or.inl (Or.inr h)
        · exact Or.inr (Or.inl h)
      · by_cases hvz : s.visited z = true
        · rcases hv.1 hvz with h | h | h
          · exact Or.inl (Or.inl h)
          · exact Or.inl (Or.inr h)
          · exact Or.inr (Or.inl h)
        · rw [Bool.not_eq_true] at hvz
          exact Or.inr (Or.inr ⟨h1, h2, hvz⟩)
    · rintro ((h | h) | h | ⟨h1, h2, h3⟩)
      · exact Or.inl (hv.2 (Or.inl h))
      · exact Or.inl (hv.2 (Or.inr (Or.inl h)))
      · exact Or.inl (hv.2 (Or.inr (Or.inr h)))
      · exact Or.inr ⟨h1, h2⟩
  · -- nodup
    rw [List.nodup_append]
    refine ⟨?_, hqnd, ?_⟩
    · rw [List.nodup_append]
      refine ⟨(List.nodup_append.1 inv.nodup).1, List.nodup_singleton _, ?_⟩
      intro z hz hz1
      rw [List.mem_singleton] at hz1
      subst hz1
      exact hcurnt hz
    · intro z hz hzq
      rcases (bfsExpand_queue_mem g current _ s rest z).1 hzq with
        hzr | ⟨-, -, hzu⟩
      · rcases List.mem_append.1 hz with hz | hz
        · exact (List.nodup_append.1 inv.nodup).2.2 hz
            (List.mem_cons_of_mem current hzr)
        · rw [List.mem_singleton] at hz
          subst hz
          exact hcurnr hzr
      · rcases List.mem_append.1 hz with hz | hz
        · have := (inv.vis_iff z).2 (Or.inl hz)
          rw [hzu] at this
          cases this
        · rw [List.mem_singleton] at hz
          subst hz
          rw [hzu] at hvc
          cases hvc
  · -- closed
    intro p hp n hn hnw
    rcases List.mem_append.1 hp with hp | hp
    · exact bfsExpand_visited_mono g current _ s rest
        (inv.closed p hp n hn hnw)
    · rw [List.mem_singleton] at hp
      rw [hp] at hn
      exact (bfsExpand_visited g current _ s rest n).2 (Or.inr ⟨hn, hnw⟩)
  · -- prev_start
    rw [(bfsExpand_prev g current _ s rest start).1 inv.start_vis]
    exact inv.prev_start
  · -- chain
    intro p hvp hps
    by_cases hold : s.visited p = true
    · obtain ⟨q, dq, h1, h2, h3, h4, h5, h6⟩ := inv.chain p hold hps
      exact ⟨q, dq, by
        rw [(bfsExpand_prev g current _ s rest p).1 hold]; exact h1,
        bfsExpand_visited_mono g current _ s rest h2, h3, h4, h5, h6⟩
    · rw [Bool.not_eq_true] at hold
      have hprev := bfsExpand_prev_fresh g current _ s rest p hold hvp
      rcases (bfsExpand_visited g current _ s rest p).1 hvp with h | h
      · rw [hold] at h
        cases h
      · exact ⟨current, dc, hprev,
          bfsExpand_visited_mono g current _ s rest hvc, h.1, h.2,
          hdc, hfresh p h.1 h.2 hold⟩
  · -- layer
    obtain ⟨news, hq2, hnews⟩ := bfsExpand_queue_append g current
      (getNeighbors g current) s rest
    refine ⟨dc, Arem, Brem ++ news, by rw [hq2, hrest, List.append_assoc],
      hArem, ?_, ?_⟩
    · intro p hp
      rcases List.mem_append.1 hp with hp | hp
      · exact hBrem p hp
      · obtain ⟨h1, h2, h3⟩ := hnews p hp
        exact hfresh p h1 h2 h3
    · intro x k hk hkle
      exact bfsExpand_visited_mono g current _ s rest (hcomp' x k hk hkle)

/-- Along a correct backpointer chain, `reconstructPath` returns a list
of `d + 1` cells beginning at the start cell. -/
theorem reconstructPath_chain {g : Grid} {start : Pos} {s : SState}
    (hch : ChainInv g start s) (hp0 : s.prev start = none) :
    ∀ (d : Nat) (p : Pos) (fuel : Nat), s.visited p = true →
      hasDist g start d p → d ≤ fuel →
      (reconstructPath s.prev fuel p).length = d + 1 ∧
      (reconstructPath s.prev fuel p).head? = some start := by
  intro d
  induction d with
  | zero =>
    intro p fuel hv hd _
    have hp : p = start := hasDist_zero hd
    rw [hp, reconstructPath_none hp0 fuel]
    exact ⟨rfl, rfl⟩
  | succ d ih =>
    intro p fuel hv hd hf
    have hps : p ≠ start := by
      intro h
      rw [h] at hd
      have := hasDist_start_eq_zero hd
      omega
    obtain ⟨q, d', h1, h2, h3, h4, h5, h6⟩ := hch p hv hps
    have hdd : d' + 1 = d + 1 := hasDist_unique h6 hd
    have hd' : d' = d := by omega
    rw [hd'] at h5
    cases fuel with
    | zero => omega
    | succ f =>
      obtain ⟨hl, hh⟩ := ih q f h2 h5 (by omega)
      rw [reconstructPath]
      simp only [h1]
      constructor
      · rw [List.length_append, hl]
        simp
      · cases hq : reconstructPath s.prev f q with
        | nil =>
          rw [hq] at hl
          simp at hl
        | cons a l =>
          rw [hq] at hh
          rw [List.head?_cons] at hh
          show (a :: (l ++ [p])).head? = some start
          rw [List.head?_cons]
          exact hh

/-- The postcondition of a completed BFS loop run. -/
def BfsPost (g : Grid) (start endP : Pos) (trace' : List Pos)
    (s' : SState) (em : Bool) : Prop :=
  ChainInv g start s' ∧
  s'.prev start = none ∧
  s'.visited start = true ∧
  trace'.Nodup ∧
  (∀ p ∈ trace', s'.visited p = true) ∧
  (em = true →
    (∀ p, s'.visited p = true ↔ p ∈ trace') ∧
    (∀ k x, hasDist g start k x → s'.visited x = true) ∧
    endP ∉ trace') ∧
  (em = false →
    endP ∈ trace' ∧ s'.visited endP = true ∧
    ∃ dE, hasDist g start dE endP ∧
      ∀ x k, hasDist g start k x → k < dE → x ∈ trace')

/-- The master lemma for the BFS loop: with the invariant and enough
fuel, the loop returns and its outputs satisfy the BFS contract. -/
theorem bfsLoop_master {g : Grid} {start endP : Pos} (hs : inB g start) :
    ∀ (fuel : Nat) (Q : List Pos) (s : SState) (trace : List Pos),
      BfsInv g start Q s trace →
      endP ∉ trace →
      Q.length + 2 * countUnvis g s.visited < fuel →
      ∃ trace' s' em,
        bfsLoop g endP fuel Q s trace = some (trace', s', em) ∧
        BfsPost g start endP trace' s' em := by
  intro fuel
  induction fuel with
  | zero => intro Q s trace _ _ h; omega
  | succ fuel ih =>
    intro Q s trace inv hnt hfuel
    cases Q with
    | nil =>
      refine ⟨trace, s, true, rfl, inv.chain, inv.prev_start,
        inv.start_vis, ?_, ?_, ?_, ?_⟩
      · have h := inv.nodup
        rwa [List.append_nil] at h
      · intro p hp
        exact (inv.vis_iff p).2 (Or.inl hp)
      · intro _
        refine ⟨?_, ?_, hnt⟩
        · intro p
          rw [inv.vis_iff p]
          simp
        · intro k
          induction k with
          | zero =>
            intro x hx
            rw [hasDist_zero hx]
            exact inv.start_vis
          | succ k ihk =>
            intro x hx
            obtain ⟨y, hy, hxy, hxw, -⟩ := hasDist_pred hs hx
            have hyv : s.visited y = true := ihk y hy
            rcases (inv.vis_iff y).1 hyv with ht | hq
            · exact inv.closed y ht x hxy hxw
            · exact absurd hq (List.not_mem_nil y)
      · intro h
        cases h
    | cons current rest =>
      have hvc : s.visited current = true :=
        (inv.vis_iff current).2 (Or.inr (List.mem_cons_self current rest))
      obtain ⟨dc, Arem, Brem, hrest, hArem, hBrem, hcomp', hdc⟩ :=
        inv.dequeue hs
      by_cases hce : current = endP
      · refine ⟨trace ++ [current], s, false,
          by rw [bfsLoop_cons, if_pos hce],
          inv.chain, inv.prev_start, inv.start_vis, ?_, ?_, ?_, ?_⟩
        · rw [List.nodup_append]
          refine ⟨(List.nodup_append.1 inv.nodup).1,
            List.nodup_singleton _, ?_⟩
          intro z hz hz1
          rw [List.mem_singleton] at hz1
          rw [hz1] at hz
          exact (List.nodup_append.1 inv.nodup).2.2 hz
            (List.mem_cons_self current rest)
        · intro p hp
          rcases List.mem_append.1 hp with hp | hp
          · exact (inv.vis_iff p).2 (Or.inl hp)
          · rw [List.mem_singleton] at hp
            rw [hp]
            exact hvc
        · intro h
          cases h
        · intro _
          refine ⟨List.mem_append.2 (Or.inr (by
              rw [List.mem_singleton, hce])),
            by rw [← hce]; exact hvc, dc, hce ▸ hdc, ?_⟩
          intro x k hk hklt
          have hvx : s.visited x = true := hcomp' x k hk (by omega)
          rcases (inv.vis_iff x).1 hvx with ht | hq
          · exact List.mem_append.2 (Or.inl ht)
          · exfalso
            rcases List.mem_cons.1 hq with hq | hq
            · rw [hq] at hk
              have := hasDist_unique hk hdc
              omega
            · rw [hrest] at hq
              rcases List.mem_append.1 hq with hq | hq
              · have := hasDist_unique hk (hArem x hq)
                omega
              · have := hasDist_unique hk (hBrem x hq)
                omega
      · have hcB : inB g current := hasDist_inB hs hdc
        have hnsB : ∀ n ∈ getNeighbors g current, inB g n :=
          fun n hn => getNeighbors_inB hcB n hn
        have hmeas := bfsExpand_measure g current
          (getNeighbors g current) s rest hnsB
        have hfuel' : (bfsExpand g current (getNeighbors g current)
              s rest).2.length +
            2 * countUnvis g (bfsExpand g current (getNeighbors g current)
              s rest).1.visited < fuel := by
          have hQlen : (current :: rest).length = rest.length + 1 := rfl
          rw [hQlen] at hfuel
          omega
        have hnt' : endP ∉ trace ++ [current] := by
          intro h
          rcases List.mem_append.1 h with h | h
          · exact hnt h
          · rw [List.mem_singleton] at h
            exact hce h.symm
        obtain ⟨trace', s', em, hrun, hpost⟩ :=
          ih _ _ _ (bfsInv_step hs inv) hnt' hfuel'
        refine ⟨trace', s', em, ?_, hpost⟩
        rw [bfsLoop_cons, if_neg hce]
        exact hrun

/-- A full `bfs` run from an in-bounds start returns and satisfies the
BFS contract. -/
theorem bfs_spec {g : Grid} {start : Pos} (endP : Pos) (hs : inB g start) :
    ∃ trace' s' em, bfs g start endP = some (trace', s', em) ∧
      BfsPost g start endP trace' s' em := by
  have hcu := countUnvis_le g (markVisited initState start).visited
  exact bfsLoop_master hs (stdFuel g) [start]
    (markVisited initState start) [] (bfsInv_init g start)
    (List.not_mem_nil endP)
    (by unfold stdFuel; simp only [List.length_singleton]; omega)

/-- C1: for every grid and every start/end pair joined by some wall-free
walk, BFS exits at the end cell and the reconstructed path is a
start-headed list of `d + 1` cells, where `d` is the true shortest-path
distance to the end — the path's edge count is exactly the shortest
distance. -/
theorem C1_bfs_shortest_path (g : Grid) (start endP : Pos)
    (hs : inB g start)
    (hreach : ∃ n, reachB g start n endP = true) :
    ∃ trace' s' d,
      bfs g start endP = some (trace', s', false) ∧
      hasDist g start d endP ∧
      (reconstructPath s'.prev (g.R * g.C) endP).length = d + 1 ∧
      (reconstructPath s'.prev (g.R * g.C) endP).head? = some start := by
  obtain ⟨n, hn⟩ := hreach
  obtain ⟨d, hdle, hd⟩ := hasDist_of_reachB hn
  obtain ⟨trace', s', em, hrun, hch, hp0, hsv, hnd, htv, hemt, hemf⟩ :=
    bfs_spec endP hs
  cases em with
  | true =>
    exfalso
    obtain ⟨hiff, hall, hnot⟩ := hemt rfl
    exact hnot ((hiff endP).1 (hall d endP hd))
  | false =>
    obtain ⟨hmem, hvE, dE, hdE, hincl⟩ := hemf rfl
    have hde : d = dE := hasDist_unique hd hdE
    obtain ⟨hlen, hhead⟩ := reconstructPath_chain hch hp0 d endP
      (g.R * g.C) hvE hd (le_of_lt (hasDist_lt_cells hs hd))
    exact ⟨trace', s', d, hrun, hd, hlen, hhead⟩

/-! ## Shortest-path chains and the consistency telescoping -/

/-- Every cell at distance `d` ends a chain of cells at distances
`0, 1, …, d` linked by in-grid neighbor edges. -/
theorem hasDist_chain {g : Grid} {start : Pos} (hs : inB g start) :
    ∀ {d : Nat} {p : Pos}, hasDist g start d p →
      ∃ c : Nat → Pos, c 0 = start ∧ c d = p ∧
        (∀ j ≤ d, hasDist g start j (c j)) ∧
        (∀ j < d, c (j + 1) ∈ getNeighbors g (c j) ∧
          g.wall (c (j + 1)) = false) := by
  intro d
  induction d with
  | zero =>
    intro p h
    have hp : p = start := hasDist_zero h
    refine ⟨fun _ => start, rfl, hp.symm, ?_, ?_⟩
    · intro j hj
      rw [Nat.le_zero.1 hj]
      exact hasDist_start start
    · intro j hj
      exact absurd hj (Nat.not_lt_zero j)
  | succ d ih =>
    intro p h
    obtain ⟨y, hy, hpy, hpw, -⟩ := hasDist_pred hs h
    obtain ⟨c, hc0, hcd, hcj, hce⟩ := ih hy
    refine ⟨fun j => if j = d + 1 then p else c j, ?_, ?_, ?_, ?_⟩
    · dsimp only
      rw [if_neg (by omega : ¬(0 = d + 1))]
      exact hc0
    · dsimp only
      rw [if_pos rfl]
    · intro j hj
      dsimp only
      by_cases hjd : j = d + 1
      · rw [if_pos hjd, hjd]
        exact h
      · rw [if_neg hjd]
        exact hcj j (by omega)
    · intro j hj
      dsimp only
      have h2 : j ≠ d + 1 := by omega
      by_cases hjd : j = d
      · rw [if_neg h2, if_pos (by omega : j + 1 = d + 1), hjd, hcd]
        exact ⟨hpy, hpw⟩
      · rw [if_neg h2, if_neg (by omega : ¬(j + 1 = d + 1))]
        exact hce j (by omega)

/-- The Manhattan heuristic telescopes along a neighbor chain: it grows
by at most one per step walked backwards. -/
theorem chain_heuristic_le {g : Grid} {e : Pos} {c : Nat → Pos} {d : Nat}
    (hce : ∀ j < d, c (j + 1) ∈ getNeighbors g (c j) ∧
      g.wall (c (j + 1)) = false)
    (hcB : ∀ j ≤ d, inB g (c j)) :
    ∀ i ≤ d, heuristic (c i) e ≤ heuristic (c d) e + (d - i) := by
  suffices h : ∀ k i, i + k = d →
      heuristic (c i) e ≤ heuristic (c d) e + k by
    intro i hi
    have hh := h (d - i) i (by omega)
    have : i + (d - i) = d := by omega
    omega
  intro k
  induction k with
  | zero =>
    intro i hi
    have : i = d := by omega
    rw [this]
    omega
  | succ k ihk =>
    intro i hi
    have hlt : i < d := by omega
    have hadj : adjacent (c i) (c (i + 1)) :=
      ((mem_getNeighbors (hcB i (by omega)) (c (i + 1))).1
        (hce i hlt).1).2
    have hstep : heuristic (c i) e ≤ heuristic (c (i + 1)) e + 1 :=
      heuristic_consistent (g := g) hadj
    have htail := ihk (i + 1) (by omega)
    omega

/-! ## The DFS loop -/

theorem dfsExpand_visited (g : Grid) (c : Pos) :
    ∀ (ns : List Pos) (s : SState) (st : List Pos) (z : Pos),
      ((dfsExpand g c ns s st).1.visited z = true ↔
        (s.visited z = true ∨ (z ∈ ns ∧ g.wall z = false))) := by
  intro ns
  induction ns with
  | nil => intro s st z; simp [dfsExpand]
  | cons n ns ih =>
    intro s st z
    rw [dfsExpand]
    by_cases hz : z = n
    · subst hz
      split_ifs with hg
      · simp only [Bool.and_eq_true, Bool.not_eq_true'] at hg
        rw [ih]
        have hv : (setPrev (markVisited s z) z c).visited z = true := by
          unfold setPrev markVisited
          simp
        simp [hv, hg.2]
      · simp only [Bool.and_eq_true, Bool.not_eq_true', not_and_or,
          not_not, Bool.not_eq_false] at hg
        rw [ih]
        rcases hg with hg | hg <;> simp [hg]
    · have hv : (setPrev (markVisited s n) n c).visited z =
          s.visited z := by
        unfold setPrev markVisited
        simp [hz]
      split_ifs with hg
      · rw [ih, hv]
        simp [hz]
      · rw [ih]
        simp [hz]

theorem dfsExpand_visited_mono (g : Grid) (c : Pos) (ns : List Pos)
    (s : SState) (st : List Pos) {z : Pos} (h : s.visited z = true) :
    (dfsExpand g c ns s st).1.visited z = true :=
  (dfsExpand_visited g c ns s st z).2 (Or.inl h)

theorem dfsExpand_stack_mem (g : Grid) (c : Pos) :
    ∀ (ns : List Pos) (s : SState) (st : List Pos) (z : Pos),
      (z ∈ (dfsExpand g c ns s st).2 ↔
        z ∈ st ∨ (z ∈ ns ∧ g.wall z = false ∧ s.visited z = false)) := by
  intro ns
  induction ns with
  | nil => intro s st z; simp [dfsExpand]
  | cons n ns ih =>
    intro s st z
    rw [dfsExpand]
    by_cases hz : z = n
    · subst hz
      split_ifs with hg
      · simp only [Bool.and_eq_true, Bool.not_eq_true'] at hg
        rw [ih]
        have hv : (setPrev (markVisited s z) z c).visited z = true := by
          unfold setPrev markVisited
          simp
        simp [hv, hg.1, hg.2]
      · simp only [Bool.and_eq_true, Bool.not_eq_true', not_and_or,
          not_not, Bool.not_eq_false] at hg
        rw [ih]
        rcases hg with hg | hg <;> simp [hg]
    · have hv : (setPrev (markVisited s n) n c).visited z =
          s.visited z := by
        unfold setPrev markVisited
        simp [hz]
      split_ifs with hg
      · rw [ih, hv]
        simp [hz]
      · rw [ih]
        simp [hz]

theorem dfsExpand_stack_nodup (g : Grid) (c : Pos) :
    ∀ (ns : List Pos) (s : SState) (st : List Pos),
      st.Nodup → (∀ z ∈ st, s.visited z = true) →
      (dfsExpand g c ns s st).2.Nodup ∧
        (∀ z ∈ (dfsExpand g c ns s st).2,
          (dfsExpand g c ns s st).1.visited z = true) := by
  intro ns
  induction ns with
  | nil =>
    intro s st hq hqv
    exact ⟨hq, hqv⟩
  | cons n ns ih =>
    intro s st hq hqv
    rw [dfsExpand]
    split_ifs with hg
    · simp only [Bool.and_eq_true, Bool.not_eq_true'] at hg
      refine ih _ _ ?_ ?_
      · rw [List.nodup_cons]
        refine ⟨?_, hq⟩
        intro hn
        rw [hqv n hn] at hg
        cases hg.1
      · intro z hz
        rcases List.mem_cons.1 hz with hz | hz
        · rw [hz]
          unfold setPrev markVisited
          simp
        · unfold setPrev markVisited
          simp only []
          split_ifs with he
          · rfl
          · exact hqv z hz
    · exact ih s st hq hqv

theorem dfsExpand_measure (g : Grid) (c : Pos) :
    ∀ (ns : List Pos) (s : SState) (st : List Pos),
      (∀ n ∈ ns, inB g n) →
      (dfsExpand g c ns s st).2.length +
        2 * countUnvis g (dfsExpand g c ns s st).1.visited ≤
      st.length + 2 * countUnvis g s.visited := by
  intro ns
  induction ns with
  | nil => intro s st _; exact le_rfl
  | cons n ns ih =>
    intro s st hns
    rw [dfsExpand]
    split_ifs with hg
    · simp only [Bool.and_eq_true, Bool.not_eq_true'] at hg
      have hmark : countUnvis g (setPrev (markVisited s n) n c).visited <
          countUnvis g s.visited := by
        have : (setPrev (markVisited s n) n c).visited =
            fun q => if q = n then true else s.visited q := rfl
        rw [this]
        exact countUnvis_mark_lt (hns n (List.mem_cons_self n ns)) hg.1
      have := ih (setPrev (markVisited s n) n c) (n :: st)
        (fun m hm => hns m (List.mem_cons_of_mem n hm))
      rw [List.length_cons] at this
      omega
    · exact ih s st (fun m hm => hns m (List.mem_cons_of_mem n hm))

/-- The invariant of the DFS `while` loop. -/
structure DfsInv (g : Grid) (stack : List Pos) (s : SState)
    (trace : List Pos) : Prop where
  stack_inB : ∀ p ∈ stack, inB g p
  stack_vis : ∀ p ∈ stack, s.visited p = true
  trace_vis : ∀ p ∈ trace, s.visited p = true
  nodup : (trace ++ stack).Nodup

theorem dfsInv_init {g : Grid} {start : Pos} (hs : inB g start) :
    DfsInv g [start] (markVisited initState start) [] := by
  refine ⟨?_, ?_, by simp, by simp⟩
  · intro p hp
    rw [List.mem_singleton] at hp
    rw [hp]
    exact hs
  · intro p hp
    rw [List.mem_singleton] at hp
    rw [hp]
    unfold markVisited initState
    simp

/-- One DFS pop-and-expand iteration preserves the invariant. -/
theorem dfsInv_step {g : Grid} {current : Pos}
    {rest : List Pos} {s : SState} {trace : List Pos}
    (inv : DfsInv g (current :: rest) s trace) :
    DfsInv g
      (dfsExpand g current (getNeighbors g current) s rest).2
      (dfsExpand g current (getNeighbors g current) s rest).1
      (trace ++ [current]) := by
  have hcB : inB g current :=
    inv.stack_inB current (List.mem_cons_self current rest)
  have hvc : s.visited current = true :=
    inv.stack_vis current (List.mem_cons_self current rest)
  have hrestv : ∀ z ∈ rest, s.visited z = true :=
    fun z hz => inv.stack_vis z (List.mem_cons_of_mem current hz)
  have hrestnd : rest.Nodup := by
    have := (List.nodup_append.1 inv.nodup).2.1
    exact (List.nodup_cons.1 this).2
  have hcurnt : current ∉ trace := by
    intro h
    exact (List.nodup_append.1 inv.nodup).2.2 h
      (List.mem_cons_self current rest)
  have hcurnr : current ∉ rest := by
    have := (List.nodup_append.1 inv.nodup).2.1
    exact (List.nodup_cons.1 this).1
  obtain ⟨hqnd, hqvis⟩ := dfsExpand_stack_nodup g current
    (getNeighbors g current) s rest hrestnd hrestv
  refine ⟨?_, hqvis, ?_, ?_⟩
  · intro p hp
    rcases (dfsExpand_stack_mem g current _ s rest p).1 hp with
      hp | ⟨hp, -, -⟩
    · exact inv.stack_inB p (List.mem_cons_of_mem current hp)
    · exact getNeighbors_inB hcB p hp
  · intro p hp
    rcases List.mem_append.1 hp with hp | hp
    · exact dfsExpand_visited_mono g current _ s rest (inv.trace_vis p hp)
    · rw [List.mem_singleton] at hp
      rw [hp]
      exact dfsExpand_visited_mono g current _ s rest hvc
  · rw [List.nodup_append]
    refine ⟨?_, hqnd, ?_⟩
    · rw [List.nodup_append]
      refine ⟨(List.nodup_append.1 inv.nodup).1,
        List.nodup_singleton _, ?_⟩
      intro z hz hz1
      rw [List.mem_singleton] at hz1
      rw [hz1] at hz
      exact hcurnt hz
    · intro z hz hzq
      rcases (dfsExpand_stack_mem g current _ s rest z).1 hzq with
        hzr | ⟨-, -, hzu⟩
      · rcases List.mem_append.1 hz with hz | hz
        · exact (List.nodup_append.1 inv.nodup).2.2 hz
            (List.mem_cons_of_mem current hzr)
        · rw [List.mem_singleton] at hz
          rw [hz] at hzr
          exact hcurnr hzr
      · rcases List.mem_append.1 hz with hz | hz
        · have := inv.trace_vis z hz
          rw [hzu] at this
          cases this
        · rw [List.mem_singleton] at hz
          rw [hz] at hzu
          rw [hzu] at hvc
          cases hvc

/-- The master lemma for the DFS loop: with the invariant and enough
fuel, the loop returns, its trace is duplicate-free and consists of
visited cells, and the emptied flag signals exactly the absence of the
end cell from the trace. -/
theorem dfsLoop_master {g : Grid} {endP : Pos} :
    ∀ (fuel : Nat) (stack : List Pos) (s : SState) (trace : List Pos),
      DfsInv g stack s trace →
      endP ∉ trace →
      stack.length + 2 * countUnvis g s.visited < fuel →
      ∃ trace' s' em,
        dfsLoop g endP fuel stack s trace = some (trace', s', em) ∧
        trace'.Nodup ∧
        (∀ p ∈ trace', s'.visited p = true) ∧
        (em = true → endP ∉ trace') ∧
        (em = false → endP ∈ trace' ∧ s'.visited endP = true) := by
  intro fuel
  induction fuel with
  | zero => intro stack s trace _ _ h; omega
  | succ fuel ih =>
    intro stack s trace inv hnt hfuel
    cases stack with
    | nil =>
      refine ⟨trace, s, true, rfl, ?_, inv.trace_vis, fun _ => hnt, ?_⟩
      · have h := inv.nodup
        rwa [List.append_nil] at h
      · intro h
        cases h
    | cons current rest =>
      have hvc : s.visited current = true :=
        inv.stack_vis current (List.mem_cons_self current rest)
      by_cases hce : current = endP
      · refine ⟨trace ++ [current], s, false,
          by rw [dfsLoop_cons, if_pos hce], ?_, ?_, ?_, ?_⟩
        · rw [List.nodup_append]
          refine ⟨(List.nodup_append.1 inv.nodup).1,
            List.nodup_singleton _, ?_⟩
          intro z hz hz1
          rw [List.mem_singleton] at hz1
          rw [hz1] at hz
          exact (List.nodup_append.1 inv.nodup).2.2 hz
            (List.mem_cons_self current rest)
        · intro p hp
          rcases List.mem_append.1 hp with hp | hp
          · exact inv.trace_vis p hp
          · rw [List.mem_singleton] at hp
            rw [hp]
            exact hvc
        · intro h
          cases h
        · intro _
          refine ⟨List.mem_append.2 (Or.inr (by
              rw [List.mem_singleton, hce])), ?_⟩
          rw [← hce]
          exact hvc
      · have hcB : inB g current :=
          inv.stack_inB current (List.mem_cons_self current rest)
        have hnsB : ∀ n ∈ getNeighbors g current, inB g n :=
          fun n hn => getNeighbors_inB hcB n hn
        have hmeas := dfsExpand_measure g current
          (getNeighbors g current) s rest hnsB
        have hfuel' : (dfsExpand g current (getNeighbors g current)
              s rest).2.length +
            2 * countUnvis g (dfsExpand g current (getNeighbors g current)
              s rest).1.visited < fuel := by
          have hQlen : (current :: rest).length = rest.length + 1 := rfl
          rw [hQlen] at hfuel
          omega
        have hnt' : endP ∉ trace ++ [current] := by
          intro h
          rcases List.mem_append.1 h with h | h
          · exact hnt h
          · rw [List.mem_singleton] at h
            exact hce h.symm
        obtain ⟨trace', s', em, hrun, hpost⟩ :=
          ih _ _ _ (dfsInv_step inv) hnt' hfuel'
        refine ⟨trace', s', em, ?_, hpost⟩
        rw [dfsLoop_cons, if_neg hce]
        exact hrun

/-- A full `dfs` run from an in-bounds start returns and satisfies the
DFS trace contract. -/
theorem dfs_spec {g : Grid} {start : Pos} (endP : Pos) (hs : inB g start) :
    ∃ trace' s' em, dfs g start endP = some (trace', s', em) ∧
      trace'.Nodup ∧
      (∀ p ∈ trace', s'.visited p = true) ∧
      (em = true → endP ∉ trace') ∧
      (em = false → endP ∈ trace' ∧ s'.visited endP = true) := by
  have hcu := countUnvis_le g (markVisited initState start).visited
  exact dfsLoop_master (stdFuel g) [start]
    (markVisited initState start) [] (dfsInv_init hs)
    (List.not_mem_nil endP)
    (by unfold stdFuel; simp only [List.length_singleton]; omega)

/-! ## The A* update characterization -/

theorem infLt_irrefl (a : Option Nat) : infLt a a = false := by
  cases a <;> simp [infLt]

/-- The record update of one improving A* relaxation of cell `n` from
the expanding cell `c`. -/
def astarTouch (g : Grid) (e c n : Pos) (s : SState) : SState :=
  { s with
    prev := fun q => if q = n then some c else s.prev q
    gCost := fun q => if q = n then infSucc (s.gCost c) else s.gCost q
    fCost := fun q =>
      if q = n then ((infSucc (s.gCost c)).map fun v => v + heuristic n e)
      else s.fCost q }

theorem astarUpdate_cons (g : Grid) (e c n : Pos) (ns : List Pos)
    (s : SState) (o : List Pos) :
    astarUpdate g e c (n :: ns) s o =
      if g.wall n || s.visited n then astarUpdate g e c ns s o
      else if infLt (infSucc (s.gCost c)) (s.gCost n) = true then
        astarUpdate g e c ns (astarTouch g e c n s)
          (if n ∈ o then o else o ++ [n])
      else astarUpdate g e c ns s o := rfl

/-- The condition under which the A* neighbor loop relaxes cell `z`. -/
def updCond (g : Grid) (c : Pos) (ns : List Pos) (s : SState)
    (z : Pos) : Prop :=
  z ∈ ns ∧ g.wall z = false ∧ s.visited z = false ∧
    infLt (infSucc (s.gCost c)) (s.gCost z) = true

theorem astarUpdate_visited (g : Grid) (e c : Pos) :
    ∀ (ns : List Pos) (s : SState) (o : List Pos),
      (astarUpdate g e c ns s o).1.visited = s.visited := by
  intro ns
  induction ns with
  | nil => intro s o; rfl
  | cons n ns ih =>
    intro s o
    rw [astarUpdate_cons]
    split_ifs with h1 h2 h3
    · exact ih s o
    · rw [ih]
      rfl
    · rw [ih]
      rfl
    · exact ih s o

/-- The exact effect of the A* neighbor loop on the per-cell fields:
each cell is either relaxed (when `updCond` holds) to
`gCost c + 1` with backpointer `c`, or left untouched. -/
theorem astarUpdate_fields (g : Grid) (e c : Pos) :
    ∀ (ns : List Pos) (s : SState) (o : List Pos),
      s.visited c = true → ∀ z,
      (updCond g c ns s z ∧
        (astarUpdate g e c ns s o).1.gCost z = infSucc (s.gCost c) ∧
        (astarUpdate g e c ns s o).1.prev z = some c ∧
        (astarUpdate g e c ns s o).1.fCost z =
          ((infSucc (s.gCost c)).map fun v => v + heuristic z e)) ∨
      (¬ updCond g c ns s z ∧
        (astarUpdate g e c ns s o).1.gCost z = s.gCost z ∧
        (astarUpdate g e c ns s o).1.prev z = s.prev z ∧
        (astarUpdate g e c ns s o).1.fCost z = s.fCost z) := by
  intro ns
  induction ns with
  | nil =>
    intro s o hc z
    right
    refine ⟨?_, rfl, rfl, rfl⟩
    intro h
    exact absurd h.1 (List.not_mem_nil z)
  | cons n ns ih =>
    intro s o hc z
    rw [astarUpdate_cons]
    generalize ho0 : (if n ∈ o then o else o ++ [n]) = o1
    split_ifs with hg hlt
    · rw [Bool.or_eq_true] at hg
      rcases ih s o hc z with ⟨⟨hm, hw, hv, hl⟩, h2, h3, h4⟩ |
        ⟨hnc, h2, h3, h4⟩
      · exact Or.inl ⟨⟨List.mem_cons_of_mem n hm, hw, hv, hl⟩, h2, h3, h4⟩
      · refine Or.inr ⟨?_, h2, h3, h4⟩
        intro hcond
        obtain ⟨hm, hw, hv, hl⟩ := hcond
        rcases List.mem_cons.1 hm with hzn | hm'
        · rcases hg with hg | hg
          · rw [hzn] at hw
            rw [hw] at hg
            cases hg
          · rw [hzn] at hv
            rw [hv] at hg
            cases hg
        · exact hnc ⟨hm', hw, hv, hl⟩
    · have hwn : g.wall n = false := by
        by_cases h : g.wall n = true
        · exfalso
          apply hg
          rw [h]
          rfl
        · rwa [Bool.not_eq_true] at h
      have hvn : s.visited n = false := by
        by_cases h : s.visited n = true
        · exfalso
          apply hg
          rw [h, Bool.or_true]
        · rwa [Bool.not_eq_true] at h
      have hcn : c ≠ n := by
        intro h
        rw [h] at hc
        rw [hc] at hvn
        cases hvn
      have htc : (astarTouch g e c n s).gCost c = s.gCost c := by
        show (if c = n then _ else s.gCost c) = s.gCost c
        rw [if_neg hcn]
      have hc' : (astarTouch g e c n s).visited c = true := hc
      rcases ih (astarTouch g e c n s) o1
        hc' z with ⟨⟨hm, hw, hv, hl⟩, h2, h3, h4⟩ | ⟨hnc, h2, h3, h4⟩
      · by_cases hzn : z = n
        · exfalso
          have hb : (astarTouch g e c n s).gCost z =
              infSucc (s.gCost c) := by
            show (if z = n then infSucc (s.gCost c) else _) = _
            rw [if_pos hzn]
          rw [htc, hb, infLt_irrefl] at hl
          cases hl
        · have hbz : (astarTouch g e c n s).gCost z = s.gCost z := by
            show (if z = n then _ else s.gCost z) = _
            rw [if_neg hzn]
          refine Or.inl ⟨⟨List.mem_cons_of_mem n hm, hw, hv, ?_⟩,
            ?_, h3, ?_⟩
          · rw [htc, hbz] at hl
            exact hl
          · rw [htc] at h2
            exact h2
          · rw [htc] at h4
            exact h4
      · by_cases hzn : z = n
        · subst hzn
          refine Or.inl ⟨⟨List.mem_cons_self z ns, hwn, hvn, hlt⟩,
            ?_, ?_, ?_⟩
          · rw [h2]
            show (if z = z then infSucc (s.gCost c) else _) = _
            rw [if_pos rfl]
          · rw [h3]
            show (if z = z then some c else _) = some c
            rw [if_pos rfl]
          · rw [h4]
            show (if z = z then _ else _) = _
            rw [if_pos rfl]
        · have hbz : (astarTouch g e c n s).gCost z = s.gCost z := by
            show (if z = n then _ else s.gCost z) = _
            rw [if_neg hzn]
          have hpz : (astarTouch g e c n s).prev z = s.prev z := by
            show (if z = n then _ else s.prev z) = _
            rw [if_neg hzn]
          have hfz : (astarTouch g e c n s).fCost z = s.fCost z := by
            show (if z = n then _ else s.fCost z) = _
            rw [if_neg hzn]
          refine Or.inr ⟨?_, by rw [h2, hbz], by rw [h3, hpz],
            by rw [h4, hfz]⟩
          intro hcond
          obtain ⟨hm, hw, hv, hl⟩ := hcond
          apply hnc
          refine ⟨?_, hw, hv, ?_⟩
          · rcases List.mem_cons.1 hm with h | h
            · exact absurd h hzn
            · exact h
          · rw [htc, hbz]
            exact hl
    · rcases ih s o hc z with ⟨⟨hm, hw, hv, hl⟩, h2, h3, h4⟩ |
        ⟨hnc, h2, h3, h4⟩
      · exact Or.inl ⟨⟨List.mem_cons_of_mem n hm, hw, hv, hl⟩, h2, h3, h4⟩
      · refine Or.inr ⟨?_, h2, h3, h4⟩
        intro hcond
        obtain ⟨hm, hw, hv, hl⟩ := hcond
        rcases List.mem_cons.1 hm with hzn | hm'
        · rw [hzn] at hl
          exact hlt hl
        · exact hnc ⟨hm', hw, hv, hl⟩

/-- A cell sits in the open set after the neighbor loop iff it was
already there or its relaxation condition held. -/
theorem astarUpdate_open_mem (g : Grid) (e c : Pos) :
    ∀ (ns : List Pos) (s : SState) (o : List Pos),
      s.visited c = true → ∀ z,
      (z ∈ (astarUpdate g e c ns s o).2 ↔
        z ∈ o ∨ updCond g c ns s z) := by
  intro ns
  induction ns with
  | nil =>
    intro s o hc z
    unfold updCond
    rw [astarUpdate]
    simp
  | cons n ns ih =>
    intro s o hc z
    rw [astarUpdate_cons]
    generalize ho0 : (if n ∈ o then o else o ++ [n]) = o1
    split_ifs with hg hlt
    · rw [Bool.or_eq_true] at hg
      rw [ih s o hc z]
      constructor
      · rintro (h | ⟨hm, hw, hv, hl⟩)
        · exact Or.inl h
        · exact Or.inr ⟨List.mem_cons_of_mem n hm, hw, hv, hl⟩
      · rintro (h | ⟨hm, hw, hv, hl⟩)
        · exact Or.inl h
        · rcases List.mem_cons.1 hm with hzn | hm'
          · exfalso
            rcases hg with hg | hg
            · rw [hzn] at hw
              rw [hw] at hg
              cases hg
            · rw [hzn] at hv
              rw [hv] at hg
              cases hg
          · exact Or.inr ⟨hm', hw, hv, hl⟩
    · have hwn : g.wall n = false := by
        by_cases h : g.wall n = true
        · exfalso
          apply hg
          rw [h]
          rfl
        · rwa [Bool.not_eq_true] at h
      have hvn : s.visited n = false := by
        by_cases h : s.visited n = true
        · exfalso
          apply hg
          rw [h, Bool.or_true]
        · rwa [Bool.not_eq_true] at h
      have hcn : c ≠ n := by
        intro h
        rw [h] at hc
        rw [hc] at hvn
        cases hvn
      have htc : (astarTouch g e c n s).gCost c = s.gCost c := by
        show (if c = n then _ else s.gCost c) = s.gCost c
        rw [if_neg hcn]
      have hc' : (astarTouch g e c n s).visited c = true := hc
      rw [ih (astarTouch g e c n s) o1 hc' z]
      by_cases hzn : z = n
      · subst hzn
        constructor
        · intro _
          exact Or.inr ⟨List.mem_cons_self z ns, hwn, hvn, hlt⟩
        · intro _
          left
          rw [← ho0]
          split_ifs with hno
          · exact hno
          · exact List.mem_append.2 (Or.inr (List.mem_singleton.2 rfl))
      · have hbz : (astarTouch g e c n s).gCost z = s.gCost z := by
          show (if z = n then _ else s.gCost z) = _
          rw [if_neg hzn]
        have hoz : z ∈ o1 ↔ z ∈ o := by
          rw [← ho0]
          split_ifs with hno
          · exact Iff.rfl
          · rw [List.mem_append, List.mem_singleton]
            constructor
            · rintro (h | h)
              · exact h
              · exact absurd h hzn
            · exact Or.inl
        rw [hoz]
        have hcond : updCond g c ns (astarTouch g e c n s) z ↔
            updCond g c (n :: ns) s z := by
          unfold updCond
          rw [htc, hbz]
          constructor
          · rintro ⟨hm, hw, hv, hl⟩
            exact ⟨List.mem_cons_of_mem n hm, hw, hv, hl⟩
          · rintro ⟨hm, hw, hv, hl⟩
            rcases List.mem_cons.1 hm with h | h
            · exact absurd h hzn
            · exact ⟨h, hw, hv, hl⟩
        rw [hcond]
    · rw [ih s o hc z]
      constructor
      · rintro (h | ⟨hm, hw, hv, hl⟩)
        · exact Or.inl h
        · exact Or.inr ⟨List.mem_cons_of_mem n hm, hw, hv, hl⟩
      · rintro (h | ⟨hm, hw, hv, hl⟩)
        · exact Or.inl h
        · rcases List.mem_cons.1 hm with hzn | hm'
          · exfalso
            rw [hzn] at hl
            exact hlt hl
          · exact Or.inr ⟨hm', hw, hv, hl⟩

theorem astarUpdate_open_nodup (g : Grid) (e c : Pos) :
    ∀ (ns : List Pos) (s : SState) (o : List Pos),
      o.Nodup → (astarUpdate g e c ns s o).2.Nodup := by
  intro ns
  induction ns with
  | nil => intro s o h; exact h
  | cons n ns ih =>
    intro s o h
    rw [astarUpdate_cons]
    generalize ho0 : (if n ∈ o then o else o ++ [n]) = o1
    split_ifs with hg hlt
    · exact ih s o h
    · refine ih _ _ ?_
      rw [← ho0]
      by_cases hno : n ∈ o
      · rw [if_pos hno]
        exact h
      · rw [if_neg hno]
        rw [List.nodup_append]
        refine ⟨h, List.nodup_singleton n, ?_⟩
        intro a ha hb
        rw [List.mem_singleton] at hb
        rw [hb] at ha
        exact hno ha
    · exact ih s o h

theorem astarUpdate_open_length (g : Grid) (e c : Pos) :
    ∀ (ns : List Pos) (s : SState) (o : List Pos),
      (astarUpdate g e c ns s o).2.length ≤ o.length + ns.length := by
  intro ns
  induction ns with
  | nil => intro s o; simp [astarUpdate]
  | cons n ns ih =>
    intro s o
    rw [astarUpdate_cons, List.length_cons]
    generalize ho0 : (if n ∈ o then o else o ++ [n]) = o1
    split_ifs with hg hlt
    · have := ih s o
      omega
    · have h1 := ih (astarTouch g e c n s) o1
      have hlen : o1.length ≤ o.length + 1 := by
        rw [← ho0]
        split_ifs with hno
        · omega
        · rw [List.length_append, List.length_singleton]
      omega
    · have := ih s o
      omega

/-! ## The A* loop invariant -/

/-- The invariant of the A* `while (openSet.length)` loop. -/
structure AstarInv (g : Grid) (start endP : Pos) (O : List Pos)
    (s : SState) (trace : List Pos) : Prop where
  vis_iff : ∀ p, s.visited p = true ↔ p ∈ trace
  nodup : trace.Nodup
  onodup : O.Nodup
  g_sound : ∀ p v, s.gCost p = some v → reachB g start v p = true
  f_def : ∀ p v, s.gCost p = some v →
    s.fCost p = some (v + heuristic p endP)
  open_has_g : ∀ p ∈ O, ∃ v, s.gCost p = some v
  open_complete : ∀ p, s.visited p = false → s.gCost p ≠ none → p ∈ O
  visited_exact : ∀ p, s.visited p = true →
    ∃ d, hasDist g start d p ∧ s.gCost p = some d
  closure : ∀ y, s.visited y = true → ∀ n ∈ getNeighbors g y,
    g.wall n = false → s.visited n = false →
    ∃ vy w, s.gCost y = some vy ∧ s.gCost n = some w ∧ w ≤ vy + 1
  g_start : s.gCost start = some 0
  prev_start : s.prev start = none
  g_zero : ∀ p, s.gCost p = some 0 → p = start
  g_pos_prev : ∀ p v, s.gCost p = some (v + 1) → ∃ q, s.prev p = some q
  chain : ∀ p q, s.prev p = some q →
    ∃ v, s.visited q = true ∧ s.gCost q = some v ∧
      s.gCost p = some (v + 1) ∧ p ∈ getNeighbors g q ∧
      g.wall p = false
  trace_bound : ∀ x ∈ trace, (∃ n, reachB g start n x = true) ∧
    (x ≠ endP → ∀ dE, hasDist g start dE endP →
      ∃ k, hasDist g start k x ∧ k < dE)

/-- The invariant holds at the start of the A* run. -/
theorem astarInv_init (g : Grid) (start endP : Pos) :
    AstarInv g start endP [start]
      { initState with
        gCost := fun q => if q = start then some 0 else none
        fCost := fun q =>
          if q = start then some (heuristic start endP) else none }
      [] := by
  refine ⟨?_, by simp, by simp, ?_, ?_, ?_, ?_, ?_, ?_, by simp, rfl,
    ?_, ?_, ?_, ?_⟩
  · intro p
    simp [initState]
  · intro p v h
    dsimp only at h
    split_ifs at h with hp
    · rw [Option.some.injEq] at h
      rw [hp, ← h, reachB]
      simp
  · intro p v h
    dsimp only at h ⊢
    split_ifs at h with hp
    · rw [Option.some.injEq] at h
      rw [hp, if_pos rfl, ← h]
      simp
  · intro p hp
    rw [List.mem_singleton] at hp
    refine ⟨0, ?_⟩
    dsimp only
    rw [hp, if_pos rfl]
  · intro p hv hg
    dsimp only at hg
    by_cases hp : p = start
    · rw [hp]
      exact List.mem_singleton.2 rfl
    · exfalso
      apply hg
      rw [if_neg hp]
  · intro p h
    simp [initState] at h
  · intro y h
    simp [initState] at h
  · intro p h
    dsimp only at h
    split_ifs at h with hp
    · exact hp
  · intro p v h
    dsimp only at h
    split_ifs at h with hp
    · rw [Option.some.injEq] at h
      omega
  · intro p q h
    simp [initState] at h
  · intro x hx
    exact absurd hx (List.not_mem_nil x)

/-- The frontier lemma: towards any reachable unvisited target there is
an unvisited open cell on a shortest path with exact `gCost` and
`fCost` bounded by the target's distance plus heuristic. -/
theorem astar_frontier {g : Grid} {start endP : Pos} {O : List Pos}
    {s : SState} {trace : List Pos} (hs : inB g start)
    (inv : AstarInv g start endP O s trace)
    {t : Pos} {dt : Nat} (ht : hasDist g start dt t)
    (htv : s.visited t = false) :
    ∃ z i, z ∈ O ∧ s.visited z = false ∧ hasDist g start i z ∧
      s.gCost z = some i ∧
      i + heuristic z endP ≤ dt + heuristic t endP := by
  obtain ⟨c, hc0, hcd, hcj, hce⟩ := hasDist_chain hs ht
  have hex : ∃ j, s.visited (c j) = false :=
    ⟨dt, by rw [hcd]; exact htv⟩
  have hiP : s.visited (c (Nat.find hex)) = false := Nat.find_spec hex
  have hile : Nat.find hex ≤ dt := Nat.find_min' hex
    (by rw [hcd]; exact htv)
  have hmin : ∀ m < Nat.find hex, s.visited (c m) = true := by
    intro m hm
    have hnm := Nat.find_min hex hm
    by_cases hb : s.visited (c m) = true
    · exact hb
    · rw [Bool.not_eq_true] at hb
      exact absurd hb hnm
  have hdz : hasDist g start (Nat.find hex) (c (Nat.find hex)) :=
    hcj (Nat.find hex) hile
  have hgz : s.gCost (c (Nat.find hex)) = some (Nat.find hex) := by
    rcases Nat.eq_zero_or_pos (Nat.find hex) with hi0 | hipos
    · rw [hi0, hc0, inv.g_start]
    · obtain ⟨m, hm⟩ : ∃ m, Nat.find hex = m + 1 :=
        ⟨Nat.find hex - 1, by omega⟩
      have hyv : s.visited (c m) = true := hmin m (by omega)
      obtain ⟨dy, hdy, hgy⟩ := inv.visited_exact (c m) hyv
      have hdym : dy = m := hasDist_unique hdy (hcj m (by omega))
      have hedge := hce m (by omega)
      have hunv : s.visited (c (m + 1)) = false := by
        rw [← hm]
        exact hiP
      obtain ⟨vy, w, hgy', hgw, hwle⟩ := inv.closure (c m) hyv
        (c (m + 1)) hedge.1 hedge.2 hunv
      have hvym : vy = m := by
        rw [hgy] at hgy'
        rw [Option.some.injEq] at hgy'
        omega
      have hwge : Nat.find hex ≤ w := by
        by_cases hw : w < Nat.find hex
        · exfalso
          have hr := inv.g_sound (c (m + 1)) w hgw
          have := hdz.2 w hw
          rw [hm] at this
          rw [this] at hr
          cases hr
        · omega
      have hweq : w = Nat.find hex := by omega
      have hfinal : s.gCost (c (Nat.find hex)) = some w := by
        rw [hm]
        exact hgw
      rw [hfinal, hweq]
  have hzO : c (Nat.find hex) ∈ O :=
    inv.open_complete (c (Nat.find hex)) hiP
      (by rw [hgz]; exact fun h => Option.noConfusion h)
  have htel := chain_heuristic_le (e := endP) hce
    (fun j hj => hasDist_inB hs (hcj j hj)) (Nat.find hex) hile
  refine ⟨c (Nat.find hex), Nat.find hex, hzO, hiP, hdz, hgz, ?_⟩
  rw [hcd] at htel
  omega

/-- The pop lemma: an unvisited cell shifted from the head of the sorted
open set carries the exact shortest distance as its `gCost`; and if both
it and a reachable end cell are unvisited, its distance is strictly
below the end cell's unless it is the end cell. -/
theorem astar_pop {g : Grid} {start endP : Pos} {O : List Pos}
    {s : SState} {trace : List Pos} {current : Pos} {rest : List Pos}
    (hs : inB g start)
    (inv : AstarInv g start endP O s trace)
    (hsort : sortBy (fun a b => infLe (s.fCost a) (s.fCost b)) O =
      current :: rest)
    (hcv : s.visited current = false) :
    ∃ dc, hasDist g start dc current ∧ s.gCost current = some dc ∧
      (∀ dE, current ≠ endP → hasDist g start dE endP →
        s.visited endP = false → dc < dE) := by
  have hcO : current ∈ O := by
    have hperm := sortBy_perm (fun a b => infLe (s.fCost a) (s.fCost b)) O
    rw [hsort] at hperm
    exact hperm.mem_iff.1 (List.mem_cons_self current rest)
  obtain ⟨v, hgv⟩ := inv.open_has_g current hcO
  obtain ⟨dc, hdcle, hdc⟩ := hasDist_of_reachB (inv.g_sound current v hgv)
  obtain ⟨z, i, hzO, hzv, hzd, hzg, hzb⟩ := astar_frontier hs inv hdc hcv
  have hminf := sortBy_head_min hsort z hzO
  have hfc : s.fCost current = some (v + heuristic current endP) :=
    inv.f_def current v hgv
  have hfz : s.fCost z = some (i + heuristic z endP) :=
    inv.f_def z i hzg
  rw [hfc, hfz] at hminf
  simp only [infLe, decide_eq_true_eq] at hminf
  have hveq : v = dc := by omega
  refine ⟨dc, hdc, by rw [← hveq]; exact hgv, ?_⟩
  intro dE hne hdE hev
  obtain ⟨z2, i2, hz2O, hz2v, hz2d, hz2g, hz2b⟩ :=
    astar_frontier hs inv hdE hev
  have hminf2 := sortBy_head_min hsort z2 hz2O
  have hfz2 : s.fCost z2 = some (i2 + heuristic z2 endP) :=
    inv.f_def z2 i2 hz2g
  rw [hfc, hfz2] at hminf2
  simp only [infLe, decide_eq_true_eq] at hminf2
  have hhe : heuristic endP endP = 0 := heuristic_self endP
  have hhc : 1 ≤ heuristic current endP := by
    rcases Nat.eq_zero_or_pos (heuristic current endP) with h0 | h1
    · exact absurd (heuristic_eq_zero h0) hne
    · exact h1
  omega

/-- One A* shift-mark-expand iteration preserves the invariant. -/
theorem astarInv_step {g : Grid} {start endP : Pos} {O : List Pos}
    {s : SState} {trace : List Pos} {current : Pos} {rest : List Pos}
    (hs : inB g start)
    (inv : AstarInv g start endP O s trace)
    (hsort : sortBy (fun a b => infLe (s.fCost a) (s.fCost b)) O =
      current :: rest)
    (hcv : s.visited current = false)
    (hce : current ≠ endP)
    (hnt : endP ∉ trace) :
    AstarInv g start endP
      (astarUpdate g endP current (getNeighbors g current)
        (markVisited s current) rest).2
      (astarUpdate g endP current (getNeighbors g current)
        (markVisited s current) rest).1
      (trace ++ [current]) := by
  obtain ⟨dc, hdc, hgc, hltE⟩ := astar_pop hs inv hsort hcv
  have hev : s.visited endP = false := by
    by_cases h : s.visited endP = true
    · exact absurd ((inv.vis_iff endP).1 h) hnt
    · rwa [Bool.not_eq_true] at h
  have hg1 : ∀ z, (markVisited s current).gCost z = s.gCost z :=
    fun z => rfl
  have hp1 : ∀ z, (markVisited s current).prev z = s.prev z :=
    fun z => rfl
  have hf1 : ∀ z, (markVisited s current).fCost z = s.fCost z :=
    fun z => rfl
  have hv1 : ∀ z, (markVisited s current).visited z =
      (if z = current then true else s.visited z) := fun z => rfl
  have hc1 : (markVisited s current).visited current = true := by
    rw [hv1, if_pos rfl]
  have htg : infSucc ((markVisited s current).gCost current) =
      some (dc + 1) := by
    rw [hg1, hgc]
    rfl
  have hfields := astarUpdate_fields g endP current
    (getNeighbors g current) (markVisited s current) rest hc1
  have hvisU := astarUpdate_visited g endP current
    (getNeighbors g current) (markVisited s current) rest
  have homem := astarUpdate_open_mem g endP current
    (getNeighbors g current) (markVisited s current) rest hc1
  have hperm := sortBy_perm (fun a b => infLe (s.fCost a) (s.fCost b)) O
  have hmemO : ∀ z, z ∈ O ↔ z = current ∨ z ∈ rest := by
    intro z
    rw [hsort] at hperm
    rw [← hperm.mem_iff, List.mem_cons]
  have hsortnd : (current :: rest).Nodup := by
    rw [hsort] at hperm
    exact hperm.nodup_iff.2 inv.onodup
  have hrestnd : rest.Nodup := (List.nodup_cons.1 hsortnd).2
  have hcr : current ∉ rest := (List.nodup_cons.1 hsortnd).1
  have hmono : ∀ z, s.visited z = true →
      (astarUpdate g endP current (getNeighbors g current)
        (markVisited s current) rest).1.visited z = true := by
    intro z hz
    rw [hvisU, hv1]
    split_ifs with h
    · rfl
    · exact hz
  have hvcur : (astarUpdate g endP current (getNeighbors g current)
      (markVisited s current) rest).1.visited current = true := by
    rw [hvisU]
    exact hc1
  have hgcU : (astarUpdate g endP current (getNeighbors g current)
      (markVisited s current) rest).1.gCost current = some dc := by
    rcases hfields current with ⟨⟨-, -, hvc', -⟩, -⟩ | ⟨-, h2, -, -⟩
    · rw [hc1] at hvc'
      cases hvc'
    · rw [h2, hg1]
      exact hgc
  have hcondvis : ∀ z, s.visited z = true →
      ¬ updCond g current (getNeighbors g current)
        (markVisited s current) z := by
    intro z hz hcond
    have := hcond.2.2.1
    rw [hv1] at this
    split_ifs at this with h
    rw [hz] at this
    cases this
  refine ⟨?_, ?_, ?_, ?_, ?_, ?_, ?_, ?_, ?_, ?_, ?_, ?_, ?_, ?_, ?_⟩
  · -- vis_iff
    intro p
    rw [hvisU, hv1, List.mem_append, List.mem_singleton]
    split_ifs with h
    · simp [h]
    · rw [inv.vis_iff p]
      constructor
      · exact Or.inl
      · rintro (hp | hp)
        · exact hp
        · exact absurd hp h
  · -- nodup
    rw [List.nodup_append]
    refine ⟨inv.nodup, List.nodup_singleton _, ?_⟩
    intro z hz hz1
    rw [List.mem_singleton] at hz1
    rw [hz1] at hz
    have := (inv.vis_iff current).2 hz
    rw [hcv] at this
    cases this
  · -- onodup
    exact astarUpdate_open_nodup g endP current _ _ rest hrestnd
  · -- g_sound
    intro p v h
    rcases hfields p with ⟨⟨hm, hw, -, -⟩, h2, -, -⟩ | ⟨-, h2, -, -⟩
    · rw [h2, htg] at h
      rw [Option.some.injEq] at h
      rw [← h]
      exact reachB_step hs hdc.1 hm hw
    · rw [h2, hg1] at h
      exact inv.g_sound p v h
  · -- f_def
    intro p v h
    rcases hfields p with ⟨⟨-, -, -, -⟩, h2, -, h4⟩ | ⟨-, h2, -, h4⟩
    · rw [h2, htg] at h
      rw [Option.some.injEq] at h
      rw [h4, htg, ← h]
      rfl
    · rw [h2, hg1] at h
      rw [h4, hf1]
      exact inv.f_def p v h
  · -- open_has_g
    intro p hp
    rcases hfields p with ⟨⟨-, -, -, -⟩, h2, -, -⟩ | ⟨hnc, h2, -, -⟩
    · exact ⟨dc + 1, by rw [h2, htg]⟩
    · rcases (homem p).1 hp with hpr | hcond
      · obtain ⟨v, hv⟩ := inv.open_has_g p ((hmemO p).2 (Or.inr hpr))
        refine ⟨v, ?_⟩
        rw [h2, hg1]
        exact hv
      · exact absurd hcond hnc
  · -- open_complete
    intro p hpv hpg
    rw [hvisU, hv1] at hpv
    split_ifs at hpv with hpc
    rcases hfields p with ⟨hcond, -, -, -⟩ | ⟨-, h2, -, -⟩
    · exact (homem p).2 (Or.inr hcond)
    · rw [h2, hg1] at hpg
      have hpO := inv.open_complete p hpv hpg
      rcases (hmemO p).1 hpO with h | h
      · exact absurd h hpc
      · exact (homem p).2 (Or.inl h)
  · -- visited_exact
    intro p hp
    rw [hvisU, hv1] at hp
    split_ifs at hp with hpc
    · refine ⟨dc, ?_, ?_⟩
      · rw [hpc]
        exact hdc
      · rw [hpc]
        exact hgcU
    · obtain ⟨d, hd, hg⟩ := inv.visited_exact p hp
      refine ⟨d, hd, ?_⟩
      rcases hfields p with ⟨hcond, -, -, -⟩ | ⟨-, h2, -, -⟩
      · exact absurd hcond (hcondvis p hp)
      · rw [h2, hg1]
        exact hg
  · -- closure
    intro y hy n hn hnw hnv
    rw [hvisU, hv1] at hy
    have hnnc : n ≠ current := by
      intro h
      rw [hvisU, h] at hnv
      rw [hc1] at hnv
      cases hnv
    have hnv' : s.visited n = false := by
      rw [hvisU, hv1, if_neg hnnc] at hnv
      exact hnv
    split_ifs at hy with hyc
    · -- y = current
      refine ⟨dc, ?_⟩
      rcases hfields n with ⟨⟨-, -, -, -⟩, h2, -, -⟩ | ⟨hnc, h2, -, -⟩
      · refine ⟨dc + 1, ?_, ?_, by omega⟩
        · rw [hyc]
          exact hgcU
        · rw [h2, htg]
      · have hnlt : infLt (infSucc ((markVisited s current).gCost
            current)) ((markVisited s current).gCost n) = false := by
          by_cases h : infLt (infSucc ((markVisited s current).gCost
              current)) ((markVisited s current).gCost n) = true
          · exfalso
            apply hnc
            refine ⟨?_, hnw, ?_, h⟩
            · rw [← hyc]
              exact hn
            · rw [hv1, if_neg hnnc]
              exact hnv'
          · rwa [Bool.not_eq_true] at h
        rw [htg, hg1] at hnlt
        cases hgn : s.gCost n with
        | none =>
          exfalso
          rw [hgn] at hnlt
          cases hnlt
        | some w =>
          rw [hgn] at hnlt
          have hwle : w ≤ dc + 1 := by
            have : decide (dc + 1 < w) = false := hnlt
            rw [decide_eq_false_iff_not] at this
            omega
          refine ⟨w, ?_, ?_, hwle⟩
          · rw [hyc]
            exact hgcU
          · rw [h2, hg1]
            exact hgn
    · -- y already visited before
      obtain ⟨vy, w, hgy, hgn, hle⟩ := inv.closure y hy n hn hnw hnv'
      have hgyU : (astarUpdate g endP current (getNeighbors g current)
          (markVisited s current) rest).1.gCost y = some vy := by
        rcases hfields y with ⟨hcond, -, -, -⟩ | ⟨-, h2, -, -⟩
        · exact absurd hcond (hcondvis y hy)
        · rw [h2, hg1]
          exact hgy
      rcases hfields n with ⟨⟨-, -, -, hlt⟩, h2, -, -⟩ | ⟨-, h2, -, -⟩
      · rw [htg, hg1, hgn] at hlt
        have : dc + 1 < w := by
          have hd := hlt
          rw [infLt] at hd
          rw [decide_eq_true_eq] at hd
          exact hd
        exact ⟨vy, dc + 1, hgyU, by rw [h2, htg], by omega⟩
      · exact ⟨vy, w, hgyU, by rw [h2, hg1]; exact hgn, hle⟩
  · -- g_start
    rcases hfields start with ⟨⟨-, -, -, hlt⟩, -, -, -⟩ | ⟨-, h2, -, -⟩
    · exfalso
      rw [htg, hg1, inv.g_start] at hlt
      have : decide (dc + 1 < 0) = true := hlt
      rw [decide_eq_true_eq] at this
      omega
    · rw [h2, hg1]
      exact inv.g_start
  · -- prev_start
    rcases hfields start with ⟨⟨-, -, -, hlt⟩, -, -, -⟩ | ⟨-, -, h3, -⟩
    · exfalso
      rw [htg, hg1, inv.g_start] at hlt
      have : decide (dc + 1 < 0) = true := hlt
      rw [decide_eq_true_eq] at this
      omega
    · rw [h3, hp1]
      exact inv.prev_start
  · -- g_zero
    intro p h
    rcases hfields p with ⟨-, h2, -, -⟩ | ⟨-, h2, -, -⟩
    · rw [h2, htg] at h
      rw [Option.some.injEq] at h
      omega
    · rw [h2, hg1] at h
      exact inv.g_zero p h
  · -- g_pos_prev
    intro p v h
    rcases hfields p with ⟨-, -, h3, -⟩ | ⟨-, h2, h3, -⟩
    · exact ⟨current, h3⟩
    · rw [h2, hg1] at h
      obtain ⟨q, hq⟩ := inv.g_pos_prev p v h
      refine ⟨q, ?_⟩
      rw [h3, hp1]
      exact hq
  · -- chain
    intro p q h
    rcases hfields p with ⟨⟨hm, hw, -, -⟩, h2, h3, -⟩ | ⟨-, h2, h3, -⟩
    · rw [h3] at h
      rw [Option.some.injEq] at h
      refine ⟨dc, ?_, ?_, ?_, ?_, ?_⟩
      · rw [← h]
        exact hvcur
      · rw [← h]
        exact hgcU
      · rw [h2, htg]
      · rw [← h]
        exact hm
      · exact hw
    · rw [h3, hp1] at h
      obtain ⟨v, hqv, hgq, hgp, hmem, hw⟩ := inv.chain p q h
      refine ⟨v, hmono q hqv, ?_, ?_, hmem, hw⟩
      · rcases hfields q with ⟨hcond, -, -, -⟩ | ⟨-, h2', -, -⟩
        · exact absurd hcond (hcondvis q hqv)
        · rw [h2', hg1]
          exact hgq
      · rw [h2, hg1]
        exact hgp
  · -- trace_bound
    intro x hx
    rcases List.mem_append.1 hx with hx | hx
    · exact inv.trace_bound x hx
    · rw [List.mem_singleton] at hx
      subst hx
      refine ⟨⟨dc, hdc.1⟩, ?_⟩
      intro hne dE hdE
      exact ⟨dc, hdc, hltE dE hne hdE hev⟩

theorem astarLoop_succ (g : Grid) (endP : Pos) (fuel : Nat)
    (open_ : List Pos) (s : SState) (trace : List Pos) :
    astarLoop g endP (fuel + 1) open_ s trace =
      match sortBy (fun a b => infLe (s.fCost a) (s.fCost b)) open_ with
      | [] => some (trace, s, true)
      | current :: rest =>
        if s.visited current then astarLoop g endP fuel rest s trace
        else
          let s' := markVisited s current
          if current = endP then some (trace ++ [current], s', false)
          else
            let so := astarUpdate g endP current (getNeighbors g current)
              s' rest
            astarLoop g endP fuel so.2 so.1 (trace ++ [current]) := rfl

/-- The postcondition of a completed A* loop run. -/
def AstarPost (g : Grid) (start endP : Pos) (trace' : List Pos)
    (s' : SState) (em : Bool) : Prop :=
  trace'.Nodup ∧
  (∀ p, s'.visited p = true ↔ p ∈ trace') ∧
  (∀ x ∈ trace', (∃ n, reachB g start n x = true) ∧
    (x ≠ endP → ∀ dE, hasDist g start dE endP →
      ∃ k, hasDist g start k x ∧ k < dE)) ∧
  (∀ p q, s'.prev p = some q → ∃ v, s'.visited q = true ∧
    s'.gCost q = some v ∧ s'.gCost p = some (v + 1) ∧
    p ∈ getNeighbors g q ∧ g.wall p = false) ∧
  (∀ p v, s'.gCost p = some (v + 1) → ∃ q, s'.prev p = some q) ∧
  (∀ p, s'.gCost p = some 0 → p = start) ∧
  s'.gCost start = some 0 ∧
  s'.prev start = none ∧
  (em = true → endP ∉ trace' ∧ ∀ d, ¬ hasDist g start d endP) ∧
  (em = false → endP ∈ trace' ∧ s'.visited endP = true ∧
    ∃ dE, hasDist g start dE endP ∧ s'.gCost endP = some dE)

/-- The master lemma for the A* loop: with the invariant and enough
fuel the loop returns and its outputs satisfy the A* contract. -/
theorem astarLoop_master {g : Grid} {start endP : Pos}
    (hs : inB g start) :
    ∀ (fuel : Nat) (O : List Pos) (s : SState) (trace : List Pos),
      AstarInv g start endP O s trace →
      endP ∉ trace →
      O.length + 5 * countUnvis g s.visited < fuel →
      ∃ trace' s' em,
        astarLoop g endP fuel O s trace = some (trace', s', em) ∧
        AstarPost g start endP trace' s' em := by
  intro fuel
  induction fuel with
  | zero => intro O s trace _ _ h; omega
  | succ fuel ih =>
    intro O s trace inv hnt hfuel
    rw [astarLoop_succ]
    cases hsort : sortBy (fun a b => infLe (s.fCost a) (s.fCost b)) O with
    | nil =>
      have hOnil : O = [] := by
        have hperm := sortBy_perm
          (fun a b => infLe (s.fCost a) (s.fCost b)) O
        rw [hsort] at hperm
        exact List.Perm.eq_nil hperm.symm
      refine ⟨trace, s, true, rfl, inv.nodup, inv.vis_iff,
        inv.trace_bound, inv.chain, inv.g_pos_prev, inv.g_zero,
        inv.g_start, inv.prev_start, ?_, ?_⟩
      · intro _
        refine ⟨hnt, ?_⟩
        intro d hdE
        have hev : s.visited endP = false := by
          by_cases h : s.visited endP = true
          · exact absurd ((inv.vis_iff endP).1 h) hnt
          · rwa [Bool.not_eq_true] at h
        obtain ⟨z, i, hzO, -, -, -, -⟩ := astar_frontier hs inv hdE hev
        rw [hOnil] at hzO
        exact absurd hzO (List.not_mem_nil z)
      · intro h
        cases h
    | cons current rest =>
      dsimp only
      have hperm := sortBy_perm
        (fun a b => infLe (s.fCost a) (s.fCost b)) O
      rw [hsort] at hperm
      have hlen : rest.length + 1 = O.length := by
        have hh := hperm.length_eq
        rw [List.length_cons] at hh
        omega
      have hrestnd : rest.Nodup :=
        (List.nodup_cons.1 (hperm.nodup_iff.2 inv.onodup)).2
      by_cases hcv : s.visited current = true
      · -- already visited: shift and continue
        have inv' : AstarInv g start endP rest s trace :=
          { inv with
            onodup := hrestnd
            open_has_g := fun p hp => inv.open_has_g p
              (hperm.mem_iff.1 (List.mem_cons_of_mem current hp))
            open_complete := by
              intro p hpv hpg
              have hpO := inv.open_complete p hpv hpg
              rcases List.mem_cons.1 (hperm.mem_iff.2 hpO) with h | h
              · exfalso
                rw [h] at hpv
                rw [hcv] at hpv
                cases hpv
              · exact h }
        obtain ⟨trace', s', em, hrun, hpost⟩ :=
          ih rest s trace inv' hnt (by omega)
        refine ⟨trace', s', em, ?_, hpost⟩
        rw [if_pos hcv]
        exact hrun
      · have hcv' : s.visited current = false := by
          rwa [Bool.not_eq_true] at hcv
        rw [if_neg hcv]
        by_cases hce : current = endP
        · -- finalize the end cell and exit
          rw [if_pos hce]
          obtain ⟨dc, hdc, hgc, -⟩ := astar_pop hs inv hsort hcv'
          have hcnt : current ∉ trace := by
            intro h
            have := (inv.vis_iff current).2 h
            rw [hcv'] at this
            cases this
          refine ⟨trace ++ [current], markVisited s current, false, rfl,
            ?_, ?_, ?_, ?_, inv.g_pos_prev, inv.g_zero, inv.g_start,
            inv.prev_start, ?_, ?_⟩
          · rw [List.nodup_append]
            refine ⟨inv.nodup, List.nodup_singleton _, ?_⟩
            intro z hz hz1
            rw [List.mem_singleton] at hz1
            rw [hz1] at hz
            exact hcnt hz
          · intro p
            rw [List.mem_append, List.mem_singleton]
            show (if p = current then true else s.visited p) = true ↔ _
            split_ifs with h
            · simp [h]
            · rw [inv.vis_iff p]
              constructor
              · exact Or.inl
              · rintro (hp | hp)
                · exact hp
                · exact absurd hp h
          · intro x hx
            rcases List.mem_append.1 hx with hx | hx
            · exact inv.trace_bound x hx
            · rw [List.mem_singleton] at hx
              subst hx
              refine ⟨⟨dc, hdc.1⟩, ?_⟩
              intro hne
              exact absurd hce hne
          · intro p q h
            obtain ⟨v, hqv, hgq, hgp, hmem, hw⟩ := inv.chain p q h
            refine ⟨v, ?_, hgq, hgp, hmem, hw⟩
            show (if q = current then true else s.visited q) = true
            split_ifs with hq
            · rfl
            · exact hqv
          · intro h
            cases h
          · intro _
            refine ⟨List.mem_append.2 (Or.inr
              (List.mem_singleton.2 hce.symm)), ?_, dc, ?_, ?_⟩
            · show (if endP = current then true else s.visited endP) = true
              rw [if_pos hce.symm]
            · rw [← hce]
              exact hdc
            · rw [← hce]
              exact hgc
        · -- expand and continue
          rw [if_neg hce]
          have hstep := astarInv_step hs inv hsort hcv' hce hnt
          have hnt' : endP ∉ trace ++ [current] := by
            intro h
            rcases List.mem_append.1 h with h | h
            · exact hnt h
            · rw [List.mem_singleton] at h
              exact hce h.symm
          obtain ⟨dc, hdc, hgc, -⟩ := astar_pop hs inv hsort hcv'
          have hcB : inB g current := hasDist_inB hs hdc
          have holen := astarUpdate_open_length g endP current
            (getNeighbors g current) (markVisited s current) rest
          have hnslen := getNeighbors_length_le g current
          have hvisU := astarUpdate_visited g endP current
            (getNeighbors g current) (markVisited s current) rest
          have hcu : countUnvis g (astarUpdate g endP current
              (getNeighbors g current) (markVisited s current)
              rest).1.visited < countUnvis g s.visited := by
            rw [hvisU]
            have : (markVisited s current).visited =
                fun q => if q = current then true else s.visited q := rfl
            rw [this]
            exact countUnvis_mark_lt hcB hcv'
          obtain ⟨trace', s', em, hrun, hpost⟩ :=
            ih _ _ _ hstep hnt' (by omega)
          exact ⟨trace', s', em, hrun, hpost⟩

/-- Along A*'s `gCost`-graded backpointer chain, `reconstructPath`
returns a list of `v + 1` cells beginning at the start cell. -/
theorem reconstructPath_gchain {g : Grid} {start : Pos} {s : SState}
    (hch : ∀ p q, s.prev p = some q → ∃ v, s.visited q = true ∧
      s.gCost q = some v ∧ s.gCost p = some (v + 1) ∧
      p ∈ getNeighbors g q ∧ g.wall p = false)
    (hpp : ∀ p v, s.gCost p = some (v + 1) → ∃ q, s.prev p = some q)
    (hz : ∀ p, s.gCost p = some 0 → p = start)
    (hp0 : s.prev start = none) :
    ∀ (v : Nat) (p : Pos) (fuel : Nat), s.gCost p = some v →
      v ≤ fuel →
      (reconstructPath s.prev fuel p).length = v + 1 ∧
      (reconstructPath s.prev fuel p).head? = some start := by
  intro v
  induction v with
  | zero =>
    intro p fuel hg _
    have hp : p = start := hz p hg
    rw [hp, reconstructPath_none hp0 fuel]
    exact ⟨rfl, rfl⟩
  | succ v ih =>
    intro p fuel hg hf
    obtain ⟨q, hq⟩ := hpp p v hg
    obtain ⟨w, hqv, hgq, hgp, -, -⟩ := hch p q hq
    have hwv : w = v := by
      rw [hg] at hgp
      rw [Option.some.injEq] at hgp
      omega
    rw [hwv] at hgq
    cases fuel with
    | zero => omega
    | succ f =>
      obtain ⟨hl, hh⟩ := ih q f hgq (by omega)
      rw [reconstructPath]
      simp only [hq]
      constructor
      · rw [List.length_append, hl]
        simp
      · cases hqr : reconstructPath s.prev f q with
        | nil =>
          rw [hqr] at hl
          simp at hl
        | cons a l =>
          rw [hqr] at hh
          rw [List.head?_cons] at hh
          show (a :: (l ++ [p])).head? = some start
          rw [List.head?_cons]
          exact hh

/-- A full `astar` run from an in-bounds start returns and satisfies
the A* contract. -/
theorem astar_spec {g : Grid} {start : Pos} (endP : Pos) (hs : inB g start) :
    ∃ trace' s' em, astar g start endP = some (trace', s', em) ∧
      AstarPost g start endP trace' s' em := by
  obtain ⟨t, s', em, hrun, hpost⟩ := astarLoop_master hs (stdFuel g)
    [start]
    { initState with
      gCost := fun q => if q = start then some 0 else none
      fCost := fun q =>
        if q = start then some (heuristic start endP) else none }
    [] (astarInv_init g start endP) (List.not_mem_nil endP)
    (by
      have hcu : countUnvis g initState.visited ≤ g.R * g.C :=
        countUnvis_le g _
      unfold stdFuel
      simp only [List.length_singleton]
      omega)
  exact ⟨t, s', em, hrun, hpost⟩

/-! ## The `animate` success computation -/

theorem reconstructPath_length_pos (prev : Pos → Option Pos) :
    ∀ (fuel : Nat) (p : Pos),
      1 ≤ (reconstructPath prev fuel p).length := by
  intro fuel
  induction fuel with
  | zero => intro p; exact le_refl 1
  | succ f ih =>
    intro p
    rw [reconstructPath]
    cases hp : prev p with
    | none => exact le_refl 1
    | some q =>
      rw [List.length_append, List.length_singleton]
      omega

/-- The success flag of `animate`: since the reconstructed path is never
empty, `path.length >= 1` always holds and the test reduces to
`path[0] === startNode && !endNode.isWall && endNode.isVisited`. -/
theorem animateCore_success (g : Grid) (a b : Pos) (t : List Pos)
    (s : SState) :
    (animateCore g a b t s).success =
      (decide ((reconstructPath s.prev (g.R * g.C) b).head? = some a) &&
        !g.wall b && s.visited b) := by
  show (decide (1 ≤ (reconstructPath s.prev (g.R * g.C) b).length) &&
      decide ((reconstructPath s.prev (g.R * g.C) b).head? = some a) &&
      !g.wall b && s.visited b) = _
  rw [decide_eq_true (reconstructPath_length_pos s.prev (g.R * g.C) b)]
  rw [Bool.true_and]

theorem animateCore_visitedCount (g : Grid) (a b : Pos) (t : List Pos)
    (s : SState) :
    (animateCore g a b t s).visitedCount = t.length := rfl

theorem animateCore_pathLength (g : Grid) (a b : Pos) (t : List Pos)
    (s : SState) :
    (animateCore g a b t s).pathLength =
      (if (animateCore g a b t s).success = true then
        (reconstructPath s.prev (g.R * g.C) b).length else 0) := rfl

theorem animateCore_pathLength_zero {g : Grid} {a b : Pos}
    {t : List Pos} {s : SState}
    (h : (animateCore g a b t s).success = false) :
    (animateCore g a b t s).pathLength = 0 := by
  rw [animateCore_pathLength, h]
  simp

theorem C1_bfs_shortest_path_witness :
    inB g22 (0, 0) ∧ reachB g22 (0, 0) 2 (1, 1) = true ∧
    ∃ trace' s' d,
      bfs g22 (0, 0) (1, 1) = some (trace', s', false) ∧
      hasDist g22 (0, 0) d (1, 1) ∧
      (reconstructPath s'.prev (g22.R * g22.C) (1, 1)).length = d + 1 ∧
      (reconstructPath s'.prev (g22.R * g22.C) (1, 1)).head? =
        some (0, 0) :=
  ⟨by decide, by decide,
    C1_bfs_shortest_path g22 (0, 0) (1, 1) (by decide) ⟨2, by decide⟩⟩

/-- C2: A* reports success exactly when BFS does on the same grid and
start/end pair, and when both succeed the reconstructed paths have the
same length — the Manhattan heuristic keeps A* complete and optimal. -/
theorem C2_astar_complete_optimal (g : Grid) (start endP : Pos)
    (hs : inB g start) :
    ∃ tb sb emb ta sa ema,
      bfs g start endP = some (tb, sb, emb) ∧
      astar g start endP = some (ta, sa, ema) ∧
      (animateCore g start endP ta sa).success =
        (animateCore g start endP tb sb).success ∧
      ((animateCore g start endP tb sb).success = true →
        (animateCore g start endP ta sa).pathLength =
          (animateCore g start endP tb sb).pathLength) := by
  obtain ⟨tb, sb, emb, hrunB, hchB, hp0B, hsvB, hndB, htvB, hemtB,
    hemfB⟩ := bfs_spec endP hs
  obtain ⟨ta, sa, ema, hrunA, hndA, hviA, htbA, hchA, hppA, hzA, hgsA,
    hpsA, hemtA, hemfA⟩ := astar_spec endP hs
  refine ⟨tb, sb, emb, ta, sa, ema, hrunB, hrunA, ?_⟩
  have hsB := animateCore_success g start endP tb sb
  have hsA := animateCore_success g start endP ta sa
  classical
  by_cases hreach : ∃ dE, hasDist g start dE endP
  · obtain ⟨dE, hdE⟩ := hreach
    have hembF : emb = false := by
      cases emb with
      | false => rfl
      | true =>
        obtain ⟨hiff, hall, hnot⟩ := hemtB rfl
        exact absurd ((hiff endP).1 (hall dE endP hdE)) hnot
    have hemaF : ema = false := by
      cases ema with
      | false => rfl
      | true =>
        obtain ⟨-, hnoD⟩ := hemtA rfl
        exact absurd hdE (hnoD dE)
    obtain ⟨hmemB, hvEB, dE', hdE', hinclB⟩ := hemfB hembF
    obtain ⟨hmemA, hvEA, dEa, hdEa, hgEa⟩ := hemfA hemaF
    have hdEaeq : dEa = dE := hasDist_unique hdEa hdE
    obtain ⟨hlB, hhB⟩ := reconstructPath_chain hchB hp0B dE endP
      (g.R * g.C) hvEB hdE (le_of_lt (hasDist_lt_cells hs hdE))
    rw [hdEaeq] at hgEa
    obtain ⟨hlA, hhA⟩ := reconstructPath_gchain hchA hppA hzA hpsA dE
      endP (g.R * g.C) hgEa (le_of_lt (hasDist_lt_cells hs hdE))
    have hseq : (animateCore g start endP ta sa).success =
        (animateCore g start endP tb sb).success := by
      rw [hsA, hsB, hhA, hhB, hvEA, hvEB]
    refine ⟨hseq, ?_⟩
    intro hsucc
    rw [animateCore_pathLength, animateCore_pathLength, hsucc,
      hseq.trans hsucc]
    simp [hlA, hlB]
  · have hvEB : sb.visited endP = false := by
      cases emb with
      | true =>
        obtain ⟨hiff, -, hnot⟩ := hemtB rfl
        by_cases h : sb.visited endP = true
        · exact absurd ((hiff endP).1 h) hnot
        · rwa [Bool.not_eq_true] at h
      | false =>
        obtain ⟨-, -, dE', hdE', -⟩ := hemfB rfl
        exact absurd ⟨dE', hdE'⟩ hreach
    have hvEA : sa.visited endP = false := by
      cases ema with
      | true =>
        obtain ⟨hnot, -⟩ := hemtA rfl
        by_cases h : sa.visited endP = true
        · exact absurd ((hviA endP).1 h) hnot
        · rwa [Bool.not_eq_true] at h
      | false =>
        obtain ⟨-, -, dEa, hdEa, -⟩ := hemfA rfl
        exact absurd ⟨dEa, hdEa⟩ hreach
    have hseq : (animateCore g start endP ta sa).success =
        (animateCore g start endP tb sb).success := by
      rw [hsA, hsB, hvEA, hvEB]
      simp
    refine ⟨hseq, ?_⟩
    intro hsucc
    exfalso
    rw [hsB, hvEB] at hsucc
    simp at hsucc

theorem C2_astar_complete_optimal_witness :
    inB g22 (0, 0) ∧
    ∃ tb sb emb ta sa ema,
      bfs g22 (0, 0) (1, 1) = some (tb, sb, emb) ∧
      astar g22 (0, 0) (1, 1) = some (ta, sa, ema) ∧
      (animateCore g22 (0, 0) (1, 1) ta sa).success =
        (animateCore g22 (0, 0) (1, 1) tb sb).success ∧
      ((animateCore g22 (0, 0) (1, 1) tb sb).success = true →
        (animateCore g22 (0, 0) (1, 1) ta sa).pathLength =
          (animateCore g22 (0, 0) (1, 1) tb sb).pathLength) :=
  ⟨by decide, C2_astar_complete_optimal g22 (0, 0) (1, 1) (by decide)⟩

/-- C3: on a grid with at least one wall, A*'s visitation trace (and so
its reported visited count) is never longer than BFS's, for the same
start and end. -/
theorem C3_astar_visits_at_most_bfs (g : Grid) (start endP : Pos)
    (hs : inB g start) (hwall : ∃ p, inB g p ∧ g.wall p = true) :
    ∃ tb sb emb ta sa ema,
      bfs g start endP = some (tb, sb, emb) ∧
      astar g start endP = some (ta, sa, ema) ∧
      ta.length ≤ tb.length ∧
      (animateCore g start endP ta sa).visitedCount ≤
        (animateCore g start endP tb sb).visitedCount := by
  obtain ⟨tb, sb, emb, hrunB, hchB, hp0B, hsvB, hndB, htvB, hemtB,
    hemfB⟩ := bfs_spec endP hs
  obtain ⟨ta, sa, ema, hrunA, hndA, hviA, htbA, hchA, hppA, hzA, hgsA,
    hpsA, hemtA, hemfA⟩ := astar_spec endP hs
  have hsub : ∀ x ∈ ta, x ∈ tb := by
    intro x hx
    obtain ⟨⟨n, hreachx⟩, hbound⟩ := htbA x hx
    classical
    by_cases hE : ∃ dE, hasDist g start dE endP
    · obtain ⟨dE, hdE⟩ := hE
      have hembF : emb = false := by
        cases emb with
        | false => rfl
        | true =>
          obtain ⟨hiff, hall, hnot⟩ := hemtB rfl
          exact absurd ((hiff endP).1 (hall dE endP hdE)) hnot
      obtain ⟨hmemB, -, dE', hdE', hinclB⟩ := hemfB hembF
      have hdEeq : dE' = dE := hasDist_unique hdE' hdE
      by_cases hxE : x = endP
      · rw [hxE]
        exact hmemB
      · obtain ⟨k, hk, hklt⟩ := hbound hxE dE hdE
        exact hinclB x k hk (by omega)
    · have hembT : emb = true := by
        cases emb with
        | true => rfl
        | false =>
          obtain ⟨-, -, dE', hdE', -⟩ := hemfB rfl
          exact absurd ⟨dE', hdE'⟩ hE
      obtain ⟨hiff, hall, -⟩ := hemtB hembT
      obtain ⟨d, -, hd⟩ := hasDist_of_reachB hreachx
      exact (hiff x).1 (hall d x hd)
  have hlen : ta.length ≤ tb.length :=
    List.Subperm.length_le (List.Nodup.subperm hndA hsub)
  exact ⟨tb, sb, emb, ta, sa, ema, hrunB, hrunA, hlen, hlen⟩

theorem C3_astar_visits_at_most_bfs_witness :
    inB g33blocked (0, 0) ∧
    (∃ p, inB g33blocked p ∧ g33blocked.wall p = true) ∧
    ∃ tb sb emb ta sa ema,
      bfs g33blocked (0, 0) (0, 2) = some (tb, sb, emb) ∧
      astar g33blocked (0, 0) (0, 2) = some (ta, sa, ema) ∧
      ta.length ≤ tb.length ∧
      (animateCore g33blocked (0, 0) (0, 2) ta sa).visitedCount ≤
        (animateCore g33blocked (0, 0) (0, 2) tb sb).visitedCount :=
  ⟨by decide, ⟨(0, 1), by decide, by decide⟩,
    C3_astar_visits_at_most_bfs g33blocked (0, 0) (0, 2) (by decide)
      ⟨(0, 1), by decide, by decide⟩⟩

/-- C9: each of the three searches terminates (returns within the
standard fuel, which the fuel-indexed loops witness by yielding `some`)
on every grid, wall configuration and in-bounds start; the
duplicate-free traces reflect that no cell is ever finalized twice. -/
theorem C9_all_searches_terminate (g : Grid) (start endP : Pos)
    (hs : inB g start) :
    (∃ tb sb emb, bfs g start endP = some (tb, sb, emb) ∧ tb.Nodup) ∧
    (∃ td sd emd, dfs g start endP = some (td, sd, emd) ∧ td.Nodup) ∧
    (∃ ta sa ema, astar g start endP = some (ta, sa, ema) ∧
      ta.Nodup) := by
  refine ⟨?_, ?_, ?_⟩
  · obtain ⟨t, s', em, hrun, -, -, -, hnd, -, -, -⟩ :=
      bfs_spec endP hs
    exact ⟨t, s', em, hrun, hnd⟩
  · obtain ⟨t, s', em, hrun, hnd, -, -, -⟩ := dfs_spec endP hs
    exact ⟨t, s', em, hrun, hnd⟩
  · obtain ⟨t, s', em, hrun, hnd, -⟩ := astar_spec endP hs
    exact ⟨t, s', em, hrun, hnd⟩

theorem C9_all_searches_terminate_witness :
    inB g22 (0, 1) ∧
    ((∃ tb sb emb, bfs g22 (0, 1) (1, 0) = some (tb, sb, emb) ∧
        tb.Nodup) ∧
      (∃ td sd emd, dfs g22 (0, 1) (1, 0) = some (td, sd, emd) ∧
        td.Nodup) ∧
      (∃ ta sa ema, astar g22 (0, 1) (1, 0) = some (ta, sa, ema) ∧
        ta.Nodup)) :=
  ⟨by decide, C9_all_searches_terminate g22 (0, 1) (1, 0) (by decide)⟩

/-- C5: for each of the three searches, the run returns (no exception);
`animate` reports success exactly when the reconstructed sequence starts
at the start cell, the end cell is not a wall and the end cell is
visited; a failed run reports path length 0; and the end cell is missing
from the trace exactly when the frontier emptied without finalizing
it. -/
theorem C5_success_iff_and_failure_semantics (g : Grid)
    (start endP : Pos) (hs : inB g start) :
    (∃ t s em, bfs g start endP = some (t, s, em) ∧
      (animateCore g start endP t s).success =
        (decide ((reconstructPath s.prev (g.R * g.C) endP).head? =
          some start) && !g.wall endP && s.visited endP) ∧
      ((animateCore g start endP t s).success = false →
        (animateCore g start endP t s).pathLength = 0) ∧
      (endP ∉ t ↔ em = true)) ∧
    (∃ t s em, dfs g start endP = some (t, s, em) ∧
      (animateCore g start endP t s).success =
        (decide ((reconstructPath s.prev (g.R * g.C) endP).head? =
          some start) && !g.wall endP && s.visited endP) ∧
      ((animateCore g start endP t s).success = false →
        (animateCore g start endP t s).pathLength = 0) ∧
      (endP ∉ t ↔ em = true)) ∧
    (∃ t s em, astar g start endP = some (t, s, em) ∧
      (animateCore g start endP t s).success =
        (decide ((reconstructPath s.prev (g.R * g.C) endP).head? =
          some start) && !g.wall endP && s.visited endP) ∧
      ((animateCore g start endP t s).success = false →
        (animateCore g start endP t s).pathLength = 0) ∧
      (endP ∉ t ↔ em = true)) := by
  refine ⟨?_, ?_, ?_⟩
  · obtain ⟨t, s', em, hrun, -, -, -, -, -, hemt, hemf⟩ :=
      bfs_spec endP hs
    refine ⟨t, s', em, hrun, animateCore_success g start endP t s',
      fun h => animateCore_pathLength_zero h, ?_⟩
    constructor
    · intro hno
      cases em with
      | true => rfl
      | false => exact absurd (hemf rfl).1 hno
    · intro hem
      exact (hemt hem).2.2
  · obtain ⟨t, s', em, hrun, -, -, hemt, hemf⟩ :=
      dfs_spec endP hs
    refine ⟨t, s', em, hrun, animateCore_success g start endP t s',
      fun h => animateCore_pathLength_zero h, ?_⟩
    constructor
    · intro hno
      cases em with
      | true => rfl
      | false => exact absurd (hemf rfl).1 hno
    · intro hem
      exact hemt hem
  · obtain ⟨t, s', em, hrun, -, -, -, -, -, -, -, -, hemt, hemf⟩ :=
      astar_spec endP hs
    refine ⟨t, s', em, hrun, animateCore_success g start endP t s',
      fun h => animateCore_pathLength_zero h, ?_⟩
    constructor
    · intro hno
      cases em with
      | true => rfl
      | false => exact absurd (hemf rfl).1 hno
    · intro hem
      exact (hemt hem).1

theorem C5_success_iff_and_failure_semantics_witness :
    inB g33blocked (1, 0) ∧
    ((∃ t s em, bfs g33blocked (1, 0) (1, 2) = some (t, s, em) ∧
        (animateCore g33blocked (1, 0) (1, 2) t s).success =
          (decide ((reconstructPath s.prev
            (g33blocked.R * g33blocked.C) (1, 2)).head? =
            some (1, 0)) && !g33blocked.wall (1, 2) &&
            s.visited (1, 2)) ∧
        ((animateCore g33blocked (1, 0) (1, 2) t s).success = false →
          (animateCore g33blocked (1, 0) (1, 2) t s).pathLength = 0) ∧
        ((1, 2) ∉ t ↔ em = true)) ∧
      (∃ t s em, dfs g33blocked (1, 0) (1, 2) = some (t, s, em) ∧
        (animateCore g33blocked (1, 0) (1, 2) t s).success =
          (decide ((reconstructPath s.prev
            (g33blocked.R * g33blocked.C) (1, 2)).head? =
            some (1, 0)) && !g33blocked.wall (1, 2) &&
            s.visited (1, 2)) ∧
        ((animateCore g33blocked (1, 0) (1, 2) t s).success = false →
          (animateCore g33blocked (1, 0) (1, 2) t s).pathLength = 0) ∧
        ((1, 2) ∉ t ↔ em = true)) ∧
      (∃ t s em, astar g33blocked (1, 0) (1, 2) = some (t, s, em) ∧
        (animateCore g33blocked (1, 0) (1, 2) t s).success =
          (decide ((reconstructPath s.prev
            (g33blocked.R * g33blocked.C) (1, 2)).head? =
            some (1, 0)) && !g33blocked.wall (1, 2) &&
            s.visited (1, 2)) ∧
        ((animateCore g33blocked (1, 0) (1, 2) t s).success = false →
          (animateCore g33blocked (1, 0) (1, 2) t s).pathLength = 0) ∧
        ((1, 2) ∉ t ↔ em = true))) :=
  ⟨by decide,
    C5_success_iff_and_failure_semantics g33blocked (1, 0) (1, 2)
      (by decide)⟩

end PathHunter
